import Mathlib

/-!
# μMML driver (`mmml_driver.cpp`, `mmml_driver.hpp`)

A shallow embedding of the four-channel 1-bit music player and the properties
its specification states about it.

Conventions of the embedding.

* `unsigned char` values are natural numbers kept below `256`; `unsigned int`
  values are natural numbers kept below `2 ^ w`, where `w` is the width of
  `int`/`unsigned int` on the target (16 on AVR, 32 on RP2350 and ESP32).  Every
  store that can overflow reduces explicitly.
* An array `T a[CHANNELS]` is a function `Fin 4 → Nat`, the loop tables
  `T a[MAXLOOPS][CHANNELS]` are functions `Fin 5 → Fin 4 → Nat`.
* The program is the byte array behind `music_data`; `nullptr` is `none`.
* A read outside an array (program, loop tables, sample tables) is undefined
  behaviour in C++ and is reported as `Fault.undefinedBehaviour`.
* The `goto LOOP` fetch loop has no bound in the source; `fetchLoop` iterates
  `fetchStep` (one trip through the loop body) under a fuel counter and reports
  `Fault.outOfFuel` when the counter runs out.
* `pinMode` and `digitalWrite` act on hardware only and are not modelled; the
  value written by `digitalWrite` is the value `mmml_driver_update` returns.
-/

namespace MMML

/-- One byte of program memory (`unsigned char`). -/
abbrev Byte := Fin 256

/-- Number of channels. -/
def CHANNELS : Nat := 4

/-- Sampler playback rate. -/
def SAMPLE_SPEED : Nat := 5

/-- Length of the sample array. -/
def SAMPLE_LENGTH : Nat := 127

/-- Maximum number of nested loops. -/
def MAXLOOPS : Nat := 5

/-- Note table (entry 0 is the period used for rests). -/
def NOTES : List Nat :=
  [255, 1024, 967, 912, 861, 813, 767, 724, 683, 645, 609, 575, 542]

/-- Location of the individual samples in the sample array. -/
def SAMPLE_INDICIES : List Nat := [0, 19, 34, 74, 118, 126]

/-- Raw PWM sample data. -/
def SAMPLES : List Nat := [
  -- bwoop (0)
  0b10101010, 0b10110110, 0b10000111, 0b11111000,
  0b10000100, 0b00110111, 0b11101000, 0b11000001,
  0b00000111, 0b00111101, 0b11111000, 0b11100000,
  0b10010001, 0b10000111, 0b00000111, 0b00001111,
  0b00001111, 0b00011011, 0b00011110,
  -- beep (19)
  0b10101010, 0b00101010, 0b00110011, 0b00110011,
  0b00110011, 0b00110011, 0b00110011, 0b11001101,
  0b11001100, 0b11001100, 0b11001100, 0b10101100,
  0b10011001, 0b00110001, 0b00110011,
  -- kick (34)
  0b10010101, 0b10110010, 0b00000000, 0b11100011,
  0b11110000, 0b00000000, 0b11111111, 0b00000000,
  0b11111110, 0b00000000, 0b00000000, 0b00000000,
  0b11111111, 0b11111111, 0b11111111, 0b00100101,
  0b00000000, 0b00000000, 0b00000000, 0b00000000,
  0b11111111, 0b11110111, 0b11111111, 0b11111111,
  0b11111111, 0b10111111, 0b00010010, 0b00000000,
  0b10000000, 0b00000000, 0b00000000, 0b00000000,
  0b00000000, 0b11101110, 0b11111111, 0b11111111,
  0b11111111, 0b11110111, 0b11111111, 0b11111110,
  -- snare (74)
  0b10011010, 0b10011010, 0b10101010, 0b10010110,
  0b01110100, 0b10010101, 0b10001010, 0b11011110,
  0b01110100, 0b10100000, 0b11110111, 0b00100101,
  0b01110100, 0b01101000, 0b11111111, 0b01011011,
  0b01000001, 0b10000000, 0b11010100, 0b11111101,
  0b11011110, 0b00010010, 0b00000100, 0b00100100,
  0b11101101, 0b11111011, 0b01011011, 0b00100101,
  0b00000100, 0b10010001, 0b01101010, 0b11011111,
  0b01110111, 0b00010101, 0b00000010, 0b00100010,
  0b11010101, 0b01111010, 0b11101111, 0b10110110,
  0b00100100, 0b10000100, 0b10100100, 0b11011010,
  -- hi-hat (118)
  0b10011010, 0b01110100, 0b11010100, 0b00110011,
  0b00110011, 0b11101000, 0b11101000, 0b01010101,
  0b01010101]

/-- Ways in which a run of the model stops without a result. -/
inductive Fault where
  | undefinedBehaviour
  | outOfFuel
  deriving DecidableEq, Repr

/-- The driver record `struct MMMLDriver`. -/
structure MMMLDriver where
  out : Fin 4 → Nat
  octave : Fin 4 → Nat
  length : Fin 4 → Nat
  volume : Fin 4 → Nat
  loops_active : Fin 4 → Nat
  current_length : Fin 4 → Nat
  data_pointer : Fin 4 → Nat
  waveform : Fin 4 → Nat
  pitch_counter : Fin 4 → Nat
  frequency : Fin 4 → Nat
  loop_duration : Fin 5 → Fin 4 → Nat
  loop_point : Fin 5 → Fin 4 → Nat
  pointer_location : Fin 4 → Nat
  current_byte : Nat
  current_bit : Nat
  sample_counter : Nat
  current_sample : Nat
  buffer1 : Nat
  buffer2 : Nat
  buffer3 : Nat
  buffer4 : Nat
  tick_counter : Nat
  tick_speed : Nat
  output_pin : Nat
  music_data : Option (List Byte)

/-- Store into a one-dimensional array: `a[i] = x`. -/
def setAt {n : Nat} (a : Fin n → Nat) (i : Fin n) (x : Nat) : Fin n → Nat :=
  fun j => if j = i then x else a j

/-- Store into a loop table: `a[r][voice] = x`. -/
def setRow (a : Fin 5 → Fin 4 → Nat) (r : Fin 5) (voice : Fin 4) (x : Nat) :
    Fin 5 → Fin 4 → Nat :=
  fun i j => if i = r ∧ j = voice then x else a i j

/-- A driver record of static storage duration before `mmml_driver_init`:
every member zero, no program. -/
def MMMLDriver.zero : MMMLDriver where
  out := fun _ => 0
  octave := fun _ => 0
  length := fun _ => 0
  volume := fun _ => 0
  loops_active := fun _ => 0
  current_length := fun _ => 0
  data_pointer := fun _ => 0
  waveform := fun _ => 0
  pitch_counter := fun _ => 0
  frequency := fun _ => 0
  loop_duration := fun _ _ => 0
  loop_point := fun _ _ => 0
  pointer_location := fun _ => 0
  current_byte := 0
  current_bit := 0
  sample_counter := 0
  current_sample := 0
  buffer1 := 0
  buffer2 := 0
  buffer3 := 0
  buffer4 := 0
  tick_counter := 0
  tick_speed := 0
  output_pin := 0
  music_data := none

/-- The read `music_data[i]`. -/
def rd (prog : List Byte) (i : Nat) : Except Fault Nat :=
  match prog[i]? with
  | some b => .ok b.val
  | none => .error .undefinedBehaviour

/-- The 16-bit table entry `music_data[slot * 2] << 8 | music_data[slot * 2 + 1]`
as it is stored in an `unsigned int`. -/
def headerWord (w : Nat) (prog : List Byte) (slot : Nat) : Except Fault Nat :=
  match rd prog (slot * 2) with
  | .error e => .error e
  | .ok hi =>
    match rd prog (slot * 2 + 1) with
    | .error e => .error e
    | .ok lo => .ok (((hi <<< 8) % 2 ^ w) ||| lo)

/-- The members every channel gets in the `for` loop shared by `mmml_driver_init`
and `mmml_driver_play`, with the cursor value `dp`. -/
def resetChannel (d : MMMLDriver) (i : Fin 4) (dp : Nat) : MMMLDriver :=
  { d with
    data_pointer := setAt d.data_pointer i dp
    frequency := setAt d.frequency i 255
    volume := setAt d.volume i 1
    octave := setAt d.octave i 3 }

/-- The assignments that open both `mmml_driver_init` and `mmml_driver_play`
(`buffer2` is assigned twice in the source, `buffer3` not at all). -/
def resetGlobals (d : MMMLDriver) : MMMLDriver :=
  { d with
    current_byte := 0
    current_bit := 0
    sample_counter := 0
    current_sample := 0
    buffer1 := 0
    buffer2 := 0
    buffer4 := 0
    tick_counter := 0
    tick_speed := 1024 }

/-- The function `mmml_driver_init(driver, pin)`; the parameter `pin` is an
`unsigned char`. -/
def mmml_driver_init (d : MMMLDriver) (pin : Nat) : MMMLDriver :=
  let d0 := { resetGlobals { d with output_pin := pin % 256 } with music_data := none }
  resetChannel (resetChannel (resetChannel (resetChannel d0 0 0) 1 0) 2 0) 3 0

/-- One iteration of the `for` loop of `mmml_driver_play`. -/
def playChannel (w : Nat) (prog : List Byte) (d : MMMLDriver) (i : Fin 4) :
    Except Fault MMMLDriver :=
  match headerWord w prog i.val with
  | .error e => .error e
  | .ok dp => .ok (resetChannel d i dp)

/-- The function `mmml_driver_play(driver, music_data)`.  It reads the four header
entries of the program, so a program shorter than 8 bytes is read out of bounds. -/
def mmml_driver_play (w : Nat) (d : MMMLDriver) (prog : List Byte) :
    Except Fault MMMLDriver :=
  let d0 := { resetGlobals d with music_data := some prog }
  (((playChannel w prog d0 0).bind fun d1 => playChannel w prog d1 1).bind
    fun d2 => playChannel w prog d2 2).bind fun d3 => playChannel w prog d3 3

/-- The function `mmml_driver_stop(driver)`: the stored pin (an `unsigned int`) is passed to
the `unsigned char` parameter of `mmml_driver_init`. -/
def mmml_driver_stop (d : MMMLDriver) : MMMLDriver :=
  mmml_driver_init d d.output_pin

/-- The sampler's bit slot: read the next bit of the selected sample into
`out[3]`, or silence the channel when the sample is over.  The comparison
`current_byte < current_sample - 1` is made in `int`. -/
def sampleBit (d : MMMLDriver) : Except Fault MMMLDriver :=
  if (d.current_byte : Int) < (d.current_sample : Int) - 1 then
    match SAMPLES[d.current_byte]? with
    | none => .error .undefinedBehaviour
    | some s =>
      .ok { d with
        out := setAt d.out 3 ((s >>> d.current_bit) &&& 1)
        current_bit := (d.current_bit + 1) % 256 }
  else
    .ok { d with out := setAt d.out 3 0 }

/-- Move to the next byte on bit pointer overflow. -/
def nextSampleByte (d : MMMLDriver) : MMMLDriver :=
  if d.current_bit > 7 then
    { d with current_byte := (d.current_byte + 1) % 256, current_bit := 0 }
  else d

/-- Sampler (channel D) code of `mmml_driver_update`. -/
def sampler (d : MMMLDriver) : Except Fault MMMLDriver :=
  if d.sample_counter = 0 then
    match sampleBit d with
    | .error e => .error e
    | .ok d1 => .ok { nextSampleByte d1 with sample_counter := SAMPLE_SPEED }
  else
    .ok { d with sample_counter := d.sample_counter - 1 }

/-- Pulse code of `mmml_driver_update` for channel `i` (the source repeats it for
channels A, B and C). -/
def pulse (w : Nat) (d : MMMLDriver) (i : Fin 4) : MMMLDriver :=
  let pc0 := (d.pitch_counter i + d.octave i) % 2 ^ w
  let pc := if pc0 ≥ d.frequency i then pc0 - d.frequency i else pc0
  let o1 := if pc ≤ d.waveform i then 1 else d.out i
  let o2 := if pc ≥ d.waveform i then 0 else o1
  { d with pitch_counter := setAt d.pitch_counter i pc, out := setAt d.out i o2 }

/-- First nibble of a data byte: `(b >> 4) & 15`. -/
def hiNibble (b : Nat) : Nat := (b >>> 4) &&& 15

/-- Second nibble of a data byte: `b & 15`. -/
def loNibble (b : Nat) : Nat := b &&& 15

/-- Row `loops_active[voice] - 1` of the loop tables.  The subtraction is done in
`int`; a row outside `0 .. MAXLOOPS - 1` is outside the table. -/
def loopRow (depth : Nat) : Except Fault (Fin 5) :=
  if h : 1 ≤ depth ∧ depth ≤ 5 then .ok ⟨depth - 1, by omega⟩
  else .error .undefinedBehaviour

/-- Move the cursor of channel `voice` on by `n` bytes
(`data_pointer[voice]++`, `data_pointer[voice] += 2`). -/
def advance (w : Nat) (d : MMMLDriver) (voice : Fin 4) (n : Nat) : MMMLDriver :=
  { d with data_pointer := setAt d.data_pointer voice ((d.data_pointer voice + n) % 2 ^ w) }

/-- Extended command 0, loop start.  `buffer3 - 1` is computed in `int` and
stored in an `unsigned int`. -/
def loopStart (w : Nat) (d : MMMLDriver) (voice : Fin 4) : Except Fault MMMLDriver :=
  let depth := (d.loops_active voice + 1) % 256
  match loopRow depth with
  | .error e => .error e
  | .ok r =>
    .ok (advance w { d with
      loops_active := setAt d.loops_active voice depth
      loop_point := setRow d.loop_point r voice ((d.data_pointer voice + 2) % 2 ^ w)
      loop_duration := setRow d.loop_duration r voice ((d.buffer3 + 2 ^ w - 1) % 2 ^ w) }
      voice 2)

/-- Extended command 1, loop end. -/
def loopEnd (w : Nat) (d : MMMLDriver) (voice : Fin 4) : Except Fault MMMLDriver :=
  match loopRow (d.loops_active voice) with
  | .error e => .error e
  | .ok r =>
    if d.loop_duration r voice > 0 then
      .ok { d with
        data_pointer := setAt d.data_pointer voice (d.loop_point r voice)
        loop_duration := setRow d.loop_duration r voice (d.loop_duration r voice - 1) }
    else
      .ok (advance w { d with
        loops_active := setAt d.loops_active voice ((d.loops_active voice + 255) % 256) }
        voice 1)

/-- Extended command 2: call of the subroutine in table slot
`buffer3 + CHANNELS`. -/
def subroutineCall (w : Nat) (prog : List Byte) (d : MMMLDriver) (voice : Fin 4) :
    Except Fault MMMLDriver :=
  match headerWord w prog (d.buffer3 + CHANNELS) with
  | .error e => .error e
  | .ok target =>
    .ok { d with
      pointer_location := setAt d.pointer_location voice ((d.data_pointer voice + 2) % 2 ^ w)
      data_pointer := setAt d.data_pointer voice target }

/-- Extended command 3, tempo. -/
def tempoChange (w : Nat) (d : MMMLDriver) (voice : Fin 4) : MMMLDriver :=
  advance w { d with tick_speed := (d.buffer3 <<< 4) % 2 ^ w } voice 2

/-- Extended command 15: back to the caller when a return address is stored,
else back to the start of the channel's data. -/
def trackReturn (w : Nat) (prog : List Byte) (d : MMMLDriver) (voice : Fin 4) :
    Except Fault MMMLDriver :=
  if d.pointer_location voice ≠ 0 then
    .ok { d with
      data_pointer := setAt d.data_pointer voice (d.pointer_location voice)
      pointer_location := setAt d.pointer_location voice 0 }
  else
    match headerWord w prog voice.val with
    | .error e => .error e
    | .ok start => .ok { d with data_pointer := setAt d.data_pointer voice start }

/-- The `switch (driver->buffer2)` of the extended commands (`buffer1 == 15`),
entered with the operand byte already in `buffer3`. -/
def extendedCommand (w : Nat) (prog : List Byte) (d : MMMLDriver) (voice : Fin 4) :
    Except Fault MMMLDriver :=
  if d.buffer2 = 0 then loopStart w d voice
  else if d.buffer2 = 1 then loopEnd w d voice
  else if d.buffer2 = 2 then subroutineCall w prog d voice
  else if d.buffer2 = 3 then .ok (tempoChange w d voice)
  else if d.buffer2 = 6 then .ok (advance w d voice 1)
  else if d.buffer2 = 4 ∨ d.buffer2 = 5 then .ok (advance w d voice 2)
  else if d.buffer2 = 15 then trackReturn w prog d voice
  else .ok d

/-- The `default:` branch of `switch (driver->buffer1)`: a note or a rest on a
pulse channel, a sample on channel D. -/
def toneEvent (d : MMMLDriver) (voice : Fin 4) : Except Fault MMMLDriver :=
  if d.buffer1 ≠ 0 ∧ d.buffer1 < 14 then
    if voice.val < 3 then
      match NOTES[d.buffer1]? with
      | none => .error .undefinedBehaviour
      | some period =>
        .ok { d with
          buffer4 := period
          frequency := setAt d.frequency voice period
          waveform := setAt d.waveform voice (period >>> d.volume voice) }
    else
      match SAMPLE_INDICIES[d.buffer1 - 1]?, SAMPLE_INDICIES[d.buffer1]? with
      | some first, some last =>
        .ok { d with current_bit := 0, current_byte := first, current_sample := last }
      | _, _ => .error .undefinedBehaviour
  else
    .ok { d with waveform := setAt d.waveform voice 0 }

/-- The note duration value selected by the second nibble. -/
def noteLength (n : Nat) : Nat :=
  if n < 8 then 0x7F >>> n else 95 >>> (n &&& 7)

/-- One sounding event: the `default:` branch, then the note duration code and
the step to the next element in the data. -/
def soundingEvent (w : Nat) (d : MMMLDriver) (voice : Fin 4) : Except Fault MMMLDriver :=
  match toneEvent d voice with
  | .error e => .error e
  | .ok d1 =>
    .ok (advance w { d1 with length := setAt d1.length voice (noteLength d1.buffer2) } voice 1)

/-- How one trip through the body of the fetch loop ends: `again` is
`goto LOOP`, `done` is falling out of the loop after a sounding event. -/
inductive Ctl where
  | again
  | done
  deriving DecidableEq, Repr

/-- Attach the way the trip ends to its result. -/
def Ctl.tag (c : Ctl) (r : Except Fault MMMLDriver) : Except Fault (Ctl × MMMLDriver) :=
  match r with
  | .error e => .error e
  | .ok d => .ok (c, d)

/-- The two nibbles of the data byte `b` stored in `buffer1` and `buffer2`. -/
def decode (d : MMMLDriver) (b : Nat) : MMMLDriver :=
  { d with buffer1 := hiNibble b, buffer2 := loNibble b }

/-- The operand byte of an extended command stored in `buffer3`. -/
def withOperand (d : MMMLDriver) (operand : Nat) : MMMLDriver :=
  { d with buffer3 := operand }

/-- One trip through the body under the label `LOOP` for channel `voice`. -/
def fetchStep (w : Nat) (d : MMMLDriver) (voice : Fin 4) : Except Fault (Ctl × MMMLDriver) :=
  match d.music_data with
  | none => .error .undefinedBehaviour
  | some prog =>
    match rd prog (d.data_pointer voice) with
    | .error e => .error e
    | .ok b =>
      let d1 := decode d b
      if d1.buffer1 = 15 then
        match rd prog ((d1.data_pointer voice + 1) % 2 ^ w) with
        | .error e => .error e
        | .ok operand =>
          Ctl.again.tag (extendedCommand w prog (withOperand d1 operand) voice)
      else if d1.buffer1 = 13 then
        .ok (.again,
          advance w { d1 with octave := setAt d1.octave voice ((1 <<< d1.buffer2) % 256) } voice 1)
      else if d1.buffer1 = 14 then
        .ok (.again, advance w { d1 with volume := setAt d1.volume voice d1.buffer2 } voice 1)
      else
        Ctl.done.tag (soundingEvent w d1 voice)

/-- The fetch loop of channel `voice`: trips through the loop body until a
sounding event ends it, at most `fuel` of them. -/
def fetchLoop (w : Nat) : Nat → MMMLDriver → Fin 4 → Except Fault MMMLDriver
  | 0, _, _ => .error .outOfFuel
  | fuel + 1, d, voice =>
    match fetchStep w d voice with
    | .error e => .error e
    | .ok (.again, d1) => fetchLoop w fuel d1 voice
    | .ok (.done, d1) => .ok d1

/-- The body of `for (voice ...)` in the data processing code. -/
def channelPass (w fuel : Nat) (d : MMMLDriver) (voice : Fin 4) : Except Fault MMMLDriver :=
  if d.length voice = 0 then fetchLoop w fuel d voice
  else .ok { d with length := setAt d.length voice (d.length voice - 1) }

/-- One sequencer pass: the `for` loop over the four channels. -/
def sequencerPass (w fuel : Nat) (d : MMMLDriver) : Except Fault MMMLDriver :=
  (((channelPass w fuel d 0).bind fun d1 => channelPass w fuel d1 1).bind
    fun d2 => channelPass w fuel d2 2).bind fun d3 => channelPass w fuel d3 3

/-- The data processing code of `mmml_driver_update`. -/
def dataProcessing (w fuel : Nat) (d : MMMLDriver) : Except Fault MMMLDriver :=
  if d.tick_counter = 0 then
    sequencerPass w fuel { d with tick_counter := d.tick_speed }
  else
    .ok { d with tick_counter := d.tick_counter - 1 }

/-- The value `out[0] | out[1] | out[2] | out[3]`. -/
def mixOutput (d : MMMLDriver) : Nat :=
  d.out 0 ||| d.out 1 ||| d.out 2 ||| d.out 3

/-- The function `mmml_driver_update(driver)`: the returned output and the new driver
record. -/
def mmml_driver_update (w fuel : Nat) (d : MMMLDriver) : Except Fault (Nat × MMMLDriver) :=
  match d.music_data with
  | none => .ok (0, d)
  | some _ =>
    match sampler d with
    | .error e => .error e
    | .ok d1 =>
      match dataProcessing w fuel (pulse w (pulse w (pulse w d1 0) 1) 2) with
      | .error e => .error e
      | .ok d2 => .ok (mixOutput d2, d2)

/-- The outputs of `n` successive calls of `mmml_driver_update` and the driver
record after them. -/
def runUpdates (w fuel : Nat) : Nat → MMMLDriver → Except Fault (List Nat × MMMLDriver)
  | 0, d => .ok ([], d)
  | n + 1, d =>
    match mmml_driver_update w fuel d with
    | .error e => .error e
    | .ok (o, d1) =>
      match runUpdates w fuel n d1 with
      | .error e => .error e
      | .ok (os, d2) => .ok (o :: os, d2)

/-- The number of sequencer passes made by `n` successive calls of
`mmml_driver_update`: the calls entered with a program bound and the tempo
countdown at 0 (the test `tick_counter-- == 0`). -/
def passCount (w fuel : Nat) : Nat → MMMLDriver → Nat
  | 0, _ => 0
  | n + 1, d =>
    (if d.music_data.isSome ∧ d.tick_counter = 0 then 1 else 0) +
      match mmml_driver_update w fuel d with
      | .error _ => 0
      | .ok (_, d1) => passCount w fuel n d1

/-- The sequencer of one channel on its own: `k` successive trips through the
fetch-loop body of channel `voice`, whatever pass they fall in, together with the
cursor positions of the sounding events processed on the way, in order.  What
the driver does between two trips of a channel (the synthesizer code, the trips
of the other channels, the countdown of the remaining length) leaves the
registers that the channel's trips read as they are; see `fetchStep_frame`,
`sampler_frame`, `pulse_frame` and `channelPass_holding`. -/
def chanSteps (w : Nat) : Nat → MMMLDriver → Fin 4 → Except Fault (List Nat × MMMLDriver)
  | 0, d, _ => .ok ([], d)
  | k + 1, d, voice =>
    match fetchStep w d voice with
    | .error e => .error e
    | .ok (ctl, d1) =>
      match chanSteps w k d1 voice with
      | .error e => .error e
      | .ok (events, d2) =>
        .ok ((if ctl = .done then [d.data_pointer voice] else []) ++ events, d2)

/-- A small program: channel A plays note 1 (byte `0x10`) and then restarts, the
other three channels rest and restart. -/
def demoSong : List Byte :=
  [0, 8, 0, 11, 0, 11, 0, 11, 0x10, 0xFF, 0x00, 0x00, 0xFF, 0x00]

/-- The driver record left by `mmml_driver_init` on a zero-filled record, with
output pin 13. -/
def freshDriver : MMMLDriver := mmml_driver_init MMMLDriver.zero 13

/-- The outputs returned by `mmml_driver_play(program)` followed by `n` calls of
`mmml_driver_update`. -/
def playedOutputs (w fuel n : Nat) (d : MMMLDriver) (prog : List Byte) :
    Except Fault (List Nat) :=
  match mmml_driver_play w d prog with
  | .error e => .error e
  | .ok d0 => (runUpdates w fuel n d0).map Prod.fst

/-- Two driver records agree on the members that `mmml_driver_play` leaves as
they are and that `mmml_driver_update` reads: channel outputs, remaining
lengths, loop-stack depths and entries, return slots, phase accumulators and
duty thresholds. -/
def agreeOnKept (s1 s2 : MMMLDriver) : Prop :=
  s1.out = s2.out ∧ s1.length = s2.length ∧ s1.loops_active = s2.loops_active ∧
  s1.waveform = s2.waveform ∧ s1.pitch_counter = s2.pitch_counter ∧
  s1.loop_duration = s2.loop_duration ∧ s1.loop_point = s2.loop_point ∧
  s1.pointer_location = s2.pointer_location

/-- The record with the three members cleared that no code path of
`mmml_driver_update` reads before writing: `buffer3`, `current_length` and
`output_pin`. -/
def erase (d : MMMLDriver) : MMMLDriver :=
  { d with buffer3 := 0, current_length := fun _ => 0, output_pin := 0 }

/-- The record with those three members replaced. -/
def over (d : MMMLDriver) (b3 : Nat) (cl : Fin 4 → Nat) (pin : Nat) : MMMLDriver :=
  { d with buffer3 := b3, current_length := cl, output_pin := pin }

/-- A step of the driver whose result, up to `erase`, does not depend on the
three erased members. -/
def Oblivious (f : MMMLDriver → Except Fault MMMLDriver) : Prop :=
  ∀ d1 d2, erase d1 = erase d2 → (f d1).map erase = (f d2).map erase

/-- Channel `v` keeps its sequencer and oscillator registers between `d` and
`d'`. -/
def sameChannel (v : Fin 4) (d d' : MMMLDriver) : Prop :=
  d'.octave v = d.octave v ∧ d'.length v = d.length v ∧ d'.volume v = d.volume v ∧
  d'.loops_active v = d.loops_active v ∧ d'.data_pointer v = d.data_pointer v ∧
  d'.waveform v = d.waveform v ∧ d'.frequency v = d.frequency v ∧
  (∀ r, d'.loop_duration r v = d.loop_duration r v) ∧
  (∀ r, d'.loop_point r v = d.loop_point r v) ∧
  d'.pointer_location v = d.pointer_location v

/-- Channel `v` has been held through `k` passes between `d` and `d'`: the length
counter went down by `k`, the cursor and the oscillator parameters stayed. -/
def heldBy (k : Nat) (v : Fin 4) (d d' : MMMLDriver) : Prop :=
  d'.length v + k = d.length v ∧ d'.data_pointer v = d.data_pointer v ∧
  d'.frequency v = d.frequency v ∧ d'.waveform v = d.waveform v ∧
  d'.octave v = d.octave v ∧ d'.volume v = d.volume v

/-- Channel `v` is inside the loop opened at cursor `c` from loop-stack depth
`depth`: the program is bound, the cursor is at `cur`, the stack is one deeper
and its top entry holds the loop point `c + 2` and `dur` remaining repeats. -/
def InLoop (prog : List Byte) (v : Fin 4) (c depth : Nat) (d : MMMLDriver) (cur dur : Nat) :
    Prop :=
  d.music_data = some prog ∧ d.data_pointer v = cur ∧ d.loops_active v = depth + 1 ∧
  ∃ r : Fin 5, r.val = depth ∧ d.loop_point r v = c + 2 ∧ d.loop_duration r v = dur

/-- The driver record after `n` further calls of `mmml_driver_update` (the record
itself when a call fails). -/
def afterUpdates (w fuel n : Nat) (d : MMMLDriver) : MMMLDriver :=
  match runUpdates w fuel n d with
  | .ok (_, d') => d'
  | .error _ => d

/-- The driver record after `mmml_driver_init`, `mmml_driver_play(prog)` and `n`
calls of `mmml_driver_update`. -/
def stateAfter (w fuel : Nat) (prog : List Byte) (n : Nat) : MMMLDriver :=
  match mmml_driver_play w freshDriver prog with
  | .error _ => freshDriver
  | .ok d0 => afterUpdates w fuel n d0

/-- A program whose channel A sets the tempo reload value to 0 and then plays two
short notes (length `127 >> 5 = 3`); the other channels rest. -/
def tempoSong : List Byte :=
  [0, 8, 0, 14, 0, 14, 0, 14, 0xF3, 0x00, 0x15, 0x25, 0xFF, 0x00, 0x00, 0xFF, 0x00]

/-- A program whose channel A loops over one rest with operand 3. -/
def loopSong : List Byte :=
  [0, 8, 0, 13, 0, 13, 0, 13, 0xF0, 0x03, 0x00, 0xF1, 0xFF, 0x00, 0xFF, 0x00]

/-- The same program with loop operand 0. -/
def zeroLoopSong : List Byte :=
  [0, 8, 0, 13, 0, 13, 0, 13, 0xF0, 0x00, 0x00, 0xF1, 0xFF, 0x00, 0xFF, 0x00]

/-- A program whose channel A calls subroutine 0 (table slot 4, at offset 14),
which plays one note and returns. -/
def callSong : List Byte :=
  [0, 10, 0, 16, 0, 16, 0, 16, 0, 14, 0xF2, 0x00, 0xFF, 0x00, 0x10, 0xFF, 0x00, 0xFF, 0x00]

/-! ## Definitions for the synthesis stage and the sample player -/

/-- The three pulse channels A, B and C advanced in turn, as written out in the
section `SYNTHESIZER CODE` of `mmml_driver_update`. -/
def pulseAll (w : Nat) (d : MMMLDriver) : MMMLDriver :=
  pulse w (pulse w (pulse w d 0) 1) 2

/-- The members that no statement of the data processing section assigns: the
channel outputs, the phase accumulators, the prescaler of the sample player,
the tempo countdown and the loaded program. -/
def seqKeeps (d d' : MMMLDriver) : Prop :=
  d'.out = d.out ∧ d'.pitch_counter = d.pitch_counter ∧
  d'.sample_counter = d.sample_counter ∧ d'.tick_counter = d.tick_counter ∧
  d'.music_data = d.music_data

/-- The members that no command byte (extended, octave, volume) assigns: those
of `seqKeeps`, the note periods and duty thresholds, and the cursor of the
sample player. -/
def cmdKeeps (d d' : MMMLDriver) : Prop :=
  seqKeeps d d' ∧ d'.waveform = d.waveform ∧ d'.frequency = d.frequency ∧
  d'.current_byte = d.current_byte ∧ d'.current_bit = d.current_bit ∧
  d'.current_sample = d.current_sample

/-- Every pulse channel has its duty threshold at most its note period. -/
def dutyBounded (d : MMMLDriver) : Prop :=
  ∀ i : Fin 4, i.val < 3 → d.waveform i ≤ d.frequency i

/-- The cursor of the sample player is inside the sample bank: the bit cursor is
a bit position, the end index is at most the last entry of `SAMPLE_INDICIES`,
and the byte cursor is below the end index (or both are still 0). -/
def sampleInv (d : MMMLDriver) : Prop :=
  d.current_bit ≤ 7 ∧ d.current_sample ≤ 126 ∧
  (d.current_byte + 1 ≤ d.current_sample ∨ (d.current_sample = 0 ∧ d.current_byte = 0))

/-- The sample player alone over `n` calls of `mmml_driver_update`: the list
holds `out[3]` after each call that was entered with the prescaler at 0. -/
def samplerRun : Nat → MMMLDriver → Except Fault (List Nat × MMMLDriver)
  | 0, d => .ok ([], d)
  | n + 1, d =>
    match sampler d with
    | .error e => .error e
    | .ok d1 =>
      match samplerRun n d1 with
      | .error e => .error e
      | .ok (bits, d2) => .ok ((if d.sample_counter = 0 then [d1.out 3] else []) ++ bits, d2)

/-- Bit `j` of the bytes of `SAMPLES` from index `first` on, bit 0 of each byte
first. -/
def bankBit (first j : Nat) : Nat :=
  (SAMPLES.getD (first + j / 8) 0 >>> (j % 8)) &&& 1

/-- The bit expected in slot `j` of a waveform with cursor `first` and end index
`last`: bit `j` of the bytes `first .. last - 2`, and 0 after them. -/
def slotBit (first last j : Nat) : Nat :=
  if j < 8 * (last - 1 - first) then bankBit first j else 0

/-- The first `k` bits expected from a waveform with cursor `first` and end
index `last`: the bits of the bytes `first .. last - 2` in order, then zeros. -/
def sampleBits (first last k : Nat) : List Nat :=
  (List.range k).map (slotBit first last)

/-- The cursor of the sample player after `j` bit slots of a waveform with
cursor `first` and end index `last`: it stops at byte `last - 1`, bit 0. -/
def cursorAt (first last j : Nat) (d : MMMLDriver) : Prop :=
  d.current_sample = last ∧
  d.current_byte = first + min j (8 * (last - 1 - first)) / 8 ∧
  d.current_bit = min j (8 * (last - 1 - first)) % 8

/-- A program whose channel A sets octave multiplier 64 and volume 3 and then
sounds note 12; channels B, C and D rest. -/
def sharpSong : List Byte :=
  [0, 8, 0, 13, 0, 13, 0, 13,
   0xD6, 0xE3, 0xC0, 0xFF, 0x00,
   0x00, 0xFF, 0x00]

/-- A program whose channels start with the extended command 7, which has no
`case` in the source. -/
def stuckSong : List Byte :=
  [0, 8, 0, 8, 0, 8, 0, 8,
   0xF7, 0x00]

/-- A program whose channels A, B and C rest and whose channel D sounds
waveform 5. -/
def drumSong : List Byte :=
  [0, 8, 0, 8, 0, 8, 0, 11,
   0x00, 0xFF, 0x00,
   0x50, 0xFF, 0x00]

/-- The phase accumulator of channel `i` after the advance by the octave
multiplier and the single conditional subtraction of the period, as computed in
`pulse`. -/
def nextPhase (w : Nat) (d : MMMLDriver) (i : Fin 4) : Nat :=
  let pc0 := (d.pitch_counter i + d.octave i) % 2 ^ w
  if pc0 ≥ d.frequency i then pc0 - d.frequency i else pc0

/-- A program whose channels start with the octave command `0xD8`. -/
def octaveSong : List Byte :=
  [0, 8, 0, 8, 0, 8, 0, 8,
   0xD8, 0x00, 0xFF, 0x00]

/-- Two driver records agree on the members the sample player reads and
writes: its cursor and end index, its prescaler and `out[3]`. -/
def sameSampler (a b : MMMLDriver) : Prop :=
  b.current_byte = a.current_byte ∧ b.current_bit = a.current_bit ∧
  b.current_sample = a.current_sample ∧ b.sample_counter = a.sample_counter ∧
  b.out 3 = a.out 3


/-- The driver records that calls of the four functions of the driver can
produce: `mmml_driver_init` on any record, then any sequence of
`mmml_driver_play`, `mmml_driver_update` and `mmml_driver_stop`. -/
inductive Reached (w fuel : Nat) : MMMLDriver → Prop
  | init (s : MMMLDriver) (pin : Nat) : Reached w fuel (mmml_driver_init s pin)
  | play {d d' : MMMLDriver} (prog : List Byte) :
      Reached w fuel d → mmml_driver_play w d prog = .ok d' → Reached w fuel d'
  | update {d d' : MMMLDriver} (o : Nat) :
      Reached w fuel d → mmml_driver_update w fuel d = .ok (o, d') → Reached w fuel d'
  | stop {d : MMMLDriver} : Reached w fuel d → Reached w fuel (mmml_driver_stop d)

/-- A program whose channel D starts with the byte `0x60`: a sounding event with
first nibble 6. -/
def sixthSampleSong : List Byte :=
  [0, 8, 0, 8, 0, 8, 0, 11,
   0x00, 0xFF, 0x00,
   0x60, 0xFF, 0x00]

/-! ## Arrays, bytes and words -/

@[simp] theorem setAt_same {n : Nat} (a : Fin n → Nat) (i : Fin n) (x : Nat) :
    setAt a i x i = x := by
  simp [setAt]

@[simp] theorem setAt_other {n : Nat} (a : Fin n → Nat) (i j : Fin n) (x : Nat) (h : j ≠ i) :
    setAt a i x j = a j := by
  simp [setAt, h]

theorem rd_lt {prog : List Byte} {i b : Nat} (h : rd prog i = .ok b) : b < 256 := by
  unfold rd at h
  split at h
  · rename_i x _
    cases h
    exact x.isLt
  · cases h

theorem rd_index_lt {prog : List Byte} {i b : Nat} (h : rd prog i = .ok b) :
    i < prog.length := by
  unfold rd at h
  split at h
  · rename_i x hx
    exact (List.getElem?_eq_some.mp hx).1
  · cases h

theorem rd_of_some {prog : List Byte} {i : Nat} {b : Byte} (h : prog[i]? = some b) :
    rd prog i = .ok b.val := by
  simp [rd, h]

theorem hiNibble_eq (b : Nat) : hiNibble b = b / 16 % 16 := by
  unfold hiNibble
  rw [Nat.shiftRight_eq_div_pow]
  exact Nat.and_pow_two_sub_one_eq_mod _ 4

theorem loNibble_eq (b : Nat) : loNibble b = b % 16 := by
  unfold loNibble
  exact Nat.and_pow_two_sub_one_eq_mod _ 4

theorem hiNibble_pack {k n : Nat} (hk : k < 16) (hn : n < 16) :
    hiNibble (16 * k + n) = k := by
  rw [hiNibble_eq]; omega

theorem loNibble_pack {k n : Nat} (hn : n < 16) : loNibble (16 * k + n) = n := by
  rw [loNibble_eq]; omega

/-- Assembling a big-endian 16-bit word in an `unsigned int` of at least 16 bits
loses nothing. -/
theorem word_eq {w hi lo : Nat} (hw : 16 ≤ w) (hhi : hi < 256) (hlo : lo < 256) :
    ((hi <<< 8) % 2 ^ w) ||| lo = 256 * hi + lo := by
  have h16 : 2 ^ 16 ≤ 2 ^ w := Nat.pow_le_pow_right (by decide) hw
  have hsmall : hi <<< 8 < 2 ^ w := by
    rw [Nat.shiftLeft_eq]
    have : hi * 2 ^ 8 < 2 ^ 16 := by norm_num; omega
    omega
  rw [Nat.mod_eq_of_lt hsmall, Nat.shiftLeft_eq, Nat.mul_comm]
  have := Nat.mul_add_lt_is_or (i := 8) (b := lo) (by simpa using hlo) hi
  rw [← this]

theorem headerWord_eq {w : Nat} {prog : List Byte} {slot : Nat} {hi lo : Byte} (hw : 16 ≤ w)
    (h0 : prog[slot * 2]? = some hi) (h1 : prog[slot * 2 + 1]? = some lo) :
    headerWord w prog slot = .ok (256 * hi.val + lo.val) := by
  simp only [headerWord, rd_of_some h0, rd_of_some h1, word_eq hw hi.isLt lo.isLt]

/-! ## Idle driver -/

/-- Claim C1.  When no program is bound (`music_data` is null),
`mmml_driver_update` returns 0 and the driver record it leaves is the record it
was given, member for member. -/
theorem update_without_program (w fuel : Nat) (d : MMMLDriver) (h : d.music_data = none) :
    mmml_driver_update w fuel d = .ok (0, d) := by
  simp [mmml_driver_update, h]

/-- Claim C1 at the record left by `mmml_driver_init`. -/
theorem update_without_program_witness :
    (mmml_driver_init MMMLDriver.zero 13).music_data = none ∧
      mmml_driver_update 16 0 (mmml_driver_init MMMLDriver.zero 13)
        = .ok (0, mmml_driver_init MMMLDriver.zero 13) :=
  ⟨rfl, update_without_program 16 0 _ rfl⟩

/-! ## `mmml_driver_play` -/

/-- The record `mmml_driver_play` leaves when the four header entries are
readable. -/
theorem play_eq {w : Nat} {d : MMMLDriver} {prog : List Byte} {x0 x1 x2 x3 : Nat}
    (h0 : headerWord w prog 0 = .ok x0) (h1 : headerWord w prog 1 = .ok x1)
    (h2 : headerWord w prog 2 = .ok x2) (h3 : headerWord w prog 3 = .ok x3) :
    mmml_driver_play w d prog = .ok (resetChannel (resetChannel (resetChannel (resetChannel
      { resetGlobals d with music_data := some prog } 0 x0) 1 x1) 2 x2) 3 x3) := by
  have e3 : ((3 : Fin 4) : Nat) = 3 := rfl
  simp [mmml_driver_play, playChannel, h0, h1, h2, h3, e3, Except.bind]

/-- Claim C2.  For a program of at least 8 bytes `mmml_driver_play` succeeds from
every driver record; afterwards channel `i` has cursor
`256 * program[2i] + program[2i+1]`, note period 255, volume 1 and octave
multiplier 3, the tempo countdown is 0, the tempo reload value is 1024, the
program is bound and the output pin is the one the record had. -/
theorem play_loads_header (w : Nat) (hw : 16 ≤ w) (d : MMMLDriver) (prog : List Byte)
    (hlen : 8 ≤ prog.length) :
    ∃ d', mmml_driver_play w d prog = .ok d' ∧
      (∀ i : Fin 4, ∃ hi lo : Byte,
        prog[2 * i.val]? = some hi ∧ prog[2 * i.val + 1]? = some lo ∧
        d'.data_pointer i = 256 * hi.val + lo.val ∧
        d'.frequency i = 255 ∧ d'.volume i = 1 ∧ d'.octave i = 3) ∧
      d'.tick_counter = 0 ∧ d'.tick_speed = 1024 ∧
      d'.music_data = some prog ∧ d'.output_pin = d.output_pin := by
  have hb : ∀ k, k < 8 → ∃ b : Byte, prog[k]? = some b := fun k hk =>
    ⟨prog[k], List.getElem?_eq_getElem (by omega)⟩
  obtain ⟨b0, h0⟩ := hb 0 (by omega)
  obtain ⟨b1, h1⟩ := hb 1 (by omega)
  obtain ⟨b2, h2⟩ := hb 2 (by omega)
  obtain ⟨b3, h3⟩ := hb 3 (by omega)
  obtain ⟨b4, h4⟩ := hb 4 (by omega)
  obtain ⟨b5, h5⟩ := hb 5 (by omega)
  obtain ⟨b6, h6⟩ := hb 6 (by omega)
  obtain ⟨b7, h7⟩ := hb 7 (by omega)
  refine ⟨_, play_eq (headerWord_eq hw h0 h1) (headerWord_eq hw h2 h3)
    (headerWord_eq hw h4 h5) (headerWord_eq hw h6 h7), ?_, rfl, rfl, rfl, rfl⟩
  intro i
  fin_cases i
  · exact ⟨b0, b1, h0, h1, by simp [resetChannel, resetGlobals]⟩
  · exact ⟨b2, b3, h2, h3, by simp [resetChannel, resetGlobals]⟩
  · exact ⟨b4, b5, h4, h5, by simp [resetChannel, resetGlobals]⟩
  · exact ⟨b6, b7, h6, h7, by simp [resetChannel, resetGlobals]⟩

/-- Claim C2 on a 16-bit target, for `demoSong` played on a freshly initialised
driver. -/
theorem play_loads_header_witness :
    (16 ≤ 16 ∧ 8 ≤ demoSong.length) ∧
    ∃ d', mmml_driver_play 16 (mmml_driver_init MMMLDriver.zero 13) demoSong = .ok d' ∧
      (∀ i : Fin 4, ∃ hi lo : Byte,
        demoSong[2 * i.val]? = some hi ∧ demoSong[2 * i.val + 1]? = some lo ∧
        d'.data_pointer i = 256 * hi.val + lo.val ∧
        d'.frequency i = 255 ∧ d'.volume i = 1 ∧ d'.octave i = 3) ∧
      d'.tick_counter = 0 ∧ d'.tick_speed = 1024 ∧
      d'.music_data = some demoSong ∧
      d'.output_pin = (mmml_driver_init MMMLDriver.zero 13).output_pin :=
  ⟨⟨by decide, by decide⟩,
    play_loads_header 16 (by decide) (mmml_driver_init MMMLDriver.zero 13) demoSong (by decide)⟩

/-! ## Determinism of the output after `mmml_driver_play`

`mmml_driver_update` never reads `current_length` or `output_pin`, and reads
`buffer3` only after writing it.  Two records that differ only there are
indistinguishable by their outputs; this is shown member function by member
function with the override `over` and the projection `erase`. -/

theorem eq_over_of_erase_eq {d1 d2 : MMMLDriver} (h : erase d1 = erase d2) :
    d1 = over d2 d1.buffer3 d1.current_length d1.output_pin := by
  cases d1; cases d2
  simp only [erase, MMMLDriver.mk.injEq] at h
  simp only [over, MMMLDriver.mk.injEq]
  simp_all

theorem erase_over (d : MMMLDriver) (b3 : Nat) (cl : Fin 4 → Nat) (pin : Nat) :
    erase (over d b3 cl pin) = erase d := rfl

/-- Two results with the same image under `Except.map f` fail alike or succeed
with values that `f` identifies. -/
theorem map_eq_cases {α β : Type} {f : α → β} {x y : Except Fault α}
    (h : x.map f = y.map f) :
    (∃ e, x = .error e ∧ y = .error e) ∨ (∃ a b, x = .ok a ∧ y = .ok b ∧ f a = f b) := by
  cases x with
  | error e1 =>
    cases y with
    | error e2 =>
      left
      refine ⟨e1, rfl, ?_⟩
      simp only [Except.map, Except.error.injEq] at h
      rw [h]
    | ok b => simp [Except.map] at h
  | ok a =>
    cases y with
    | error e2 => simp [Except.map] at h
    | ok b =>
      right
      refine ⟨a, b, rfl, rfl, ?_⟩
      simpa [Except.map] using h

theorem sampleBit_over (d : MMMLDriver) (b3 : Nat) (cl : Fin 4 → Nat) (pin : Nat) :
    sampleBit (over d b3 cl pin) = (sampleBit d).map (over · b3 cl pin) := by
  unfold sampleBit
  dsimp only [over]
  split_ifs
  · cases SAMPLES[d.current_byte]? <;> rfl
  · rfl

theorem nextSampleByte_over (d : MMMLDriver) (b3 : Nat) (cl : Fin 4 → Nat) (pin : Nat) :
    nextSampleByte (over d b3 cl pin) = over (nextSampleByte d) b3 cl pin := by
  unfold nextSampleByte
  dsimp only [over]
  split_ifs <;> rfl

theorem sampler_over (d : MMMLDriver) (b3 : Nat) (cl : Fin 4 → Nat) (pin : Nat) :
    sampler (over d b3 cl pin) = (sampler d).map (over · b3 cl pin) := by
  unfold sampler
  rw [sampleBit_over]
  by_cases h : d.sample_counter = 0
  · have h' : (over d b3 cl pin).sample_counter = 0 := h
    rw [if_pos h, if_pos h']
    cases sampleBit d with
    | error e => rfl
    | ok d1 =>
      simp only [Except.map, nextSampleByte_over]
      rfl
  · have h' : ¬ (over d b3 cl pin).sample_counter = 0 := h
    rw [if_neg h, if_neg h']
    rfl

theorem pulse_over (w : Nat) (d : MMMLDriver) (i : Fin 4) (b3 : Nat) (cl : Fin 4 → Nat)
    (pin : Nat) :
    pulse w (over d b3 cl pin) i = over (pulse w d i) b3 cl pin := rfl

theorem loopStart_over (w : Nat) (d : MMMLDriver) (v : Fin 4) (b3 : Nat) (cl : Fin 4 → Nat)
    (pin : Nat) (hb : b3 = d.buffer3) :
    loopStart w (over d b3 cl pin) v = (loopStart w d v).map (over · b3 cl pin) := by
  subst hb
  unfold loopStart
  dsimp only [over]
  cases loopRow ((d.loops_active v + 1) % 256) <;> rfl

theorem loopEnd_over (w : Nat) (d : MMMLDriver) (v : Fin 4) (b3 : Nat) (cl : Fin 4 → Nat)
    (pin : Nat) (hb : b3 = d.buffer3) :
    loopEnd w (over d b3 cl pin) v = (loopEnd w d v).map (over · b3 cl pin) := by
  subst hb
  unfold loopEnd
  dsimp only [over]
  cases loopRow (d.loops_active v) with
  | error e => rfl
  | ok r => dsimp only; split_ifs <;> rfl

theorem subroutineCall_over (w : Nat) (prog : List Byte) (d : MMMLDriver) (v : Fin 4) (b3 : Nat)
    (cl : Fin 4 → Nat) (pin : Nat) (hb : b3 = d.buffer3) :
    subroutineCall w prog (over d b3 cl pin) v
      = (subroutineCall w prog d v).map (over · b3 cl pin) := by
  subst hb
  unfold subroutineCall
  dsimp only [over]
  cases headerWord w prog (d.buffer3 + CHANNELS) <;> rfl

theorem trackReturn_over (w : Nat) (prog : List Byte) (d : MMMLDriver) (v : Fin 4) (b3 : Nat)
    (cl : Fin 4 → Nat) (pin : Nat) :
    trackReturn w prog (over d b3 cl pin) v = (trackReturn w prog d v).map (over · b3 cl pin) := by
  unfold trackReturn
  dsimp only [over]
  split_ifs
  · rfl
  · cases headerWord w prog v.val <;> rfl

theorem extendedCommand_over (w : Nat) (prog : List Byte) (d : MMMLDriver) (v : Fin 4) (b3 : Nat)
    (cl : Fin 4 → Nat) (pin : Nat) (hb : b3 = d.buffer3) :
    extendedCommand w prog (over d b3 cl pin) v
      = (extendedCommand w prog d v).map (over · b3 cl pin) := by
  unfold extendedCommand
  rw [loopStart_over _ _ _ _ _ _ hb, loopEnd_over _ _ _ _ _ _ hb,
    subroutineCall_over _ _ _ _ _ _ _ hb, trackReturn_over]
  subst hb
  have hb2 : (over d d.buffer3 cl pin).buffer2 = d.buffer2 := rfl
  rw [hb2]
  split_ifs <;> rfl

theorem toneEvent_over (d : MMMLDriver) (v : Fin 4) (b3 : Nat) (cl : Fin 4 → Nat) (pin : Nat) :
    toneEvent (over d b3 cl pin) v = (toneEvent d v).map (over · b3 cl pin) := by
  unfold toneEvent
  dsimp only [over]
  split_ifs
  · cases NOTES[d.buffer1]? <;> rfl
  · cases SAMPLE_INDICIES[d.buffer1 - 1]? <;> cases SAMPLE_INDICIES[d.buffer1]? <;> rfl
  · rfl

theorem soundingEvent_over (w : Nat) (d : MMMLDriver) (v : Fin 4) (b3 : Nat) (cl : Fin 4 → Nat)
    (pin : Nat) :
    soundingEvent w (over d b3 cl pin) v = (soundingEvent w d v).map (over · b3 cl pin) := by
  unfold soundingEvent
  rw [toneEvent_over]
  cases toneEvent d v <;> rfl

/-- One trip through the fetch loop does not depend on `buffer3`,
`current_length` and `output_pin`. -/
theorem fetchStep_over (w : Nat) (d : MMMLDriver) (v : Fin 4) (b3 : Nat) (cl : Fin 4 → Nat)
    (pin : Nat) :
    (fetchStep w (over d b3 cl pin) v).map (Prod.map id erase)
      = (fetchStep w d v).map (Prod.map id erase) := by
  unfold fetchStep
  have hm : (over d b3 cl pin).music_data = d.music_data := rfl
  have hp : (over d b3 cl pin).data_pointer = d.data_pointer := rfl
  rw [hm, hp]
  cases d.music_data with
  | none => rfl
  | some prog =>
    dsimp only
    cases rd prog (d.data_pointer v) with
    | error e => rfl
    | ok b =>
      dsimp only
      have hb1 : (decode (over d b3 cl pin) b).buffer1 = (decode d b).buffer1 := rfl
      have hb2 : (decode (over d b3 cl pin) b).buffer2 = (decode d b).buffer2 := rfl
      have hdp : (decode (over d b3 cl pin) b).data_pointer = (decode d b).data_pointer := rfl
      rw [hb1, hb2, hdp]
      split_ifs
      · cases rd prog (((decode d b).data_pointer v + 1) % 2 ^ w) with
        | error e => rfl
        | ok operand =>
          dsimp only
          have hy : withOperand (decode (over d b3 cl pin) b) operand
              = over (withOperand (decode d b) operand) operand cl pin := rfl
          rw [hy, extendedCommand_over w prog _ v operand cl pin rfl]
          cases extendedCommand w prog (withOperand (decode d b) operand) v <;> rfl
      · rfl
      · rfl
      · have hs : soundingEvent w (decode (over d b3 cl pin) b) v
            = (soundingEvent w (decode d b) v).map (over · b3 cl pin) :=
          soundingEvent_over w (decode d b) v b3 cl pin
        rw [hs]
        cases soundingEvent w (decode d b) v <;> rfl

theorem fetchLoop_over (w : Nat) (v : Fin 4) : ∀ (fuel : Nat) (d : MMMLDriver) (b3 : Nat)
    (cl : Fin 4 → Nat) (pin : Nat),
    (fetchLoop w fuel (over d b3 cl pin) v).map erase = (fetchLoop w fuel d v).map erase := by
  intro fuel
  induction fuel with
  | zero => intro d b3 cl pin; rfl
  | succ fuel ih =>
    intro d b3 cl pin
    unfold fetchLoop
    rcases map_eq_cases (fetchStep_over w d v b3 cl pin) with ⟨e, h1, h2⟩ | ⟨r1, r2, h1, h2, h⟩
    · rw [h1, h2]
    · rw [h1, h2]
      obtain ⟨c1, a1⟩ := r1
      obtain ⟨c2, a2⟩ := r2
      simp only [Prod.map, id, Prod.mk.injEq] at h
      obtain ⟨hc, ha⟩ := h
      subst hc
      rw [eq_over_of_erase_eq ha]
      cases c1 with
      | again => exact ih _ _ _ _
      | done => simp only [Except.map, erase_over]

theorem oblivious_of_over {f : MMMLDriver → Except Fault MMMLDriver}
    (h : ∀ d b3 cl pin, (f (over d b3 cl pin)).map erase = (f d).map erase) : Oblivious f := by
  intro d1 d2 he
  rw [eq_over_of_erase_eq he]
  exact h _ _ _ _

theorem oblivious_bind {f g : MMMLDriver → Except Fault MMMLDriver}
    (hf : Oblivious f) (hg : Oblivious g) : Oblivious (fun d => (f d).bind g) := by
  intro d1 d2 he
  show ((f d1).bind g).map erase = ((f d2).bind g).map erase
  rcases map_eq_cases (hf d1 d2 he) with ⟨e, h1, h2⟩ | ⟨a, b, h1, h2, hab⟩
  · rw [h1, h2]
  · rw [h1, h2]
    exact hg a b hab

theorem channelPass_oblivious (w fuel : Nat) (v : Fin 4) :
    Oblivious (fun d => channelPass w fuel d v) := by
  apply oblivious_of_over
  intro d b3 cl pin
  unfold channelPass
  have hl : (over d b3 cl pin).length = d.length := rfl
  rw [hl]
  split_ifs
  · exact fetchLoop_over w v fuel d b3 cl pin
  · rfl

theorem sequencerPass_oblivious (w fuel : Nat) : Oblivious (sequencerPass w fuel) := by
  unfold sequencerPass
  exact oblivious_bind (oblivious_bind (oblivious_bind (channelPass_oblivious w fuel 0)
    (channelPass_oblivious w fuel 1)) (channelPass_oblivious w fuel 2))
    (channelPass_oblivious w fuel 3)

theorem dataProcessing_oblivious (w fuel : Nat) : Oblivious (dataProcessing w fuel) := by
  apply oblivious_of_over
  intro d b3 cl pin
  unfold dataProcessing
  have ht : (over d b3 cl pin).tick_counter = d.tick_counter := rfl
  rw [ht]
  split_ifs
  · exact sequencerPass_oblivious w fuel _ _ rfl
  · rfl

/-- The function `mmml_driver_update` returns the same output from two records that differ
only in `buffer3`, `current_length` and `output_pin`, and leaves records that
again differ only there. -/
theorem update_oblivious (w fuel : Nat) (d1 d2 : MMMLDriver) (he : erase d1 = erase d2) :
    (mmml_driver_update w fuel d1).map (Prod.map id erase)
      = (mmml_driver_update w fuel d2).map (Prod.map id erase) := by
  rw [eq_over_of_erase_eq he]
  generalize d1.buffer3 = b3
  generalize d1.current_length = cl
  generalize d1.output_pin = pin
  unfold mmml_driver_update
  have hm : (over d2 b3 cl pin).music_data = d2.music_data := rfl
  rw [hm, sampler_over]
  cases d2.music_data with
  | none => rfl
  | some prog =>
    dsimp only
    cases sampler d2 with
    | error e => rfl
    | ok a =>
      simp only [Except.map, pulse_over]
      rcases map_eq_cases (dataProcessing_oblivious w fuel
        (over (pulse w (pulse w (pulse w a 0) 1) 2) b3 cl pin)
        (pulse w (pulse w (pulse w a 0) 1) 2) rfl) with ⟨e, h1, h2⟩ | ⟨r1, r2, h1, h2, hab⟩
      · rw [h1, h2]
      · rw [h1, h2]
        have hout : mixOutput r1 = mixOutput r2 := by
          have := congrArg MMMLDriver.out hab
          change r1.out = r2.out at this
          simp only [mixOutput, this]
        simp only [Prod.map, id, hout, hab]

theorem runUpdates_oblivious (w fuel : Nat) : ∀ (n : Nat) (d1 d2 : MMMLDriver),
    erase d1 = erase d2 →
    (runUpdates w fuel n d1).map Prod.fst = (runUpdates w fuel n d2).map Prod.fst := by
  intro n
  induction n with
  | zero => intro d1 d2 _; rfl
  | succ n ih =>
    intro d1 d2 he
    unfold runUpdates
    rcases map_eq_cases (update_oblivious w fuel d1 d2 he) with ⟨e, h1, h2⟩ | ⟨r1, r2, h1, h2, h⟩
    · rw [h1, h2]
    · rw [h1, h2]
      obtain ⟨o1, a1⟩ := r1
      obtain ⟨o2, a2⟩ := r2
      simp only [Prod.map, id, Prod.mk.injEq] at h
      obtain ⟨ho, ha⟩ := h
      subst ho
      dsimp only
      rcases map_eq_cases (ih a1 a2 ha) with ⟨e, h3, h4⟩ | ⟨r3, r4, h3, h4, hfst⟩
      · rw [h3, h4]
      · rw [h3, h4]
        simp only [Except.map, hfst]

/-- Storing into all four entries of an array leaves nothing of the old array. -/
theorem setAt_all (a b : Fin 4 → Nat) (x0 x1 x2 x3 : Nat) :
    setAt (setAt (setAt (setAt a 0 x0) 1 x1) 2 x2) 3 x3
      = setAt (setAt (setAt (setAt b 0 x0) 1 x1) 2 x2) 3 x3 := by
  funext i
  fin_cases i <;> simp [setAt]

/-- From two records that agree on the kept members `mmml_driver_play` fails
alike or leaves records that differ only in the erased members. -/
theorem play_agree (w : Nat) (prog : List Byte) (s1 s2 : MMMLDriver) (h : agreeOnKept s1 s2) :
    (mmml_driver_play w s1 prog).map erase = (mmml_driver_play w s2 prog).map erase := by
  obtain ⟨k1, k2, k3, k4, k5, k6, k7, k8⟩ := h
  have e3 : ((3 : Fin 4) : Nat) = 3 := rfl
  cases h0 : headerWord w prog 0 with
  | error e => simp [mmml_driver_play, playChannel, h0, Except.bind, Except.map]
  | ok x0 =>
    cases h1 : headerWord w prog 1 with
    | error e => simp [mmml_driver_play, playChannel, h0, h1, Except.bind, Except.map]
    | ok x1 =>
      cases h2 : headerWord w prog 2 with
      | error e => simp [mmml_driver_play, playChannel, h0, h1, h2, Except.bind, Except.map]
      | ok x2 =>
        cases h3 : headerWord w prog 3 with
        | error e =>
          simp [mmml_driver_play, playChannel, h0, h1, h2, h3, e3, Except.bind, Except.map]
        | ok x3 =>
          rw [play_eq h0 h1 h2 h3, play_eq h0 h1 h2 h3]
          simp only [Except.map, erase, resetChannel, resetGlobals, k1, k2, k3, k4, k5, k6, k7, k8,
            Except.ok.injEq, MMMLDriver.mk.injEq, true_and, and_true]
          exact ⟨setAt_all _ _ 3 3 3 3, setAt_all _ _ 1 1 1 1, setAt_all _ _ x0 x1 x2 x3,
            setAt_all _ _ 255 255 255 255⟩

/-- Claim C3, as the code has it.  `mmml_driver_play` then `n` calls of
`mmml_driver_update` return the same outputs (or fail alike) from two driver
records whenever the two agree on the members `mmml_driver_play` does not
reset: channel outputs, remaining lengths, loop-stack depths and entries, return
slots, phase accumulators and duty thresholds.  The two records may differ in
everything else, the output pin included. -/
theorem play_outputs_agree (w fuel n : Nat) (prog : List Byte) (s1 s2 : MMMLDriver)
    (h : agreeOnKept s1 s2) :
    playedOutputs w fuel n s1 prog = playedOutputs w fuel n s2 prog := by
  unfold playedOutputs
  rcases map_eq_cases (play_agree w prog s1 s2 h) with ⟨e, h1, h2⟩ | ⟨a, b, h1, h2, hab⟩
  · rw [h1, h2]
  · rw [h1, h2]
    exact runUpdates_oblivious w fuel n a b hab

/-- Claim C3 as amended, for two initialised records with different pins and
scratch bytes. -/
theorem play_outputs_agree_witness :
    agreeOnKept freshDriver (mmml_driver_init { MMMLDriver.zero with buffer3 := 9 } 7) ∧
    playedOutputs 16 8 3 freshDriver demoSong
      = playedOutputs 16 8 3 (mmml_driver_init { MMMLDriver.zero with buffer3 := 9 } 7) demoSong :=
  ⟨⟨rfl, rfl, rfl, rfl, rfl, rfl, rfl, rfl⟩,
    play_outputs_agree 16 8 3 demoSong _ _ ⟨rfl, rfl, rfl, rfl, rfl, rfl, rfl, rfl⟩⟩

/-- Claim C3 fails as stated.  Let `used` be the record left by playing
`demoSong` on a fresh driver for two calls of `mmml_driver_update`.  Playing
`demoSong` again returns 0 at the first update from the fresh record and 1 from
`used`: `mmml_driver_play` leaves `length[0] = 127`, `waveform[0] = 512` and the
phase accumulator of channel A as they were. -/
theorem play_outputs_differ :
    ∃ used,
    ((mmml_driver_play 16 freshDriver demoSong).bind fun d0 =>
      (runUpdates 16 8 2 d0).map Prod.snd) = .ok used ∧
    playedOutputs 16 8 1 freshDriver demoSong = .ok [0] ∧
    playedOutputs 16 8 1 used demoSong = .ok [1] :=
  ⟨_, rfl, rfl, rfl⟩

/-! ## Update calls without a program -/

theorem update_idle {w fuel : Nat} {d : MMMLDriver} (h : d.music_data = none) :
    mmml_driver_update w fuel d = .ok (0, d) := by
  simp [mmml_driver_update, h]

theorem runUpdates_idle {w fuel : Nat} {d : MMMLDriver} (h : d.music_data = none) (n : Nat) :
    runUpdates w fuel n d = .ok (List.replicate n 0, d) := by
  induction n with
  | zero => rfl
  | succ n ih => simp [runUpdates, update_idle h, ih, List.replicate_succ]

/-! ## Single trips through the fetch loop -/

/-- A trip through the fetch loop at an extended command (first nibble 15). -/
theorem fetchStep_extended {w : Nat} {d : MMMLDriver} {v : Fin 4} {prog : List Byte}
    {b operand : Nat}
    (hprog : d.music_data = some prog) (hbyte : rd prog (d.data_pointer v) = .ok b)
    (hk : hiNibble b = 15)
    (hop : rd prog ((d.data_pointer v + 1) % 2 ^ w) = .ok operand) :
    fetchStep w d v
      = Ctl.again.tag (extendedCommand w prog (withOperand (decode d b) operand) v) := by
  simp only [fetchStep, hprog, hbyte]
  simp [decode, hk, hop]

/-- A byte whose first nibble is at most 12 is a sounding event: the trip through
the loop body is `soundingEvent` on the decoded nibbles and leaves the loop. -/
theorem fetchStep_sounding {w : Nat} {d : MMMLDriver} {v : Fin 4} {prog : List Byte} {b : Nat}
    (hprog : d.music_data = some prog) (hbyte : rd prog (d.data_pointer v) = .ok b)
    (hk : hiNibble b ≤ 12) :
    fetchStep w d v = Ctl.done.tag (soundingEvent w (decode d b) v) := by
  have h15 : hiNibble b ≠ 15 := by omega
  have h13 : hiNibble b ≠ 13 := by omega
  have h14 : hiNibble b ≠ 14 := by omega
  simp only [fetchStep, hprog, hbyte]
  simp [decode, h15, h13, h14]

theorem NOTES_defined {k : Nat} (hk : k ≤ 12) : ∃ period, NOTES[k]? = some period := by
  interval_cases k <;> simp [NOTES]

theorem SAMPLE_INDICIES_defined {k : Nat} (h1 : 1 ≤ k) (hk : k ≤ 5) :
    ∃ first last, SAMPLE_INDICIES[k - 1]? = some first ∧ SAMPLE_INDICIES[k]? = some last := by
  interval_cases k <;> simp [SAMPLE_INDICIES]

/-- The `default:` branch is defined for the first nibbles 0..12 on a pulse channel
and 0..5 on channel D; it keeps the sequencer members of every channel and the
decoded nibbles. -/
theorem toneEvent_defined {d : MMMLDriver} {v : Fin 4} (hk : d.buffer1 ≤ 12)
    (hsample : v = 3 → d.buffer1 ≤ 5) :
    ∃ d1, toneEvent d v = .ok d1 ∧ d1.data_pointer = d.data_pointer ∧ d1.length = d.length ∧
      d1.buffer1 = d.buffer1 ∧ d1.buffer2 = d.buffer2 ∧ d1.music_data = d.music_data ∧
      d1.loops_active = d.loops_active ∧ d1.loop_duration = d.loop_duration ∧
      d1.loop_point = d.loop_point ∧ d1.pointer_location = d.pointer_location := by
  unfold toneEvent
  by_cases h0 : d.buffer1 ≠ 0 ∧ d.buffer1 < 14
  · rw [if_pos h0]
    by_cases hv : v.val < 3
    · rw [if_pos hv]
      obtain ⟨period, hp⟩ := NOTES_defined hk
      simp [hp]
    · rw [if_neg hv]
      have hv3 : v = 3 := by
        apply Fin.ext
        have := v.isLt
        show v.val = 3
        omega
      obtain ⟨first, last, hf, hl⟩ := SAMPLE_INDICIES_defined (by omega) (hsample hv3)
      simp [hf, hl]
  · rw [if_neg h0]
    simp

/-- The cursor `mmml_driver_play` gives a channel is the channel's header
entry. -/
theorem play_data_pointer {w : Nat} {d0 d1 : MMMLDriver} {prog : List Byte} {v : Fin 4} {x : Nat}
    (hplay : mmml_driver_play w d0 prog = .ok d1) (hx : headerWord w prog v.val = .ok x) :
    d1.data_pointer v = x := by
  have e3 : ((3 : Fin 4) : Nat) = 3 := rfl
  cases h0 : headerWord w prog 0 with
  | error e => simp [mmml_driver_play, playChannel, h0, Except.bind] at hplay
  | ok x0 =>
    cases h1 : headerWord w prog 1 with
    | error e => simp [mmml_driver_play, playChannel, h0, h1, Except.bind] at hplay
    | ok x1 =>
      cases h2 : headerWord w prog 2 with
      | error e => simp [mmml_driver_play, playChannel, h0, h1, h2, Except.bind] at hplay
      | ok x2 =>
        cases h3 : headerWord w prog 3 with
        | error e =>
          simp [mmml_driver_play, playChannel, h0, h1, h2, h3, e3, Except.bind] at hplay
        | ok x3 =>
          rw [play_eq h0 h1 h2 h3] at hplay
          cases hplay
          fin_cases v
          · have : x0 = x := by simpa [h0] using hx
            simp [resetChannel, this]
          · have : x1 = x := by simpa [h1] using hx
            simp [resetChannel, this]
          · have : x2 = x := by simpa [h2] using hx
            simp [resetChannel, this]
          · have : x3 = x := by
              have hx' : headerWord w prog 3 = .ok x := hx
              simpa [h3] using hx'
            simp [resetChannel, this]

/-! ## What a trip through the fetch loop leaves alone -/

theorem sameChannel_refl (v : Fin 4) (d : MMMLDriver) : sameChannel v d d :=
  ⟨rfl, rfl, rfl, rfl, rfl, rfl, rfl, fun _ => rfl, fun _ => rfl, rfl⟩

theorem sameChannel_trans {v : Fin 4} {a b c : MMMLDriver} (h1 : sameChannel v a b)
    (h2 : sameChannel v b c) : sameChannel v a c := by
  obtain ⟨a1, a2, a3, a4, a5, a6, a7, a8, a9, a10⟩ := h1
  obtain ⟨b1, b2, b3, b4, b5, b6, b7, b8, b9, b10⟩ := h2
  exact ⟨b1.trans a1, b2.trans a2, b3.trans a3, b4.trans a4, b5.trans a5, b6.trans a6,
    b7.trans a7, fun r => (b8 r).trans (a8 r), fun r => (b9 r).trans (a9 r), b10.trans a10⟩

theorem setRow_other (a : Fin 5 → Fin 4 → Nat) (r i : Fin 5) (u v : Fin 4) (x : Nat)
    (h : v ≠ u) : setRow a r u x i v = a i v := by
  simp [setRow, h]

/-- Every extended command of channel `u` leaves the registers of another
channel `v` alone. -/
theorem loopStart_frame {w : Nat} {d d' : MMMLDriver} {u v : Fin 4}
    (h : loopStart w d u = .ok d') (hne : v ≠ u) : sameChannel v d d' := by
  unfold loopStart at h
  dsimp only at h
  split at h
  · cases h
  · cases h
    simp [sameChannel, advance, hne, setRow_other]

theorem loopEnd_frame {w : Nat} {d d' : MMMLDriver} {u v : Fin 4}
    (h : loopEnd w d u = .ok d') (hne : v ≠ u) : sameChannel v d d' := by
  unfold loopEnd at h
  split at h
  · cases h
  · split at h <;> cases h <;> simp [sameChannel, advance, hne, setRow_other]

theorem subroutineCall_frame {w : Nat} {prog : List Byte} {d d' : MMMLDriver} {u v : Fin 4}
    (h : subroutineCall w prog d u = .ok d') (hne : v ≠ u) : sameChannel v d d' := by
  unfold subroutineCall at h
  split at h
  · cases h
  · cases h
    simp [sameChannel, hne]

theorem trackReturn_frame {w : Nat} {prog : List Byte} {d d' : MMMLDriver} {u v : Fin 4}
    (h : trackReturn w prog d u = .ok d') (hne : v ≠ u) : sameChannel v d d' := by
  unfold trackReturn at h
  split at h
  · cases h
    simp [sameChannel, hne]
  · split at h
    · cases h
    · cases h
      simp [sameChannel, hne]

theorem advance_frame (w : Nat) (d : MMMLDriver) {u v : Fin 4} (n : Nat) (hne : v ≠ u) :
    sameChannel v d (advance w d u n) := by
  simp [sameChannel, advance, hne]

theorem extendedCommand_frame {w : Nat} {prog : List Byte} {d d' : MMMLDriver} {u v : Fin 4}
    (h : extendedCommand w prog d u = .ok d') (hne : v ≠ u) : sameChannel v d d' := by
  unfold extendedCommand at h
  split_ifs at h
  · exact loopStart_frame h hne
  · exact loopEnd_frame h hne
  · exact subroutineCall_frame h hne
  · cases h; simp [sameChannel, tempoChange, advance, hne]
  · cases h; exact advance_frame w d 1 hne
  · cases h; exact advance_frame w d 2 hne
  · exact trackReturn_frame h hne
  · cases h; exact sameChannel_refl v d

theorem toneEvent_frame {d d' : MMMLDriver} {u v : Fin 4}
    (h : toneEvent d u = .ok d') (hne : v ≠ u) : sameChannel v d d' := by
  unfold toneEvent at h
  split_ifs at h
  · split at h
    · cases h
    · cases h; simp [sameChannel, hne]
  · split at h
    · cases h; simp [sameChannel]
    · cases h
  · cases h; simp [sameChannel, hne]

theorem soundingEvent_frame {w : Nat} {d d' : MMMLDriver} {u v : Fin 4}
    (h : soundingEvent w d u = .ok d') (hne : v ≠ u) : sameChannel v d d' := by
  unfold soundingEvent at h
  split at h
  · cases h
  · rename_i d1 ht
    cases h
    have := toneEvent_frame ht hne
    refine sameChannel_trans this ?_
    simp [sameChannel, advance, hne]

/-- What a successful trip through the fetch loop has done, by the first nibble
of the byte under the cursor. -/
theorem fetchStep_cases {w : Nat} {d d' : MMMLDriver} {u : Fin 4} {c : Ctl}
    (h : fetchStep w d u = .ok (c, d')) :
    ∃ prog b, d.music_data = some prog ∧ rd prog (d.data_pointer u) = .ok b ∧
      ((hiNibble b = 15 ∧ c = .again ∧ ∃ operand,
          rd prog ((d.data_pointer u + 1) % 2 ^ w) = .ok operand ∧
          extendedCommand w prog (withOperand (decode d b) operand) u = .ok d') ∨
       (hiNibble b = 13 ∧ c = .again ∧
          d' = advance w { decode d b with
            octave := setAt d.octave u ((1 <<< loNibble b) % 256) } u 1) ∨
       (hiNibble b = 14 ∧ c = .again ∧
          d' = advance w { decode d b with volume := setAt d.volume u (loNibble b) } u 1) ∨
       (hiNibble b ≠ 15 ∧ hiNibble b ≠ 13 ∧ hiNibble b ≠ 14 ∧ c = .done ∧
          soundingEvent w (decode d b) u = .ok d')) := by
  unfold fetchStep at h
  cases hm : d.music_data with
  | none => rw [hm] at h; cases h
  | some prog =>
    rw [hm] at h
    dsimp only at h
    cases hb : rd prog (d.data_pointer u) with
    | error e => rw [hb] at h; cases h
    | ok b =>
      rw [hb] at h
      dsimp only at h
      refine ⟨prog, b, rfl, hb, ?_⟩
      have hb1 : (decode d b).buffer1 = hiNibble b := rfl
      rw [hb1] at h
      split_ifs at h with h15 h13 h14
      · left
        have hdp : (decode d b).data_pointer = d.data_pointer := rfl
        rw [hdp] at h
        cases hop : rd prog ((d.data_pointer u + 1) % 2 ^ w) with
        | error e => rw [hop] at h; cases h
        | ok operand =>
          rw [hop] at h
          dsimp only at h
          cases hx : extendedCommand w prog (withOperand (decode d b) operand) u with
          | error e => rw [hx] at h; cases h
          | ok d2 =>
            rw [hx] at h
            cases h
            exact ⟨h15, rfl, operand, rfl, hx⟩
      · right; left
        cases h
        exact ⟨h13, rfl, rfl⟩
      · right; right; left
        cases h
        exact ⟨h14, rfl, rfl⟩
      · right; right; right
        cases hx : soundingEvent w (decode d b) u with
        | error e => rw [hx] at h; cases h
        | ok d2 =>
          rw [hx] at h
          cases h
          exact ⟨h15, h13, h14, rfl, rfl⟩

theorem fetchStep_frame {w : Nat} {d d' : MMMLDriver} {u v : Fin 4} {c : Ctl}
    (h : fetchStep w d u = .ok (c, d')) (hne : v ≠ u) : sameChannel v d d' := by
  obtain ⟨prog, b, -, -, hcase⟩ := fetchStep_cases h
  rcases hcase with ⟨-, -, operand, -, hx⟩ | ⟨-, -, rfl⟩ | ⟨-, -, rfl⟩ | ⟨-, -, -, -, hx⟩
  · exact extendedCommand_frame (d := withOperand (decode d b) operand) hx hne
  · simp [sameChannel, advance, decode, hne]
  · simp [sameChannel, advance, decode, hne]
  · exact soundingEvent_frame (d := decode d b) hx hne

theorem fetchLoop_frame {w : Nat} {u v : Fin 4} (hne : v ≠ u) : ∀ (fuel : Nat) {d d' : MMMLDriver},
    fetchLoop w fuel d u = .ok d' → sameChannel v d d' := by
  intro fuel
  induction fuel with
  | zero => intro d d' h; cases h
  | succ fuel ih =>
    intro d d' h
    unfold fetchLoop at h
    split at h
    · cases h
    · rename_i d1 hs
      exact sameChannel_trans (fetchStep_frame hs hne) (ih h)
    · rename_i d1 hs
      cases h
      exact fetchStep_frame hs hne

theorem heldBy_of_same {v : Fin 4} {d d' : MMMLDriver} (h : sameChannel v d d') :
    heldBy 0 v d d' := by
  obtain ⟨a1, a2, a3, a4, a5, a6, a7, -⟩ := h
  exact ⟨a2, a5, a7, a6, a1, a3⟩

theorem heldBy_trans {j k : Nat} {v : Fin 4} {a b c : MMMLDriver} (h1 : heldBy j v a b)
    (h2 : heldBy k v b c) : heldBy (j + k) v a c := by
  obtain ⟨a1, a2, a3, a4, a5, a6⟩ := h1
  obtain ⟨b1, b2, b3, b4, b5, b6⟩ := h2
  exact ⟨by omega, b2.trans a2, b3.trans a3, b4.trans a4, b5.trans a5, b6.trans a6⟩

theorem bind_eq_ok {α β : Type} {x : Except Fault α} {f : α → Except Fault β} {b : β}
    (h : x.bind f = .ok b) : ∃ a, x = .ok a ∧ f a = .ok b := by
  cases x with
  | error e => cases h
  | ok a => exact ⟨a, rfl, h⟩

theorem channelPass_holding {w fuel : Nat} {d : MMMLDriver} {v : Fin 4} (h : d.length v ≠ 0) :
    channelPass w fuel d v = .ok { d with length := setAt d.length v (d.length v - 1) } := by
  simp [channelPass, h]

theorem channelPass_fetching {w fuel : Nat} {d : MMMLDriver} {v : Fin 4} (h : d.length v = 0) :
    channelPass w fuel d v = fetchLoop w fuel d v := by
  simp [channelPass, h]

theorem channelPass_frame {w fuel : Nat} {d d' : MMMLDriver} {u v : Fin 4}
    (h : channelPass w fuel d u = .ok d') (hne : v ≠ u) : sameChannel v d d' := by
  unfold channelPass at h
  split_ifs at h
  · exact fetchLoop_frame hne fuel h
  · cases h
    simp [sameChannel, hne]

/-- What one channel's turn in a pass does to channel `v`: one held pass when it
is the turn of `v` itself (with a nonzero counter), nothing otherwise. -/
theorem channelPass_held {w fuel : Nat} {d d' : MMMLDriver} {u v : Fin 4}
    (h : channelPass w fuel d u = .ok d') (hlen : d.length v ≠ 0) :
    heldBy (if u = v then 1 else 0) v d d' := by
  by_cases huv : u = v
  · subst huv
    rw [channelPass_holding hlen] at h
    cases h
    rw [if_pos rfl]
    refine ⟨?_, rfl, rfl, rfl, rfl, rfl⟩
    simp only [setAt_same]
    omega
  · rw [if_neg huv]
    exact heldBy_of_same (channelPass_frame h (fun e => huv e.symm))

theorem sequencerPass_held {w fuel : Nat} {d d' : MMMLDriver} {v : Fin 4}
    (h : sequencerPass w fuel d = .ok d') (hlen : d.length v ≠ 0) : heldBy 1 v d d' := by
  unfold sequencerPass at h
  obtain ⟨d3, h3, h4⟩ := bind_eq_ok h
  obtain ⟨d2, h2, h3⟩ := bind_eq_ok h3
  obtain ⟨d1, h1, h2⟩ := bind_eq_ok h2
  have same : ∀ {a b : MMMLDriver} {u : Fin 4}, channelPass w fuel a u = .ok b → v ≠ u →
      heldBy 0 v a b := fun hp hne => heldBy_of_same (channelPass_frame hp hne)
  have turn : ∀ {a b : MMMLDriver}, channelPass w fuel a v = .ok b → a.length v ≠ 0 →
      heldBy 1 v a b := fun hp hl => by simpa using channelPass_held (u := v) hp hl
  have keep : ∀ {a : MMMLDriver}, heldBy 0 v d a → a.length v ≠ 0 := fun hk => by
    have := hk.1
    omega
  fin_cases v
  · exact heldBy_trans (heldBy_trans (turn h1 hlen) (same h2 (by decide)))
      (heldBy_trans (same h3 (by decide)) (same h4 (by decide)))
  · have k1 := same h1 (by decide)
    exact heldBy_trans (heldBy_trans k1 (turn h2 (keep k1)))
      (heldBy_trans (same h3 (by decide)) (same h4 (by decide)))
  · have k2 := heldBy_trans (same h1 (by decide)) (same h2 (by decide))
    exact heldBy_trans (heldBy_trans k2 (turn h3 (keep k2))) (same h4 (by decide))
  · have k3 := heldBy_trans (heldBy_trans (same h1 (by decide)) (same h2 (by decide)))
      (same h3 (by decide))
    exact heldBy_trans k3 (turn h4 (keep k3))

theorem sampleBit_frame {d d' : MMMLDriver} (v : Fin 4) (h : sampleBit d = .ok d') :
    sameChannel v d d' := by
  unfold sampleBit at h
  split_ifs at h
  · split at h
    · cases h
    · cases h; exact sameChannel_refl v d
  · cases h; exact sameChannel_refl v d

theorem nextSampleByte_frame (d : MMMLDriver) (v : Fin 4) :
    sameChannel v d (nextSampleByte d) := by
  unfold nextSampleByte
  split_ifs
  · exact ⟨rfl, rfl, rfl, rfl, rfl, rfl, rfl, fun _ => rfl, fun _ => rfl, rfl⟩
  · exact sameChannel_refl v d

theorem sampler_frame {d d' : MMMLDriver} (v : Fin 4) (h : sampler d = .ok d') :
    sameChannel v d d' := by
  unfold sampler at h
  split_ifs at h
  · cases hb : sampleBit d with
    | error e => rw [hb] at h; cases h
    | ok d1 =>
      rw [hb] at h
      cases h
      have h3 : sameChannel v (nextSampleByte d1)
          { nextSampleByte d1 with sample_counter := SAMPLE_SPEED } :=
        ⟨rfl, rfl, rfl, rfl, rfl, rfl, rfl, fun _ => rfl, fun _ => rfl, rfl⟩
      exact sameChannel_trans
        (sameChannel_trans (sampleBit_frame v hb) (nextSampleByte_frame d1 v)) h3
  · cases h
    exact ⟨rfl, rfl, rfl, rfl, rfl, rfl, rfl, fun _ => rfl, fun _ => rfl, rfl⟩

theorem sampleBit_tick {d d' : MMMLDriver} (h : sampleBit d = .ok d') :
    d'.tick_counter = d.tick_counter := by
  unfold sampleBit at h
  split_ifs at h
  · split at h
    · cases h
    · cases h; rfl
  · cases h; rfl

theorem nextSampleByte_tick (d : MMMLDriver) :
    (nextSampleByte d).tick_counter = d.tick_counter := by
  unfold nextSampleByte
  split_ifs <;> rfl

theorem sampler_tick {d d' : MMMLDriver} (h : sampler d = .ok d') :
    d'.tick_counter = d.tick_counter := by
  unfold sampler at h
  split_ifs at h
  · cases hb : sampleBit d with
    | error e => rw [hb] at h; cases h
    | ok d1 =>
      rw [hb] at h
      cases h
      exact (nextSampleByte_tick d1).trans (sampleBit_tick hb)
  · cases h; rfl

theorem pulse_frame (w : Nat) (d : MMMLDriver) (i v : Fin 4) : sameChannel v d (pulse w d i) :=
  ⟨rfl, rfl, rfl, rfl, rfl, rfl, rfl, fun _ => rfl, fun _ => rfl, rfl⟩

/-- What one call of `mmml_driver_update` does to a channel that is not due to
fetch: its cursor and oscillator parameters stay, and its length counter goes
down by one exactly when the call runs a sequencer pass. -/
theorem update_held {w fuel : Nat} {d d' : MMMLDriver} {o : Nat} {v : Fin 4}
    (h : mmml_driver_update w fuel d = .ok (o, d'))
    (hlen : d.music_data.isSome ∧ d.tick_counter = 0 → d.length v ≠ 0) :
    heldBy (if d.music_data.isSome ∧ d.tick_counter = 0 then 1 else 0) v d d' := by
  unfold mmml_driver_update at h
  cases hm : d.music_data with
  | none =>
    rw [hm] at h
    cases h
    simpa using heldBy_of_same (sameChannel_refl v d)
  | some prog =>
    rw [hm] at h hlen
    dsimp only at h
    cases hs : sampler d with
    | error e => rw [hs] at h; cases h
    | ok d1 =>
      rw [hs] at h
      dsimp only at h
      have hsynth : sameChannel v d (pulse w (pulse w (pulse w d1 0) 1) 2) :=
        sameChannel_trans (sameChannel_trans (sameChannel_trans (sampler_frame v hs)
          (pulse_frame w _ 0 v)) (pulse_frame w _ 1 v)) (pulse_frame w _ 2 v)
      have htick : (pulse w (pulse w (pulse w d1 0) 1) 2).tick_counter = d.tick_counter :=
        @sampler_tick d d1 hs
      cases hp : dataProcessing w fuel (pulse w (pulse w (pulse w d1 0) 1) 2) with
      | error e => rw [hp] at h; cases h
      | ok d2 =>
        rw [hp] at h
        cases h
        unfold dataProcessing at hp
        rw [htick] at hp
        by_cases ht : d.tick_counter = 0
        · rw [if_pos ht] at hp
          have hl : d.length v ≠ 0 := hlen ⟨rfl, ht⟩
          have hreload : sameChannel v (pulse w (pulse w (pulse w d1 0) 1) 2)
              { pulse w (pulse w (pulse w d1 0) 1) 2 with
                tick_counter := (pulse w (pulse w (pulse w d1 0) 1) 2).tick_speed } :=
            ⟨rfl, rfl, rfl, rfl, rfl, rfl, rfl, fun _ => rfl, fun _ => rfl, rfl⟩
          have hk := heldBy_of_same (sameChannel_trans hsynth hreload)
          have hl' : ({ pulse w (pulse w (pulse w d1 0) 1) 2 with
                tick_counter := (pulse w (pulse w (pulse w d1 0) 1) 2).tick_speed } :
                MMMLDriver).length v ≠ 0 := by
            have := hk.1
            omega
          have := heldBy_trans hk (sequencerPass_held hp hl')
          simpa [ht] using this
        · rw [if_neg ht] at hp
          cases hp
          have hdec : sameChannel v (pulse w (pulse w (pulse w d1 0) 1) 2)
              { pulse w (pulse w (pulse w d1 0) 1) 2 with
                tick_counter := d.tick_counter - 1 } :=
            ⟨rfl, rfl, rfl, rfl, rfl, rfl, rfl, fun _ => rfl, fun _ => rfl, rfl⟩
          simpa [ht] using heldBy_of_same (sameChannel_trans hsynth hdec)

theorem runUpdates_held {w fuel : Nat} {v : Fin 4} : ∀ (n : Nat) {d d' : MMMLDriver}
    {outs : List Nat}, runUpdates w fuel n d = .ok (outs, d') →
    passCount w fuel n d ≤ d.length v → heldBy (passCount w fuel n d) v d d' := by
  intro n
  induction n with
  | zero =>
    intro d d' outs h _
    cases h
    exact heldBy_of_same (sameChannel_refl v d)
  | succ n ih =>
    intro d d' outs h hp
    unfold runUpdates at h
    unfold passCount at hp ⊢
    cases hu : mmml_driver_update w fuel d with
    | error e => rw [hu] at h; cases h
    | ok r =>
      obtain ⟨o, d1⟩ := r
      rw [hu] at h hp
      dsimp only at h hp ⊢
      cases hr : runUpdates w fuel n d1 with
      | error e => rw [hr] at h; cases h
      | ok r2 =>
        obtain ⟨os, d2⟩ := r2
        rw [hr] at h
        cases h
        have h1 : heldBy (if d.music_data.isSome ∧ d.tick_counter = 0 then 1 else 0) v d d1 := by
          apply update_held hu
          intro hc
          rw [if_pos hc] at hp
          omega
        have hlen := h1.1
        exact heldBy_trans h1 (ih hr (by omega))

/-! ## Hold duration -/

/-- Claim C5.  Take a driver record in which channel `v` has remaining length
`L = d.length v` (as a sounding event leaves it) and any run of `n` calls of
`mmml_driver_update` from it that contains at most `L` sequencer passes.  After
the run the counter of `v` is `L` minus the number of passes, and the cursor,
note period, duty threshold, octave multiplier and volume of `v` are what they
were.  In a pass entered with a nonzero counter the channel's turn only
decrements the counter, whatever the program; in a pass entered with counter 0,
hence first in the pass after `L` passes, the channel's turn is the fetch loop at
its cursor.  The turns of the other channels in a pass touch neither the counter
nor the cursor of `v`. -/
theorem hold_duration (w fuel n : Nat) (v : Fin 4) (d d' : MMMLDriver) (outs : List Nat)
    (hrun : runUpdates w fuel n d = .ok (outs, d'))
    (hpass : passCount w fuel n d ≤ d.length v) :
    (d'.length v = d.length v - passCount w fuel n d ∧
      d'.data_pointer v = d.data_pointer v ∧ d'.frequency v = d.frequency v ∧
      d'.waveform v = d.waveform v ∧ d'.octave v = d.octave v ∧ d'.volume v = d.volume v) ∧
    (∀ k e, e.length v ≠ 0 →
      channelPass w k e v = .ok { e with length := setAt e.length v (e.length v - 1) }) ∧
    (∀ k e, e.length v = 0 → channelPass w k e v = fetchLoop w k e v) ∧
    (∀ k e e' u, u ≠ v → channelPass w k e u = .ok e' →
      e'.length v = e.length v ∧ e'.data_pointer v = e.data_pointer v) := by
  obtain ⟨h1, h2, h3, h4, h5, h6⟩ := runUpdates_held n hrun hpass
  refine ⟨⟨by omega, h2, h3, h4, h5, h6⟩, fun _ _ he => channelPass_holding he,
    fun _ _ he => channelPass_fetching he, ?_⟩
  intro k e e' u hne hturn
  have hsame := channelPass_frame hturn (fun h => hne h.symm)
  exact ⟨hsame.2.1, hsame.2.2.2.2.1⟩

/-- Claim C5 on `tempoSong`: channel A has just started a note of length 3 and
the tempo countdown has elapsed, with reload value 0.  The next three calls are
three passes; they leave the counter at 0 and the cursor where it was. -/
theorem hold_duration_witness :
    (runUpdates 16 8 3 { stateAfter 16 8 tempoSong 1 with tick_counter := 0 }
        = .ok ([1, 1, 1],
            afterUpdates 16 8 3 { stateAfter 16 8 tempoSong 1 with tick_counter := 0 }) ∧
      passCount 16 8 3 { stateAfter 16 8 tempoSong 1 with tick_counter := 0 } = 3 ∧
      ({ stateAfter 16 8 tempoSong 1 with tick_counter := 0 } : MMMLDriver).length 0 = 3) ∧
    (afterUpdates 16 8 3 { stateAfter 16 8 tempoSong 1 with tick_counter := 0 }).length 0 = 0 ∧
    (afterUpdates 16 8 3 { stateAfter 16 8 tempoSong 1 with tick_counter := 0 }).data_pointer 0
      = 11 :=
  ⟨⟨rfl, rfl, rfl⟩,
    (hold_duration 16 8 3 0 { stateAfter 16 8 tempoSong 1 with tick_counter := 0 }
      (afterUpdates 16 8 3 { stateAfter 16 8 tempoSong 1 with tick_counter := 0 })
      [1, 1, 1] rfl (by decide)).1.1,
    (hold_duration 16 8 3 0 { stateAfter 16 8 tempoSong 1 with tick_counter := 0 }
      (afterUpdates 16 8 3 { stateAfter 16 8 tempoSong 1 with tick_counter := 0 })
      [1, 1, 1] rfl (by decide)).1.2.1⟩

/-! ## Loops -/

theorem loopRow_eq {k : Nat} (h1 : 1 ≤ k) (h5 : k ≤ 5) :
    loopRow k = .ok ⟨k - 1, by omega⟩ := by
  simp [loopRow, h1, h5]

theorem setRow_same (a : Fin 5 → Fin 4 → Nat) (r : Fin 5) (v : Fin 4) (x : Nat) :
    setRow a r v x r v = x := by
  simp [setRow]

/-- The value `buffer3 - 1` stored in an `unsigned int`, for a nonzero operand. -/
theorem operand_pred {w n : Nat} (hw : 16 ≤ w) (h1 : 1 ≤ n) (hn : n < 256) :
    (n + 2 ^ w - 1) % 2 ^ w = n - 1 := by
  have h16 : 2 ^ 16 ≤ 2 ^ w := Nat.pow_le_pow_right (by decide) hw
  have e : n + 2 ^ w - 1 = (n - 1) + 2 ^ w := by omega
  rw [e, Nat.add_mod_right]
  apply Nat.mod_eq_of_lt
  have : (2 : Nat) ^ 16 = 65536 := by norm_num
  omega

/-- The trip through the fetch loop at a loop start. -/
theorem loop_start_step {w : Nat} {prog : List Byte} {v : Fin 4} {c depth n : Nat}
    {d : MMMLDriver}
    (hprog : d.music_data = some prog) (hfit : prog.length < 2 ^ w)
    (hcur : d.data_pointer v = c) (hdepth : d.loops_active v = depth) (hd : depth < 5)
    (hF0 : rd prog c = .ok 0xF0) (hn : rd prog (c + 1) = .ok n) :
    ∃ d', fetchStep w d v = .ok (.again, d') ∧
      InLoop prog v c depth d' (c + 2) ((n + 2 ^ w - 1) % 2 ^ w) := by
  have h1 : hiNibble 0xF0 = 15 := by decide
  have h2 : loNibble 0xF0 = 0 := by decide
  have hlt := rd_index_lt hn
  have hm1 : (c + 1) % 2 ^ w = c + 1 := Nat.mod_eq_of_lt (by omega)
  have hm2 : (c + 2) % 2 ^ w = c + 2 := Nat.mod_eq_of_lt (by omega)
  have hrow : loopRow ((depth + 1) % 256) = .ok ⟨depth, hd⟩ := by
    have : (depth + 1) % 256 = depth + 1 := by omega
    rw [this, loopRow_eq (by omega) (by omega)]
    rfl
  have hF0' : rd prog (d.data_pointer v) = .ok 0xF0 := by rw [hcur]; exact hF0
  have hop : rd prog ((d.data_pointer v + 1) % 2 ^ w) = .ok n := by rw [hcur, hm1]; exact hn
  have hstep : fetchStep w d v = .ok (.again, advance w
      { withOperand (decode d 0xF0) n with
        loops_active := setAt d.loops_active v ((depth + 1) % 256)
        loop_point := setRow d.loop_point ⟨depth, hd⟩ v ((c + 2) % 2 ^ w)
        loop_duration := setRow d.loop_duration ⟨depth, hd⟩ v ((n + 2 ^ w - 1) % 2 ^ w) } v 2) := by
    rw [fetchStep_extended hprog hF0' h1 hop]
    simp only [extendedCommand, withOperand, decode, h2, if_true, loopStart, hdepth, hrow, Ctl.tag,
      hcur]
  refine ⟨_, hstep, hprog, ?_, ?_, ⟨depth, hd⟩, rfl, ?_, ?_⟩
  · simp [advance, withOperand, decode, hcur, hm2]
  · simp [advance]; omega
  · simp [advance, setRow_same, hm2]
  · simp [advance, setRow_same]

/-- A sounding event inside the loop body moves the cursor on by one and leaves
the loop stack alone. -/
theorem loop_body_step {w : Nat} {prog : List Byte} {v : Fin 4} {c depth cur dur b : Nat}
    {d : MMMLDriver} (hfit : prog.length < 2 ^ w)
    (hin : InLoop prog v c depth d cur dur)
    (hb : rd prog cur = .ok b) (hk : hiNibble b ≤ 12) (hs : v = 3 → hiNibble b ≤ 5) :
    ∃ d', fetchStep w d v = .ok (.done, d') ∧ InLoop prog v c depth d' (cur + 1) dur := by
  obtain ⟨hprog, hcur, hla, r, hr, hpt, hdur⟩ := hin
  have hlt := rd_index_lt hb
  have hm : (cur + 1) % 2 ^ w = cur + 1 := Nat.mod_eq_of_lt (by omega)
  have hb' : rd prog (d.data_pointer v) = .ok b := by rw [hcur]; exact hb
  obtain ⟨d1, ht, hdp, -, -, hb2, hmd, hlact, hldur, hlpt, -⟩ :=
    toneEvent_defined (d := decode d b) (v := v) hk hs
  have hstep : fetchStep w d v = .ok (.done,
      advance w { d1 with length := setAt d1.length v (noteLength d1.buffer2) } v 1) := by
    rw [fetchStep_sounding hprog hb' hk]
    simp only [soundingEvent, ht, Ctl.tag]
  refine ⟨_, hstep, ?_, ?_, ?_, r, hr, ?_, ?_⟩
  · simpa [advance, hmd, decode] using hprog
  · simp [advance, hdp, decode, hcur, hm]
  · simpa [advance, hlact, decode] using hla
  · simpa [advance, hlpt, decode] using hpt
  · simpa [advance, hldur, decode] using hdur

/-- The trip through the fetch loop at a loop end with repeats remaining: back to
the loop point, one repeat fewer. -/
theorem loop_end_jump {w : Nat} {prog : List Byte} {v : Fin 4} {c depth cur dur x : Nat}
    {d : MMMLDriver} (hfit : prog.length < 2 ^ w) (hd : depth < 5)
    (hin : InLoop prog v c depth d cur (dur + 1))
    (hF1 : rd prog cur = .ok 0xF1) (hx : rd prog (cur + 1) = .ok x) :
    ∃ d', fetchStep w d v = .ok (.again, d') ∧ InLoop prog v c depth d' (c + 2) dur := by
  obtain ⟨hprog, hcur, hla, r, hr, hpt, hdur⟩ := hin
  have h1 : hiNibble 0xF1 = 15 := by decide
  have h2 : loNibble 0xF1 = 1 := by decide
  have hlt := rd_index_lt hx
  have hm1 : (cur + 1) % 2 ^ w = cur + 1 := Nat.mod_eq_of_lt (by omega)
  have hF1' : rd prog (d.data_pointer v) = .ok 0xF1 := by rw [hcur]; exact hF1
  have hop : rd prog ((d.data_pointer v + 1) % 2 ^ w) = .ok x := by rw [hcur, hm1]; exact hx
  have hrow : loopRow (depth + 1) = .ok r := by
    rw [loopRow_eq (by omega) (by omega)]
    congr 1
    exact Fin.ext (by simp [hr])
  have hstep : fetchStep w d v = .ok (.again,
      { withOperand (decode d 0xF1) x with
        data_pointer := setAt d.data_pointer v (c + 2)
        loop_duration := setRow d.loop_duration r v dur }) := by
    rw [fetchStep_extended hprog hF1' h1 hop]
    simp [extendedCommand, withOperand, decode, h2, loopEnd, hla, hrow, Ctl.tag, hdur, hpt]
  refine ⟨_, hstep, hprog, ?_, hla, r, hr, hpt, ?_⟩
  · simp
  · simp [setRow_same]

/-- The trip through the fetch loop at a loop end with no repeat remaining: the
stack is popped and the cursor moves past the loop end. -/
theorem loop_end_exit {w : Nat} {prog : List Byte} {v : Fin 4} {c depth cur x : Nat}
    {d : MMMLDriver} (hfit : prog.length < 2 ^ w) (hd : depth < 5)
    (hin : InLoop prog v c depth d cur 0)
    (hF1 : rd prog cur = .ok 0xF1) (hx : rd prog (cur + 1) = .ok x) :
    ∃ d', fetchStep w d v = .ok (.again, d') ∧ d'.music_data = some prog ∧
      d'.data_pointer v = cur + 1 ∧ d'.loops_active v = depth := by
  obtain ⟨hprog, hcur, hla, r, hr, hpt, hdur⟩ := hin
  have h1 : hiNibble 0xF1 = 15 := by decide
  have h2 : loNibble 0xF1 = 1 := by decide
  have hlt := rd_index_lt hx
  have hm1 : (cur + 1) % 2 ^ w = cur + 1 := Nat.mod_eq_of_lt (by omega)
  have hF1' : rd prog (d.data_pointer v) = .ok 0xF1 := by rw [hcur]; exact hF1
  have hop : rd prog ((d.data_pointer v + 1) % 2 ^ w) = .ok x := by rw [hcur, hm1]; exact hx
  have hrow : loopRow (depth + 1) = .ok r := by
    rw [loopRow_eq (by omega) (by omega)]
    congr 1
    exact Fin.ext (by simp [hr])
  have hstep : fetchStep w d v = .ok (.again, advance w
      { withOperand (decode d 0xF1) x with
        loops_active := setAt d.loops_active v ((depth + 1 + 255) % 256) } v 1) := by
    rw [fetchStep_extended hprog hF1' h1 hop]
    simp [extendedCommand, withOperand, decode, h2, loopEnd, hla, hrow, Ctl.tag, hdur]
  refine ⟨_, hstep, hprog, ?_, ?_⟩
  · simp [advance, withOperand, decode, hcur, hm1]
  · simp [advance]; omega

/-- One more trip in front of a run of trips. -/
theorem chanSteps_cons {w : Nat} {d d1 d2 : MMMLDriver} {v : Fin 4} {ctl : Ctl} {k : Nat}
    {events : List Nat} (h1 : fetchStep w d v = .ok (ctl, d1))
    (h2 : chanSteps w k d1 v = .ok (events, d2)) :
    chanSteps w (k + 1) d v
      = .ok ((if ctl = .done then [d.data_pointer v] else []) ++ events, d2) := by
  simp only [chanSteps, h1, h2]

/-- Runs of trips compose. -/
theorem chanSteps_append {w : Nat} {v : Fin 4} : ∀ (a b : Nat) {d d1 d2 : MMMLDriver}
    {e1 e2 : List Nat}, chanSteps w a d v = .ok (e1, d1) → chanSteps w b d1 v = .ok (e2, d2) →
    chanSteps w (a + b) d v = .ok (e1 ++ e2, d2) := by
  intro a
  induction a with
  | zero =>
    intro b d d1 d2 e1 e2 h1 h2
    cases h1
    simpa using h2
  | succ a ih =>
    intro b d d1 d2 e1 e2 h1 h2
    unfold chanSteps at h1
    cases hs : fetchStep w d v with
    | error e => rw [hs] at h1; cases h1
    | ok r =>
      obtain ⟨ctl, d0⟩ := r
      rw [hs] at h1
      dsimp only at h1
      cases hr : chanSteps w a d0 v with
      | error e => rw [hr] at h1; cases h1
      | ok r2 =>
        obtain ⟨ev, d3⟩ := r2
        rw [hr] at h1
        cases h1
        have := chanSteps_cons hs (ih b hr h2)
        rw [show a + 1 + b = a + b + 1 by omega, this, List.append_assoc]

/-- The sounding events of the loop body, processed from position `j` on. -/
theorem loop_body_run {w : Nat} {prog : List Byte} {v : Fin 4} {c depth m dur : Nat}
    (hfit : prog.length < 2 ^ w)
    (hB : ∀ j, j < m → ∃ b, rd prog (c + 2 + j) = .ok b ∧ hiNibble b ≤ 12 ∧
      (v = 3 → hiNibble b ≤ 5)) :
    ∀ (k j : Nat) (d : MMMLDriver), j + k = m → InLoop prog v c depth d (c + 2 + j) dur →
    ∃ d', chanSteps w k d v = .ok (List.range' (c + 2 + j) k, d') ∧
      InLoop prog v c depth d' (c + 2 + m) dur := by
  intro k
  induction k with
  | zero =>
    intro j d hj hin
    have : j = m := by omega
    subst this
    exact ⟨d, rfl, hin⟩
  | succ k ih =>
    intro j d hj hin
    obtain ⟨b, hb, hk, hs⟩ := hB j (by omega)
    obtain ⟨d1, hstep, hin1⟩ := loop_body_step hfit hin hb hk hs
    obtain ⟨d2, hrun, hin2⟩ := ih (j + 1) d1 (by omega) hin1
    refine ⟨d2, ?_, hin2⟩
    rw [chanSteps_cons hstep hrun, hin.2.1, List.range'_succ]
    simp [Nat.add_assoc]

/-- The loop from its first body event to its exit: `dur + 1` traversals of the
body. -/
theorem loop_rounds {w : Nat} {prog : List Byte} {v : Fin 4} {c depth m x : Nat}
    (hfit : prog.length < 2 ^ w) (hd : depth < 5)
    (hB : ∀ j, j < m → ∃ b, rd prog (c + 2 + j) = .ok b ∧ hiNibble b ≤ 12 ∧
      (v = 3 → hiNibble b ≤ 5))
    (hF1 : rd prog (c + 2 + m) = .ok 0xF1) (hx : rd prog (c + 2 + m + 1) = .ok x) :
    ∀ (dur : Nat) (d : MMMLDriver), InLoop prog v c depth d (c + 2) dur →
    ∃ d', chanSteps w ((dur + 1) * (m + 1)) d v
        = .ok ((List.replicate (dur + 1) (List.range' (c + 2) m)).flatten, d') ∧
      d'.music_data = some prog ∧ d'.data_pointer v = c + 2 + m + 1 ∧
      d'.loops_active v = depth := by
  intro dur
  induction dur with
  | zero =>
    intro d hin
    obtain ⟨d1, hrun, hin1⟩ := loop_body_run hfit hB m 0 d (by omega) hin
    obtain ⟨d2, hstep, hmd, hdp, hla⟩ := loop_end_exit hfit hd hin1 hF1 hx
    refine ⟨d2, ?_, hmd, hdp, hla⟩
    have hlast : chanSteps w 1 d1 v = .ok ([], d2) := by
      simpa using chanSteps_cons (k := 0) hstep rfl
    simpa using chanSteps_append m 1 hrun hlast
  | succ dur ih =>
    intro d hin
    obtain ⟨d1, hrun, hin1⟩ := loop_body_run hfit hB m 0 d (by omega) hin
    obtain ⟨d2, hstep, hin2⟩ := loop_end_jump hfit hd hin1 hF1 hx
    obtain ⟨d3, hrest, hfin⟩ := ih d2 hin2
    refine ⟨d3, ?_, hfin⟩
    have hlast : chanSteps w 1 d1 v = .ok ([], d2) := by
      simpa using chanSteps_cons (k := 0) hstep rfl
    have hround : chanSteps w (m + 1) d v = .ok (List.range' (c + 2) m, d2) := by
      simpa using chanSteps_append m 1 hrun hlast
    have := chanSteps_append (m + 1) ((dur + 1) * (m + 1)) hround hrest
    rw [show (dur + 1 + 1) * (m + 1) = m + 1 + (dur + 1) * (m + 1) by ring, this]
    simp [List.replicate_succ]

/-- Claim C6, as the code has it.  Let the stream of channel `v` hold, from
cursor `c`, a loop start with operand `n`, a body of `m` sounding events (first
nibble 0..12, on channel D 0..5, the range in which `SAMPLE_INDICIES` is
defined) and a loop end, and let the channel enter it with loop-stack depth
below 5.  If `n` is
at least 1, the next `1 + n * (m + 1)` trips through the fetch loop of the
channel succeed, the sounding events processed in them are those of the body,
in order, `n` times over, and afterwards the cursor is at the byte following the
loop-end byte and the depth is what it was.  (`chanSteps` lists the cursor
position of every sounding event it processes; the body lies at
`c + 2 .. c + 1 + m`.  The loop end reads the byte after it as its operand, so
that byte has to exist.) -/
theorem loop_count (w : Nat) (hw : 16 ≤ w) (prog : List Byte) (v : Fin 4) (c depth n m x : Nat)
    (d : MMMLDriver)
    (hprog : d.music_data = some prog) (hfit : prog.length < 2 ^ w)
    (hcur : d.data_pointer v = c) (hdepth : d.loops_active v = depth) (hd : depth < 5)
    (hF0 : rd prog c = .ok 0xF0) (hn : rd prog (c + 1) = .ok n) (hn1 : 1 ≤ n)
    (hB : ∀ j, j < m → ∃ b, rd prog (c + 2 + j) = .ok b ∧ hiNibble b ≤ 12 ∧
      (v = 3 → hiNibble b ≤ 5))
    (hF1 : rd prog (c + 2 + m) = .ok 0xF1) (hx : rd prog (c + 2 + m + 1) = .ok x) :
    ∃ d', chanSteps w (1 + n * (m + 1)) d v
        = .ok ((List.replicate n (List.range' (c + 2) m)).flatten, d') ∧
      d'.data_pointer v = c + 2 + m + 1 ∧ d'.loops_active v = depth := by
  obtain ⟨d1, hstep, hin⟩ := loop_start_step hprog hfit hcur hdepth hd hF0 hn
  rw [operand_pred hw hn1 (rd_lt hn)] at hin
  obtain ⟨d2, hrun, -, hdp, hla⟩ := loop_rounds hfit hd hB hF1 hx (n - 1) d1 hin
  refine ⟨d2, ?_, hdp, hla⟩
  have hfirst : chanSteps w 1 d v = .ok ([], d1) := by
    simpa using chanSteps_cons (k := 0) hstep rfl
  have := chanSteps_append 1 ((n - 1 + 1) * (m + 1)) hfirst hrun
  rw [show n - 1 + 1 = n by omega] at this
  simpa using this

/-- A run of `a + b` trips that succeeds splits into a run of `a` trips and a run
of `b` trips. -/
theorem chanSteps_split {w : Nat} {v : Fin 4} : ∀ (a b : Nat) {d d2 : MMMLDriver}
    {events : List Nat}, chanSteps w (a + b) d v = .ok (events, d2) →
    ∃ e1 d1 e2, chanSteps w a d v = .ok (e1, d1) ∧ chanSteps w b d1 v = .ok (e2, d2) ∧
      events = e1 ++ e2 := by
  intro a
  induction a with
  | zero =>
    intro b d d2 events h
    exact ⟨[], d, events, rfl, by simpa using h, rfl⟩
  | succ a ih =>
    intro b d d2 events h
    rw [show a + 1 + b = a + b + 1 by omega] at h
    unfold chanSteps at h
    cases hs : fetchStep w d v with
    | error e => rw [hs] at h; cases h
    | ok r =>
      obtain ⟨ctl, d0⟩ := r
      rw [hs] at h
      dsimp only at h
      cases hr : chanSteps w (a + b) d0 v with
      | error e => rw [hr] at h; cases h
      | ok r2 =>
        obtain ⟨ev, d3⟩ := r2
        rw [hr] at h
        cases h
        obtain ⟨e1, d1, e2, h1, h2, he⟩ := ih b hr
        exact ⟨_, d1, e2, chanSteps_cons hs h1, h2, by rw [he, List.append_assoc]⟩

/-- Claim C6 as amended on `loopSong`: operand 3 around one rest at position 10. -/
theorem loop_count_witness :
    (16 ≤ 16 ∧ (stateAfter 16 8 loopSong 0).music_data = some loopSong ∧
      rd loopSong 8 = .ok 0xF0 ∧ rd loopSong 9 = .ok 3 ∧ rd loopSong 11 = .ok 0xF1) ∧
    ∃ d', chanSteps 16 (1 + 3 * (1 + 1)) (stateAfter 16 8 loopSong 0) 0
        = .ok ((List.replicate 3 (List.range' (8 + 2) 1)).flatten, d') ∧
      d'.data_pointer 0 = 8 + 2 + 1 + 1 ∧ d'.loops_active 0 = 0 :=
  ⟨⟨by decide, rfl, rfl, rfl, rfl⟩,
    loop_count 16 (by decide) loopSong 0 8 0 3 1 0xFF (stateAfter 16 8 loopSong 0) rfl
      (by decide) rfl rfl (by decide) rfl rfl (by decide)
      (fun j hj => ⟨0, by
        have : j = 0 := by omega
        subst this
        rfl, by decide, fun _ => by decide⟩)
      rfl rfl⟩

/-- Claim C6 fails as stated for operand 0 (`zeroLoopSong`, 16-bit target).
`buffer3 - 1` wraps to 65535 remaining repeats: after four trips the one body
event at position 10 has been processed twice, the cursor is on the loop end
again and 65534 repeats remain; and at no point of the run has the body been
processed 0 times with the cursor past the loop end. -/
theorem loop_operand_zero :
    (∃ d', chanSteps 16 4 (stateAfter 16 8 zeroLoopSong 0) 0 = .ok ([10, 10], d') ∧
      d'.data_pointer 0 = 11 ∧ d'.loop_duration 0 0 = 65534) ∧
    ¬ ∃ k d', chanSteps 16 k (stateAfter 16 8 zeroLoopSong 0) 0
        = .ok ((List.replicate 0 (List.range' (8 + 2) 1)).flatten, d') ∧
      d'.data_pointer 0 = 8 + 2 + 1 + 1 ∧ d'.loops_active 0 = 0 := by
  refine ⟨⟨_, rfl, rfl, rfl⟩, ?_⟩
  rintro ⟨k, d', h, hdp, -⟩
  obtain ⟨D1, h1, hc1⟩ : ∃ D1, chanSteps 16 1 (stateAfter 16 8 zeroLoopSong 0) 0 = .ok ([], D1) ∧
      D1.data_pointer 0 = 10 := ⟨_, rfl, rfl⟩
  obtain ⟨D2, h2⟩ : ∃ D2, chanSteps 16 2 (stateAfter 16 8 zeroLoopSong 0) 0 = .ok ([10], D2) :=
    ⟨_, rfl⟩
  match k, h with
  | 0, h =>
    cases h
    revert hdp
    decide
  | 1, h =>
    rw [h1] at h
    cases h
    omega
  | k + 2, h =>
    rw [show k + 2 = 2 + k by omega] at h
    obtain ⟨e1, d1, e2, ha, -, he⟩ := chanSteps_split 2 k h
    rw [h2] at ha
    cases ha
    simp at he

/-! ## Subroutine call, return and restart -/

theorem toneEvent_pointer_location {d d' : MMMLDriver} {u : Fin 4}
    (h : toneEvent d u = .ok d') : d'.pointer_location = d.pointer_location := by
  unfold toneEvent at h
  split_ifs at h
  · split at h
    · cases h
    · cases h; rfl
  · split at h
    · cases h; rfl
    · cases h
  · cases h; rfl

theorem soundingEvent_pointer_location {w : Nat} {d d' : MMMLDriver} {u : Fin 4}
    (h : soundingEvent w d u = .ok d') : d'.pointer_location = d.pointer_location := by
  unfold soundingEvent at h
  split at h
  · cases h
  · rename_i d1 ht
    cases h
    exact @toneEvent_pointer_location d d1 u ht

/-- Only the call (second nibble 2) and the return (second nibble 15) among the
extended commands write a return slot. -/
theorem extendedCommand_pointer_location {w : Nat} {prog : List Byte} {d d' : MMMLDriver}
    {u : Fin 4} (h : extendedCommand w prog d u = .ok d') (h2 : d.buffer2 ≠ 2)
    (h15 : d.buffer2 ≠ 15) : d'.pointer_location = d.pointer_location := by
  unfold extendedCommand at h
  split_ifs at h
  · unfold loopStart at h
    dsimp only at h
    split at h
    · cases h
    · cases h; rfl
  · unfold loopEnd at h
    split at h
    · cases h
    · split_ifs at h <;> cases h <;> rfl
  · cases h; rfl
  · cases h; rfl
  · cases h; rfl
  · cases h; rfl

/-- A trip through the fetch loop of channel `u` writes the return slot of
channel `v` only when `u = v` and the byte under the cursor is a call (`0xF2`)
or a return (`0xFF`). -/
theorem fetchStep_pointer_location {w : Nat} {prog : List Byte} {d d' : MMMLDriver}
    {u v : Fin 4} {ctl : Ctl} {b : Nat}
    (hprog : d.music_data = some prog) (hb : rd prog (d.data_pointer u) = .ok b)
    (hnot : u = v → b ≠ 0xF2 ∧ b ≠ 0xFF)
    (h : fetchStep w d u = .ok (ctl, d')) :
    d'.pointer_location v = d.pointer_location v := by
  by_cases huv : u = v
  · subst huv
    obtain ⟨hF2, hFF⟩ := hnot rfl
    have hlt := rd_lt hb
    obtain ⟨prog', b', hprog', hb', hcase⟩ := fetchStep_cases h
    rw [hprog] at hprog'
    cases hprog'
    rw [hb] at hb'
    cases hb'
    rcases hcase with ⟨h15, -, operand, -, hx⟩ | ⟨-, -, rfl⟩ | ⟨-, -, rfl⟩ | ⟨-, -, -, -, hx⟩
    · rw [hiNibble_eq] at h15
      have e := extendedCommand_pointer_location hx
        (by show loNibble b ≠ 2; rw [loNibble_eq]; omega)
        (by show loNibble b ≠ 15; rw [loNibble_eq]; omega)
      rw [e]
      rfl
    · rfl
    · rfl
    · rw [soundingEvent_pointer_location hx]
      rfl
  · exact (fetchStep_frame h (fun e => huv e.symm)).2.2.2.2.2.2.2.2.2

/-- Claim C7.  Let the cursor of channel `v` be at `c`, on a call (`0xF2`) with
operand `m`.  The trip through the fetch loop stores `c + 2` in the return slot
of `v`, whatever the slot held, and sets the cursor to the big-endian word in
table slot `m + 4` (bytes `2 (m + 4)` and `2 (m + 4) + 1`).  From every later
record whose slot still holds `c + 2`, a trip of `v` at a return (`0xFF`) sets
the cursor to `c + 2` and clears the slot.  The slot of `v` does still hold
`c + 2` as long as `v` processes no other call and no return: no other trip
through the fetch loop, of any channel, writes it. -/
theorem subroutine_call_and_return (w : Nat) (hw : 16 ≤ w) (d : MMMLDriver) (v : Fin 4)
    (prog : List Byte) (c m : Nat) (hi lo : Byte)
    (hprog : d.music_data = some prog) (hfit : prog.length < 2 ^ w)
    (hcur : d.data_pointer v = c)
    (hcall : rd prog c = .ok 0xF2) (hm : rd prog (c + 1) = .ok m)
    (hhi : prog[2 * (m + 4)]? = some hi) (hlo : prog[2 * (m + 4) + 1]? = some lo) :
    ∃ d1, fetchStep w d v = .ok (.again, d1) ∧
      d1.pointer_location v = c + 2 ∧ d1.data_pointer v = 256 * hi.val + lo.val ∧
      (∀ d2 operand, d2.music_data = some prog → d2.pointer_location v = c + 2 →
        rd prog (d2.data_pointer v) = .ok 0xFF →
        rd prog ((d2.data_pointer v + 1) % 2 ^ w) = .ok operand →
        ∃ d3, fetchStep w d2 v = .ok (.again, d3) ∧
          d3.data_pointer v = c + 2 ∧ d3.pointer_location v = 0) ∧
      (∀ d2 d3 u ctl b, d2.music_data = some prog → rd prog (d2.data_pointer u) = .ok b →
        (u = v → b ≠ 0xF2 ∧ b ≠ 0xFF) → fetchStep w d2 u = .ok (ctl, d3) →
        d3.pointer_location v = d2.pointer_location v) := by
  have h1 : hiNibble 0xF2 = 15 := by decide
  have h2 : loNibble 0xF2 = 2 := by decide
  have g1 : hiNibble 0xFF = 15 := by decide
  have g2 : loNibble 0xFF = 15 := by decide
  have hlt := rd_index_lt hm
  have hm1 : (c + 1) % 2 ^ w = c + 1 := Nat.mod_eq_of_lt (by omega)
  have hm2 : (c + 2) % 2 ^ w = c + 2 := Nat.mod_eq_of_lt (by omega)
  have hcall' : rd prog (d.data_pointer v) = .ok 0xF2 := by rw [hcur]; exact hcall
  have hop : rd prog ((d.data_pointer v + 1) % 2 ^ w) = .ok m := by rw [hcur, hm1]; exact hm
  have htarget : headerWord w prog (m + CHANNELS) = .ok (256 * hi.val + lo.val) := by
    apply headerWord_eq hw
    · rw [show (m + CHANNELS) * 2 = 2 * (m + 4) by simp [CHANNELS]; ring]; exact hhi
    · rw [show (m + CHANNELS) * 2 = 2 * (m + 4) by simp [CHANNELS]; ring]; exact hlo
  have hstep : fetchStep w d v = .ok (.again,
      { withOperand (decode d 0xF2) m with
        pointer_location := setAt d.pointer_location v (c + 2)
        data_pointer := setAt d.data_pointer v (256 * hi.val + lo.val) }) := by
    rw [fetchStep_extended hprog hcall' h1 hop]
    simp [extendedCommand, withOperand, decode, h2, subroutineCall, htarget, Ctl.tag, hcur, hm2]
  refine ⟨_, hstep, by simp, by simp, ?_, ?_⟩
  · intro d2 operand hprog2 hslot hret hop2
    have hne : d2.pointer_location v ≠ 0 := by omega
    have hstep2 : fetchStep w d2 v = .ok (.again,
        { withOperand (decode d2 0xFF) operand with
          data_pointer := setAt d2.data_pointer v (c + 2)
          pointer_location := setAt d2.pointer_location v 0 }) := by
      rw [fetchStep_extended hprog2 hret g1 hop2]
      simp [extendedCommand, withOperand, decode, g2, trackReturn, hslot, Ctl.tag]
    exact ⟨_, hstep2, by simp, by simp⟩
  · intro d2 d3 u ctl b hprog2 hb hnot hs
    exact fetchStep_pointer_location hprog2 hb hnot hs

/-- Claim C7 on `callSong`: the call at cursor 10 to subroutine 0 at offset 14. -/
theorem subroutine_call_and_return_witness :
    (16 ≤ 16 ∧ rd callSong 10 = .ok 0xF2 ∧ rd callSong 11 = .ok 0) ∧
    ∃ d1, fetchStep 16 (stateAfter 16 8 callSong 0) 0 = .ok (.again, d1) ∧
      d1.pointer_location 0 = 10 + 2 ∧ d1.data_pointer 0 = 256 * 0 + 14 :=
  ⟨⟨by decide, rfl, rfl⟩,
    (subroutine_call_and_return 16 (by decide) (stateAfter 16 8 callSong 0) 0 callSong 10 0 0 14
      rfl (by decide) rfl rfl rfl rfl rfl).elim fun d1 h => ⟨d1, h.1, h.2.1, h.2.2.1⟩⟩

/-- Claim C8.  When channel `v` processes a return (`0xFF`) with an empty return
slot, the trip through the fetch loop sets the cursor of `v` to the channel's
header entry `256 * program[2v] + program[2v+1]`, the value `mmml_driver_play`
loads; every other register of the driver is left as it was.  The record
differs from the old one in that cursor and in the three scratch bytes, which
hold the decoded command as after every fetch: both nibbles 15 in `buffer1` and
`buffer2`, the byte after the command in `buffer3`. -/
theorem restart_when_slot_empty (w : Nat) (hw : 16 ≤ w) (d : MMMLDriver) (v : Fin 4)
    (prog : List Byte) (operand : Nat) (hi lo : Byte)
    (hprog : d.music_data = some prog)
    (hbyte : rd prog (d.data_pointer v) = .ok 0xFF)
    (hoperand : rd prog ((d.data_pointer v + 1) % 2 ^ w) = .ok operand)
    (hslot : d.pointer_location v = 0)
    (hhi : prog[2 * v.val]? = some hi) (hlo : prog[2 * v.val + 1]? = some lo) :
    fetchStep w d v = .ok (.again,
      { d with
        data_pointer := setAt d.data_pointer v (256 * hi.val + lo.val)
        buffer1 := 15, buffer2 := 15, buffer3 := operand }) ∧
    ∀ d0 d1, mmml_driver_play w d0 prog = .ok d1 →
      d1.data_pointer v = 256 * hi.val + lo.val := by
  have h1 : hiNibble 0xFF = 15 := by decide
  have h2 : loNibble 0xFF = 15 := by decide
  have hstart : headerWord w prog v.val = .ok (256 * hi.val + lo.val) := by
    apply headerWord_eq hw
    · rw [Nat.mul_comm]; exact hhi
    · rw [Nat.mul_comm]; exact hlo
  constructor
  · rw [fetchStep_extended hprog hbyte h1 hoperand]
    simp [extendedCommand, withOperand, decode, h1, h2, trackReturn, hslot, hstart, Ctl.tag]
  · intro d0 d1 hplay
    exact play_data_pointer hplay hstart

/-- Claim C8 on `demoSong`, one update after play: channel A has played its
note and its cursor is on the return at offset 9. -/
theorem restart_when_slot_empty_witness :
    (16 ≤ 16 ∧ rd demoSong 9 = .ok 0xFF ∧ (stateAfter 16 8 demoSong 1).data_pointer 0 = 9 ∧
      (stateAfter 16 8 demoSong 1).pointer_location 0 = 0) ∧
    ∃ d', fetchStep 16 (stateAfter 16 8 demoSong 1) 0 = .ok (.again, d') ∧
      d'.data_pointer 0 = 8 :=
  ⟨⟨by decide, rfl, rfl, rfl⟩, _,
    (restart_when_slot_empty 16 (by decide) (stateAfter 16 8 demoSong 1)
      0 demoSong 0 0 8 rfl rfl rfl rfl rfl rfl).1, rfl⟩

/-! ## Notes and durations -/

/-- Claim C9.  When a pulse channel (index 0..2) with volume `vol` in 0..7
processes a note event with note nibble `k` in 1..12, the trip through the fetch
loop succeeds and leaves note period `NOTES[k]` and duty threshold
`NOTES[k] >> vol`, the floor of `NOTES[k] / 2 ^ vol`.  Byte `0x10` at volume 1
gives period 1024, duty threshold 512 and remaining length 127. -/
theorem note_period_and_duty (w : Nat) (d : MMMLDriver) (v : Fin 4) (prog : List Byte)
    (k n vol : Nat)
    (hprog : d.music_data = some prog)
    (hbyte : rd prog (d.data_pointer v) = .ok (16 * k + n))
    (hv : v.val < 3) (hk1 : 1 ≤ k) (hk : k ≤ 12) (hn : n < 16)
    (hvol : d.volume v = vol) (hvol7 : vol ≤ 7) :
    ∃ d' period, fetchStep w d v = .ok (.done, d') ∧ NOTES[k]? = some period ∧
      d'.frequency v = period ∧ d'.waveform v = period >>> vol ∧
      d'.waveform v = period / 2 ^ vol ∧
      (k = 1 → n = 0 → vol = 1 →
        d'.frequency v = 1024 ∧ d'.waveform v = 512 ∧ d'.length v = 127) := by
  have h1 : hiNibble (16 * k + n) = k := hiNibble_pack (by omega) hn
  have h2 : loNibble (16 * k + n) = n := loNibble_pack hn
  obtain ⟨period, hp⟩ := NOTES_defined hk
  have hk0 : k ≠ 0 := by omega
  have hk14 : k < 14 := by omega
  have hstep : fetchStep w d v = .ok (.done, advance w
      { decode d (16 * k + n) with
        buffer4 := period
        frequency := setAt d.frequency v period
        waveform := setAt d.waveform v (period >>> vol)
        length := setAt d.length v (noteLength n) } v 1) := by
    rw [fetchStep_sounding hprog hbyte (by omega)]
    simp [soundingEvent, toneEvent, decode, h1, h2, hk0, hk14, hv, hp, Ctl.tag, hvol]
  refine ⟨_, period, hstep, hp, by simp [advance], by simp [advance], ?_, ?_⟩
  · simp [advance, Nat.shiftRight_eq_div_pow]
  · intro e1 e2 e3
    subst e1 e2 e3
    have : period = 1024 := by simpa [NOTES] using hp.symm
    subst this
    simp [advance, noteLength]

/-- Claim C9 on `demoSong`, right after play: byte `0x10` at the default volume. -/
theorem note_period_and_duty_witness :
    (rd demoSong 8 = .ok (16 * 1 + 0) ∧ (stateAfter 16 8 demoSong 0).volume 0 = 1) ∧
    ∃ d', fetchStep 16 (stateAfter 16 8 demoSong 0) 0 = .ok (.done, d') ∧
      d'.frequency 0 = 1024 ∧ d'.waveform 0 = 512 ∧ d'.length 0 = 127 :=
  ⟨⟨rfl, rfl⟩,
    (note_period_and_duty 16 (stateAfter 16 8 demoSong 0) 0 demoSong 1 0 1 rfl rfl (by decide)
      (by decide) (by decide) (by decide) rfl (by decide)).elim fun d' h =>
      h.elim fun _ h => ⟨d', h.1, h.2.2.2.2.2 rfl rfl rfl⟩⟩

/-- On channel D the `default:` branch has no result for a first nibble in
6..13: the entry `SAMPLE_INDICIES[nibble]` does not exist. -/
theorem toneEvent_sample_undefined {d : MMMLDriver} (h6 : 6 ≤ d.buffer1) (h14 : d.buffer1 < 14) :
    toneEvent d 3 = .error .undefinedBehaviour := by
  have hk : d.buffer1 ≠ 0 ∧ d.buffer1 < 14 := ⟨by omega, h14⟩
  have hv : ¬ ((3 : Fin 4).val < 3) := by decide
  have hnone : SAMPLE_INDICIES[d.buffer1]? = none := by
    apply List.getElem?_eq_none
    simp [SAMPLE_INDICIES]
    omega
  unfold toneEvent
  rw [if_pos hk, if_neg hv, hnone]
  split
  · rename_i heq
    cases heq
  · rfl

/-- The `default:` branch keeps the cursors, the length counters and the decoded
second nibble. -/
theorem toneEvent_keeps {d d1 : MMMLDriver} {u : Fin 4} (h : toneEvent d u = .ok d1) :
    d1.data_pointer = d.data_pointer ∧ d1.length = d.length ∧ d1.buffer2 = d.buffer2 := by
  unfold toneEvent at h
  split_ifs at h
  · split at h
    · cases h
    · cases h; exact ⟨rfl, rfl, rfl⟩
  · split at h
    · cases h; exact ⟨rfl, rfl, rfl⟩
    · cases h
  · cases h; exact ⟨rfl, rfl, rfl⟩

/-- Claim C10, amended.  Let the byte under the cursor of a channel be a sounding
event with second nibble `n` and first nibble `k` in 0..12, on channel D in
0..5.  The trip through the fetch loop has a result; it leaves the loop with the
channel's remaining length set to `127 >> n` when `n` is in 0..7 and to
`95 >> (n & 7)` when `n` is in 8..15, and with the channel's cursor moved on by
exactly 1.  On channel D a first nibble `k` in 6..12 indexes the six-entry table
`SAMPLE_INDICIES` out of bounds, and the trip has no defined result.  (The
statement below gives the remaining length and the cursor for every result of
the trip, the existence of the result under `v = 3 → k ≤ 5`, and the fault
under `v = 3` and `6 ≤ k`.) -/
theorem sounding_event_length (w : Nat) (d : MMMLDriver) (v : Fin 4) (prog : List Byte)
    (k n : Nat)
    (hprog : d.music_data = some prog) (hfit : prog.length < 2 ^ w)
    (hbyte : rd prog (d.data_pointer v) = .ok (16 * k + n))
    (hk : k ≤ 12) (hn : n < 16) :
    (∀ ctl d', fetchStep w d v = .ok (ctl, d') →
      ctl = .done ∧
      d'.length v = (if n < 8 then 127 >>> n else 95 >>> (n &&& 7)) ∧
      (n ≤ 7 → d'.length v = 127 >>> n) ∧ (8 ≤ n → d'.length v = 95 >>> (n &&& 7)) ∧
      d'.data_pointer v = d.data_pointer v + 1) ∧
    ((v = 3 → k ≤ 5) → ∃ d', fetchStep w d v = .ok (.done, d')) ∧
    (v = 3 → 6 ≤ k → fetchStep w d v = .error .undefinedBehaviour) := by
  have h1 : hiNibble (16 * k + n) = k := hiNibble_pack (by omega) hn
  have h2 : loNibble (16 * k + n) = n := loNibble_pack hn
  have hlt := rd_index_lt hbyte
  have hmod : (d.data_pointer v + 1) % 2 ^ w = d.data_pointer v + 1 :=
    Nat.mod_eq_of_lt (by omega)
  have hstep := fetchStep_sounding (w := w) hprog hbyte (by omega)
  refine ⟨?_, ?_, ?_⟩
  · intro ctl d' hres
    rw [hstep] at hres
    unfold soundingEvent at hres
    cases ht : toneEvent (decode d (16 * k + n)) v with
    | error e => rw [ht] at hres; cases hres
    | ok d1 =>
      rw [ht] at hres
      cases hres
      obtain ⟨hdp, -, hb2⟩ := toneEvent_keeps ht
      have hl : (advance w { d1 with length := setAt d1.length v (noteLength d1.buffer2) }
          v 1).length v = (if n < 8 then 127 >>> n else 95 >>> (n &&& 7)) := by
        simp [advance, hb2, decode, h2, noteLength]
      refine ⟨rfl, hl, ?_, ?_, ?_⟩
      · intro h7
        rw [hl, if_pos (by omega)]
      · intro h8
        rw [hl, if_neg (by omega)]
      · simp [advance, hdp, decode, hmod]
  · intro hsample
    obtain ⟨d1, ht, -⟩ :=
      toneEvent_defined (d := decode d (16 * k + n)) (v := v) (by simpa [decode, h1] using hk)
        (by simpa [decode, h1] using hsample)
    refine ⟨advance w { d1 with length := setAt d1.length v (noteLength d1.buffer2) } v 1, ?_⟩
    rw [hstep]
    simp only [soundingEvent, ht, Ctl.tag]
  · intro hv hk6
    subst hv
    have hb1 : (decode d (16 * k + n)).buffer1 = k := h1
    have ht : toneEvent (decode d (16 * k + n)) 3 = .error .undefinedBehaviour :=
      toneEvent_sample_undefined (by rw [hb1]; exact hk6) (by rw [hb1]; omega)
    rw [hstep]
    simp only [soundingEvent, ht, Ctl.tag]

/-- Claim C10 on `demoSong`, right after play: byte `0x10` at cursor 8. -/
theorem sounding_event_length_witness :
    (rd demoSong 8 = .ok (16 * 1 + 0) ∧ (stateAfter 16 8 demoSong 0).data_pointer 0 = 8) ∧
    ∃ d', fetchStep 16 (stateAfter 16 8 demoSong 0) 0 = .ok (.done, d') ∧
      d'.length 0 = 127 ∧ d'.data_pointer 0 = 9 :=
  ⟨⟨rfl, rfl⟩,
    ((sounding_event_length 16 (stateAfter 16 8 demoSong 0) 0 demoSong 1 0 rfl (by decide) rfl
      (by decide) (by decide)).2.1 (by decide)).elim fun d' h =>
      ⟨d', h,
        ((sounding_event_length 16 (stateAfter 16 8 demoSong 0) 0 demoSong 1 0 rfl (by decide)
          rfl (by decide) (by decide)).1 _ d' h).2.2.1 (by decide),
        ((sounding_event_length 16 (stateAfter 16 8 demoSong 0) 0 demoSong 1 0 rfl (by decide)
          rfl (by decide) (by decide)).1 _ d' h).2.2.2.2⟩⟩

/-- Claim C10 as stated fails on channel D for the first nibbles 6..12.  In
`sixthSampleSong`, right after play, the byte under the cursor of channel D is
`0x60`, a sounding event with first nibble 6 and second nibble 0.  The
`default:` branch reads `SAMPLE_INDICIES[6]`, and the table has six entries
(indices 0..5): the trip through the fetch loop has no defined result, so no
remaining length of `127 >> 0` and no cursor moved on by 1. -/
theorem sounding_event_undefined :
    (stateAfter 16 8 sixthSampleSong 0).music_data = some sixthSampleSong ∧
    rd sixthSampleSong ((stateAfter 16 8 sixthSampleSong 0).data_pointer 3)
      = .ok (16 * 6 + 0) ∧
    SAMPLE_INDICIES.length = 6 ∧ SAMPLE_INDICIES[6]? = none ∧
    fetchStep 16 (stateAfter 16 8 sixthSampleSong 0) 3 = .error .undefinedBehaviour ∧
    ¬ ∃ ctl d', fetchStep 16 (stateAfter 16 8 sixthSampleSong 0) 3 = .ok (ctl, d') := by
  have hf : fetchStep 16 (stateAfter 16 8 sixthSampleSong 0) 3 = .error .undefinedBehaviour :=
    rfl
  refine ⟨rfl, rfl, rfl, rfl, hf, ?_⟩
  rintro ⟨ctl, d', h⟩
  rw [hf] at h
  cases h

/-! ## What the data processing section leaves alone -/

theorem seqKeeps_refl (d : MMMLDriver) : seqKeeps d d := ⟨rfl, rfl, rfl, rfl, rfl⟩

theorem seqKeeps_trans {a b c : MMMLDriver} (h1 : seqKeeps a b) (h2 : seqKeeps b c) :
    seqKeeps a c := by
  obtain ⟨a1, a2, a3, a4, a5⟩ := h1
  obtain ⟨b1, b2, b3, b4, b5⟩ := h2
  exact ⟨b1.trans a1, b2.trans a2, b3.trans a3, b4.trans a4, b5.trans a5⟩

theorem cmdKeeps_refl (d : MMMLDriver) : cmdKeeps d d :=
  ⟨seqKeeps_refl d, rfl, rfl, rfl, rfl, rfl⟩

theorem advance_cmdKeeps (w : Nat) (d : MMMLDriver) (v : Fin 4) (n : Nat) :
    cmdKeeps d (advance w d v n) :=
  ⟨⟨rfl, rfl, rfl, rfl, rfl⟩, rfl, rfl, rfl, rfl, rfl⟩

theorem loopStart_cmdKeeps {w : Nat} {d d' : MMMLDriver} {v : Fin 4}
    (h : loopStart w d v = .ok d') : cmdKeeps d d' := by
  unfold loopStart at h
  dsimp only at h
  split at h
  · cases h
  · cases h
    exact ⟨⟨rfl, rfl, rfl, rfl, rfl⟩, rfl, rfl, rfl, rfl, rfl⟩

theorem loopEnd_cmdKeeps {w : Nat} {d d' : MMMLDriver} {v : Fin 4}
    (h : loopEnd w d v = .ok d') : cmdKeeps d d' := by
  unfold loopEnd at h
  split at h
  · cases h
  · split at h
    · cases h
      exact ⟨⟨rfl, rfl, rfl, rfl, rfl⟩, rfl, rfl, rfl, rfl, rfl⟩
    · cases h
      exact ⟨⟨rfl, rfl, rfl, rfl, rfl⟩, rfl, rfl, rfl, rfl, rfl⟩

theorem subroutineCall_cmdKeeps {w : Nat} {prog : List Byte} {d d' : MMMLDriver} {v : Fin 4}
    (h : subroutineCall w prog d v = .ok d') : cmdKeeps d d' := by
  unfold subroutineCall at h
  split at h
  · cases h
  · cases h
    exact ⟨⟨rfl, rfl, rfl, rfl, rfl⟩, rfl, rfl, rfl, rfl, rfl⟩

theorem trackReturn_cmdKeeps {w : Nat} {prog : List Byte} {d d' : MMMLDriver} {v : Fin 4}
    (h : trackReturn w prog d v = .ok d') : cmdKeeps d d' := by
  unfold trackReturn at h
  split at h
  · cases h
    exact ⟨⟨rfl, rfl, rfl, rfl, rfl⟩, rfl, rfl, rfl, rfl, rfl⟩
  · split at h
    · cases h
    · cases h
      exact ⟨⟨rfl, rfl, rfl, rfl, rfl⟩, rfl, rfl, rfl, rfl, rfl⟩

theorem extendedCommand_cmdKeeps {w : Nat} {prog : List Byte} {d d' : MMMLDriver} {v : Fin 4}
    (h : extendedCommand w prog d v = .ok d') : cmdKeeps d d' := by
  unfold extendedCommand at h
  split_ifs at h
  · exact loopStart_cmdKeeps h
  · exact loopEnd_cmdKeeps h
  · exact subroutineCall_cmdKeeps h
  · cases h
    exact ⟨⟨rfl, rfl, rfl, rfl, rfl⟩, rfl, rfl, rfl, rfl, rfl⟩
  · cases h
    exact advance_cmdKeeps w d v 1
  · cases h
    exact advance_cmdKeeps w d v 2
  · exact trackReturn_cmdKeeps h
  · cases h
    exact cmdKeeps_refl d

theorem toneEvent_seqKeeps {d d' : MMMLDriver} {v : Fin 4}
    (h : toneEvent d v = .ok d') : seqKeeps d d' := by
  unfold toneEvent at h
  split_ifs at h
  · split at h
    · cases h
    · cases h
      exact ⟨rfl, rfl, rfl, rfl, rfl⟩
  · split at h
    · cases h
      exact ⟨rfl, rfl, rfl, rfl, rfl⟩
    · cases h
  · cases h
    exact ⟨rfl, rfl, rfl, rfl, rfl⟩

theorem soundingEvent_seqKeeps {w : Nat} {d d' : MMMLDriver} {v : Fin 4}
    (h : soundingEvent w d v = .ok d') : seqKeeps d d' := by
  unfold soundingEvent at h
  cases ht : toneEvent d v with
  | error e => rw [ht] at h; cases h
  | ok d1 =>
    rw [ht] at h
    cases h
    exact seqKeeps_trans (toneEvent_seqKeeps ht) ⟨rfl, rfl, rfl, rfl, rfl⟩

/-- One trip through the fetch loop assigns none of the members of `seqKeeps`. -/
theorem fetchStep_seqKeeps {w : Nat} {d d' : MMMLDriver} {u : Fin 4} {c : Ctl}
    (h : fetchStep w d u = .ok (c, d')) : seqKeeps d d' := by
  obtain ⟨prog, b, -, -, hcase⟩ := fetchStep_cases h
  rcases hcase with ⟨-, -, operand, -, hx⟩ | ⟨-, -, rfl⟩ | ⟨-, -, rfl⟩ | ⟨-, -, -, -, hx⟩
  · exact seqKeeps_trans (b := withOperand (decode d b) operand) ⟨rfl, rfl, rfl, rfl, rfl⟩
      (extendedCommand_cmdKeeps hx).1
  · exact ⟨rfl, rfl, rfl, rfl, rfl⟩
  · exact ⟨rfl, rfl, rfl, rfl, rfl⟩
  · exact seqKeeps_trans (b := decode d b) ⟨rfl, rfl, rfl, rfl, rfl⟩ (soundingEvent_seqKeeps hx)

/-- A relation that contains every trip through the fetch loop and every
decrement of a remaining-length counter, and is reflexive and transitive,
contains the fetch loop. -/
theorem fetchLoop_lift {w : Nat} {R : MMMLDriver → MMMLDriver → Prop}
    (htrans : ∀ a b c, R a b → R b c → R a c)
    (hstep : ∀ d u c d', fetchStep w d u = .ok (c, d') → R d d') {u : Fin 4} :
    ∀ (fuel : Nat) {d d' : MMMLDriver}, fetchLoop w fuel d u = .ok d' → R d d' := by
  intro fuel
  induction fuel with
  | zero => intro d d' h; cases h
  | succ fuel ih =>
    intro d d' h
    unfold fetchLoop at h
    cases hs : fetchStep w d u with
    | error e => rw [hs] at h; cases h
    | ok r =>
      obtain ⟨c, d1⟩ := r
      rw [hs] at h
      cases c with
      | again => exact htrans _ _ _ (hstep _ _ _ _ hs) (ih h)
      | done =>
        cases h
        exact hstep _ _ _ _ hs

theorem channelPass_lift {w fuel : Nat} {R : MMMLDriver → MMMLDriver → Prop}
    (htrans : ∀ a b c, R a b → R b c → R a c)
    (hlen : ∀ d (u : Fin 4) x, R d { d with length := setAt d.length u x })
    (hstep : ∀ d u c d', fetchStep w d u = .ok (c, d') → R d d')
    {d d' : MMMLDriver} {u : Fin 4} (h : channelPass w fuel d u = .ok d') : R d d' := by
  unfold channelPass at h
  split_ifs at h
  · exact fetchLoop_lift htrans hstep fuel h
  · cases h
    exact hlen _ _ _

/-- The same for a whole sequencer pass. -/
theorem sequencerPass_lift {w fuel : Nat} {R : MMMLDriver → MMMLDriver → Prop}
    (htrans : ∀ a b c, R a b → R b c → R a c)
    (hlen : ∀ d (u : Fin 4) x, R d { d with length := setAt d.length u x })
    (hstep : ∀ d u c d', fetchStep w d u = .ok (c, d') → R d d')
    {d d' : MMMLDriver} (h : sequencerPass w fuel d = .ok d') : R d d' := by
  unfold sequencerPass at h
  obtain ⟨d3, h3, h4⟩ := bind_eq_ok h
  obtain ⟨d2, h2, h3⟩ := bind_eq_ok h3
  obtain ⟨d1, h1, h2⟩ := bind_eq_ok h2
  exact htrans _ _ _ (htrans _ _ _ (htrans _ _ _
    (channelPass_lift htrans hlen hstep h1) (channelPass_lift htrans hlen hstep h2))
    (channelPass_lift htrans hlen hstep h3)) (channelPass_lift htrans hlen hstep h4)

theorem sequencerPass_seqKeeps {w fuel : Nat} {d d' : MMMLDriver}
    (h : sequencerPass w fuel d = .ok d') : seqKeeps d d' :=
  sequencerPass_lift (R := seqKeeps) (fun _ _ _ => seqKeeps_trans)
    (fun _ _ _ => ⟨rfl, rfl, rfl, rfl, rfl⟩) (fun _ _ _ _ => fetchStep_seqKeeps) h


/-! ## The shape of one update call -/

/-- A call with a program bound is the sample player, the three pulse channels
and the data processing section, in this order. -/
theorem update_cases {w fuel : Nat} {d d' : MMMLDriver} {o : Nat} {prog : List Byte}
    (hprog : d.music_data = some prog) (h : mmml_driver_update w fuel d = .ok (o, d')) :
    ∃ d1, sampler d = .ok d1 ∧ dataProcessing w fuel (pulseAll w d1) = .ok d' ∧
      o = mixOutput d' := by
  unfold mmml_driver_update at h
  rw [hprog] at h
  dsimp only at h
  cases hs : sampler d with
  | error e => rw [hs] at h; cases h
  | ok d1 =>
    rw [hs] at h
    dsimp only at h
    cases hp : dataProcessing w fuel (pulse w (pulse w (pulse w d1 0) 1) 2) with
    | error e => rw [hp] at h; cases h
    | ok d2 =>
      rw [hp] at h
      cases h
      exact ⟨d1, rfl, hp, rfl⟩

/-- What the data processing section does to the members of `seqKeeps`: only
the tempo countdown changes, reloaded from the reload value held on entry when
it was 0 and decremented otherwise. -/
theorem dataProcessing_keeps {w fuel : Nat} {d d' : MMMLDriver}
    (h : dataProcessing w fuel d = .ok d') :
    d'.out = d.out ∧ d'.pitch_counter = d.pitch_counter ∧
    d'.sample_counter = d.sample_counter ∧ d'.music_data = d.music_data ∧
    d'.tick_counter = (if d.tick_counter = 0 then d.tick_speed else d.tick_counter - 1) := by
  unfold dataProcessing at h
  by_cases ht : d.tick_counter = 0
  · rw [if_pos ht] at h
    obtain ⟨a1, a2, a3, a4, a5⟩ := sequencerPass_seqKeeps h
    rw [if_pos ht]
    exact ⟨a1, a2, a3, a5, a4⟩
  · rw [if_neg ht] at h
    cases h
    rw [if_neg ht]
    exact ⟨rfl, rfl, rfl, rfl, rfl⟩

/-- The sample player writes its own cursor, its prescaler and `out[3]` only. -/
theorem sampleBit_keeps {d d' : MMMLDriver} (h : sampleBit d = .ok d') :
    d'.pitch_counter = d.pitch_counter ∧ d'.waveform = d.waveform ∧
    d'.frequency = d.frequency ∧ d'.octave = d.octave ∧ d'.tick_speed = d.tick_speed ∧
    d'.music_data = d.music_data ∧ d'.sample_counter = d.sample_counter ∧
    (∀ i : Fin 4, i.val < 3 → d'.out i = d.out i) := by
  have hout : ∀ (x : Nat) (i : Fin 4), i.val < 3 → setAt d.out 3 x i = d.out i := by
    intro x i hi
    apply setAt_other
    intro e
    rw [e] at hi
    exact absurd hi (by decide)
  unfold sampleBit at h
  split_ifs at h
  · split at h
    · cases h
    · cases h
      exact ⟨rfl, rfl, rfl, rfl, rfl, rfl, rfl, hout _⟩
  · cases h
    exact ⟨rfl, rfl, rfl, rfl, rfl, rfl, rfl, hout _⟩

theorem nextSampleByte_keeps (d : MMMLDriver) :
    (nextSampleByte d).pitch_counter = d.pitch_counter ∧
    (nextSampleByte d).waveform = d.waveform ∧
    (nextSampleByte d).frequency = d.frequency ∧ (nextSampleByte d).octave = d.octave ∧
    (nextSampleByte d).tick_speed = d.tick_speed ∧
    (nextSampleByte d).music_data = d.music_data ∧ (nextSampleByte d).out = d.out := by
  unfold nextSampleByte
  split_ifs
  · exact ⟨rfl, rfl, rfl, rfl, rfl, rfl, rfl⟩
  · exact ⟨rfl, rfl, rfl, rfl, rfl, rfl, rfl⟩

theorem sampler_keeps {d d' : MMMLDriver} (h : sampler d = .ok d') :
    d'.pitch_counter = d.pitch_counter ∧ d'.waveform = d.waveform ∧
    d'.frequency = d.frequency ∧ d'.octave = d.octave ∧ d'.tick_speed = d.tick_speed ∧
    d'.music_data = d.music_data ∧ (∀ i : Fin 4, i.val < 3 → d'.out i = d.out i) := by
  unfold sampler at h
  split_ifs at h
  · cases hb : sampleBit d with
    | error e => rw [hb] at h; cases h
    | ok d1 =>
      rw [hb] at h
      cases h
      obtain ⟨a1, a2, a3, a4, a5, a6, -, a8⟩ := sampleBit_keeps hb
      obtain ⟨b1, b2, b3, b4, b5, b6, b7⟩ := nextSampleByte_keeps d1
      refine ⟨b1.trans a1, b2.trans a2, b3.trans a3, b4.trans a4, b5.trans a5, b6.trans a6, ?_⟩
      intro i hi
      exact (congrFun b7 i).trans (a8 i hi)
  · cases h
    exact ⟨rfl, rfl, rfl, rfl, rfl, rfl, fun _ _ => rfl⟩

/-- The prescaler of the sample player after one call of `sampler`. -/
theorem sampler_counter {d d' : MMMLDriver} (h : sampler d = .ok d') :
    d'.sample_counter = if d.sample_counter = 0 then SAMPLE_SPEED else d.sample_counter - 1 := by
  unfold sampler at h
  by_cases hc : d.sample_counter = 0
  · rw [if_pos hc] at h
    rw [if_pos hc]
    cases hb : sampleBit d with
    | error e => rw [hb] at h; cases h
    | ok d1 =>
      rw [hb] at h
      cases h
      rfl
  · rw [if_neg hc] at h
    rw [if_neg hc]
    cases h
    rfl

/-- The sample player in a call entered with the prescaler above 0: nothing but
the prescaler changes. -/
theorem sampler_waiting {d : MMMLDriver} (h : d.sample_counter ≠ 0) :
    sampler d = .ok { d with sample_counter := d.sample_counter - 1 } := by
  simp [sampler, h]

/-- The sample player in a call entered with the prescaler at 0: one bit slot
is processed and the prescaler is reloaded. -/
theorem sampler_slot {d : MMMLDriver} (h : d.sample_counter = 0) :
    sampler d = (sampleBit d).map
      fun d1 => { nextSampleByte d1 with sample_counter := SAMPLE_SPEED } := by
  unfold sampler
  rw [if_pos h]
  cases sampleBit d <;> rfl

/-- The pulse code of channel `i` on the channel itself. -/
theorem pulse_at (w : Nat) (d : MMMLDriver) (i : Fin 4) :
    (pulse w d i).pitch_counter i = nextPhase w d i ∧
    (pulse w d i).out i = (if nextPhase w d i < d.waveform i then 1 else 0) := by
  unfold pulse nextPhase
  dsimp only
  refine ⟨setAt_same _ _ _, ?_⟩
  rw [setAt_same]
  split_ifs <;> first | rfl | omega

/-- The pulse code of channel `i` on another channel `j`. -/
theorem pulse_other (w : Nat) (d : MMMLDriver) {i j : Fin 4} (h : j ≠ i) :
    (pulse w d i).pitch_counter j = d.pitch_counter j ∧ (pulse w d i).out j = d.out j ∧
    nextPhase w (pulse w d i) j = nextPhase w d j := by
  have h1 : (pulse w d i).pitch_counter j = d.pitch_counter j := setAt_other _ _ _ _ h
  refine ⟨h1, setAt_other _ _ _ _ h, ?_⟩
  unfold nextPhase
  rw [h1]
  rfl

/-- The three pulse channels after the synthesis stage. -/
theorem pulseAll_at (w : Nat) (d : MMMLDriver) (i : Fin 4) (hi : i.val < 3) :
    (pulseAll w d).pitch_counter i = nextPhase w d i ∧
    (pulseAll w d).out i = (if nextPhase w d i < d.waveform i then 1 else 0) := by
  have h10 : (1 : Fin 4) ≠ 0 := by decide
  have h20 : (2 : Fin 4) ≠ 0 := by decide
  have h21 : (2 : Fin 4) ≠ 1 := by decide
  have h01 : (0 : Fin 4) ≠ 1 := by decide
  have h02 : (0 : Fin 4) ≠ 2 := by decide
  have h12 : (1 : Fin 4) ≠ 2 := by decide
  unfold pulseAll
  have hcases : i = 0 ∨ i = 1 ∨ i = 2 := by
    rcases i with ⟨n, hn⟩
    simp only [Fin.ext_iff]
    simp only [] at hi
    rcases n with _ | _ | _ | n
    · left; rfl
    · right; left; rfl
    · right; right; rfl
    · omega
  rcases hcases with rfl | rfl | rfl
  · obtain ⟨a1, a2, -⟩ := pulse_other w (pulse w (pulse w d 0) 1) h02
    obtain ⟨b1, b2, -⟩ := pulse_other w (pulse w d 0) h01
    obtain ⟨c1, c2⟩ := pulse_at w d 0
    exact ⟨a1.trans (b1.trans c1), a2.trans (b2.trans c2)⟩
  · obtain ⟨a1, a2, -⟩ := pulse_other w (pulse w (pulse w d 0) 1) h12
    obtain ⟨b1, b2⟩ := pulse_at w (pulse w d 0) 1
    obtain ⟨-, -, c3⟩ := pulse_other w d h10
    rw [c3] at b1 b2
    exact ⟨a1.trans b1, a2.trans b2⟩
  · obtain ⟨a1, a2⟩ := pulse_at w (pulse w (pulse w d 0) 1) 2
    obtain ⟨-, -, b3⟩ := pulse_other w (pulse w d 0) h21
    obtain ⟨-, -, c3⟩ := pulse_other w d h20
    rw [b3, c3] at a1 a2
    exact ⟨a1, a2⟩

/-- The members the synthesis stage only reads. -/
theorem pulseAll_keeps (w : Nat) (d : MMMLDriver) :
    (pulseAll w d).tick_counter = d.tick_counter ∧ (pulseAll w d).tick_speed = d.tick_speed ∧
    (pulseAll w d).sample_counter = d.sample_counter ∧
    (pulseAll w d).music_data = d.music_data ∧ (pulseAll w d).waveform = d.waveform ∧
    (pulseAll w d).frequency = d.frequency ∧ (pulseAll w d).current_byte = d.current_byte ∧
    (pulseAll w d).current_bit = d.current_bit ∧
    (pulseAll w d).current_sample = d.current_sample :=
  ⟨rfl, rfl, rfl, rfl, rfl, rfl, rfl, rfl, rfl⟩

/-- A pulse channel after one update call: its phase accumulator is the phase
advanced and wrapped once, and its output is 1 exactly when that phase is below
the duty threshold the channel had on entry. -/
theorem update_pulse {w fuel : Nat} {d d' : MMMLDriver} {o : Nat} {prog : List Byte}
    (hprog : d.music_data = some prog) (h : mmml_driver_update w fuel d = .ok (o, d'))
    (i : Fin 4) (hi : i.val < 3) :
    d'.pitch_counter i = nextPhase w d i ∧
    d'.out i = (if nextPhase w d i < d.waveform i then 1 else 0) := by
  obtain ⟨d1, hs, hp, -⟩ := update_cases hprog h
  obtain ⟨k1, k2, -, -, -⟩ := dataProcessing_keeps hp
  obtain ⟨s1, s2, s3, s4, -, -, -⟩ := sampler_keeps hs
  obtain ⟨p1, p2⟩ := pulseAll_at w d1 i hi
  have hn : nextPhase w d1 i = nextPhase w d i := by
    unfold nextPhase
    rw [s1, s3, s4]
  rw [hn, s2] at p2
  rw [hn] at p1
  exact ⟨(congrFun k2 i).trans p1, (congrFun k1 i).trans p2⟩

/-- The program stays bound over an update call. -/
theorem update_music_data {w fuel : Nat} {d d' : MMMLDriver} {o : Nat} {prog : List Byte}
    (hprog : d.music_data = some prog) (h : mmml_driver_update w fuel d = .ok (o, d')) :
    d'.music_data = some prog := by
  obtain ⟨d1, hs, hp, -⟩ := update_cases hprog h
  obtain ⟨-, -, -, k4, -⟩ := dataProcessing_keeps hp
  obtain ⟨-, -, -, -, -, s6, -⟩ := sampler_keeps hs
  rw [k4, (pulseAll_keeps w d1).2.2.2.1, s6, hprog]

/-- The prescaler of the sample player after one update call. -/
theorem update_sample_counter {w fuel : Nat} {d d' : MMMLDriver} {o : Nat} {prog : List Byte}
    (hprog : d.music_data = some prog) (h : mmml_driver_update w fuel d = .ok (o, d')) :
    d'.sample_counter =
      if d.sample_counter = 0 then SAMPLE_SPEED else d.sample_counter - 1 := by
  obtain ⟨d1, hs, hp, -⟩ := update_cases hprog h
  obtain ⟨-, -, k3, -, -⟩ := dataProcessing_keeps hp
  rw [k3, (pulseAll_keeps w d1).2.2.1]
  exact sampler_counter hs

/-- The tempo countdown after one update call. -/
theorem update_tick_counter {w fuel : Nat} {d d' : MMMLDriver} {o : Nat} {prog : List Byte}
    (hprog : d.music_data = some prog) (h : mmml_driver_update w fuel d = .ok (o, d')) :
    d'.tick_counter = if d.tick_counter = 0 then d.tick_speed else d.tick_counter - 1 := by
  obtain ⟨d1, hs, hp, -⟩ := update_cases hprog h
  obtain ⟨-, -, -, -, k5⟩ := dataProcessing_keeps hp
  obtain ⟨-, -, -, -, s5, -, -⟩ := sampler_keeps hs
  rw [k5, (pulseAll_keeps w d1).1, (pulseAll_keeps w d1).2.1, sampler_tick hs, s5]


/-! ## Runs of update calls and the record after play -/

theorem runUpdates_succ {w fuel n : Nat} {d d' : MMMLDriver} {outs : List Nat}
    (h : runUpdates w fuel (n + 1) d = .ok (outs, d')) :
    ∃ o d1 os, mmml_driver_update w fuel d = .ok (o, d1) ∧
      runUpdates w fuel n d1 = .ok (os, d') ∧ outs = o :: os := by
  unfold runUpdates at h
  cases hu : mmml_driver_update w fuel d with
  | error e => rw [hu] at h; cases h
  | ok r =>
    obtain ⟨o, d1⟩ := r
    rw [hu] at h
    dsimp only at h
    cases hr : runUpdates w fuel n d1 with
    | error e => rw [hr] at h; cases h
    | ok r2 =>
      obtain ⟨os, d2⟩ := r2
      rw [hr] at h
      cases h
      exact ⟨o, d1, os, rfl, hr, rfl⟩

/-- A property that holds on entry and is kept by every update call with a
program bound holds after every run of update calls. -/
theorem runUpdates_invariant {w fuel : Nat} {prog : List Byte} {P : MMMLDriver → Prop}
    (hstep : ∀ d d' o, d.music_data = some prog → P d →
      mmml_driver_update w fuel d = .ok (o, d') → P d') :
    ∀ (n : Nat) {d d' : MMMLDriver} {outs : List Nat}, d.music_data = some prog → P d →
      runUpdates w fuel n d = .ok (outs, d') → P d' ∧ d'.music_data = some prog := by
  intro n
  induction n with
  | zero =>
    intro d d' outs hprog hP h
    cases h
    exact ⟨hP, hprog⟩
  | succ n ih =>
    intro d d' outs hprog hP h
    obtain ⟨o, d1, os, hu, hr, -⟩ := runUpdates_succ h
    exact ih (update_music_data hprog hu) (hstep d d1 o hprog hP hu) hr

/-- The record a successful `mmml_driver_play` leaves. -/
theorem play_cases {w : Nat} {d d' : MMMLDriver} {prog : List Byte}
    (h : mmml_driver_play w d prog = .ok d') :
    ∃ x0 x1 x2 x3, d' = resetChannel (resetChannel (resetChannel (resetChannel
      { resetGlobals d with music_data := some prog } 0 x0) 1 x1) 2 x2) 3 x3 := by
  unfold mmml_driver_play at h
  dsimp only at h
  obtain ⟨d3, h3, h4⟩ := bind_eq_ok h
  obtain ⟨d2, h2, h3⟩ := bind_eq_ok h3
  obtain ⟨d1, h1, h2⟩ := bind_eq_ok h2
  unfold playChannel at h1 h2 h3 h4
  split at h1
  · cases h1
  · rename_i x0 _
    cases h1
    split at h2
    · cases h2
    · rename_i x1 _
      cases h2
      split at h3
      · cases h3
      · rename_i x2 _
        cases h3
        split at h4
        · cases h4
        · rename_i x3 _
          cases h4
          exact ⟨x0, x1, x2, x3, rfl⟩

/-- The prescaler of the sample player over a run of update calls that starts
with the prescaler inside its cycle. -/
theorem runUpdates_sample_counter {w fuel : Nat} {prog : List Byte} :
    ∀ (n : Nat) {d d' : MMMLDriver} {outs : List Nat}, d.music_data = some prog →
      d.sample_counter ≤ SAMPLE_SPEED → runUpdates w fuel n d = .ok (outs, d') →
      d'.sample_counter = (d.sample_counter + 5 * n) % 6 := by
  intro n
  induction n with
  | zero =>
    intro d d' outs _ hc h
    cases h
    unfold SAMPLE_SPEED at hc
    omega
  | succ n ih =>
    intro d d' outs hprog hc h
    obtain ⟨o, d1, os, hu, hr, -⟩ := runUpdates_succ h
    have h1 := update_sample_counter hprog hu
    unfold SAMPLE_SPEED at hc h1
    have hc1 : d1.sample_counter ≤ SAMPLE_SPEED := by
      unfold SAMPLE_SPEED
      split_ifs at h1 <;> omega
    rw [ih (update_music_data hprog hu) hc1 hr]
    split_ifs at h1 <;> omega

/-- While the tempo countdown is above 0 no call runs a sequencer pass and each
call takes 1 off the countdown. -/
theorem runUpdates_countdown {w fuel : Nat} {prog : List Byte} :
    ∀ (k : Nat) {d d' : MMMLDriver} {outs : List Nat}, d.music_data = some prog →
      k ≤ d.tick_counter → runUpdates w fuel k d = .ok (outs, d') →
      passCount w fuel k d = 0 ∧ d'.tick_counter = d.tick_counter - k := by
  intro k
  induction k with
  | zero =>
    intro d d' outs _ _ h
    cases h
    exact ⟨rfl, rfl⟩
  | succ k ih =>
    intro d d' outs hprog hk h
    obtain ⟨o, d1, os, hu, hr, -⟩ := runUpdates_succ h
    have ht : d.tick_counter ≠ 0 := by omega
    have h1 := update_tick_counter hprog hu
    rw [if_neg ht] at h1
    obtain ⟨i1, i2⟩ := ih (update_music_data hprog hu) (by omega) hr
    refine ⟨?_, by omega⟩
    unfold passCount
    rw [hu]
    simp [ht, i1]


/-! ## Cadence of the sample player -/

/-- Claim C11.  Take two driver records with a program bound (any programs, any
tempo countdown and reload value) whose sample prescalers are equal.  After one
call of `mmml_driver_update` on each the prescalers are equal again: the new
value is `SAMPLE_SPEED` when the call was entered with 0 and one less
otherwise.  A bit slot is processed exactly in the calls entered with the
prescaler at 0: then the sample player is `sampleBit` followed by the move to
the next byte, otherwise it only takes 1 off the prescaler.  Over a run of `n`
calls that starts with the prescaler `c ≤ SAMPLE_SPEED` the prescaler is
`(c + 5 n) mod 6`, so the calls entered with 0 come once every 6 calls. -/
theorem sample_cadence (w fuel : Nat) (d1 d2 e1 e2 : MMMLDriver) (o1 o2 : Nat)
    (p1 p2 : List Byte) (h1 : d1.music_data = some p1) (h2 : d2.music_data = some p2)
    (hc : d1.sample_counter = d2.sample_counter)
    (u1 : mmml_driver_update w fuel d1 = .ok (o1, e1))
    (u2 : mmml_driver_update w fuel d2 = .ok (o2, e2)) :
    e1.sample_counter = e2.sample_counter ∧
    e1.sample_counter
      = (if d1.sample_counter = 0 then SAMPLE_SPEED else d1.sample_counter - 1) ∧
    (d1.sample_counter = 0 → sampler d1 = (sampleBit d1).map
      fun s => { nextSampleByte s with sample_counter := SAMPLE_SPEED }) ∧
    (d1.sample_counter ≠ 0 →
      sampler d1 = .ok { d1 with sample_counter := d1.sample_counter - 1 }) ∧
    (∀ n outs e, d1.sample_counter ≤ SAMPLE_SPEED →
      runUpdates w fuel n d1 = .ok (outs, e) →
      e.sample_counter = (d1.sample_counter + 5 * n) % 6) := by
  have a1 := update_sample_counter h1 u1
  have a2 := update_sample_counter h2 u2
  refine ⟨?_, a1, sampler_slot, sampler_waiting, ?_⟩
  · rw [a1, a2, hc]
  · intro n outs e hle hr
    exact runUpdates_sample_counter n h1 hle hr

/-- Claim C11 on `demoSong` and `tempoSong` right after play: both records have
the prescaler at 0, their first update calls leave it at 5. -/
theorem sample_cadence_witness :
    ((stateAfter 16 8 demoSong 0).sample_counter
        = (stateAfter 16 8 tempoSong 0).sample_counter ∧
      mmml_driver_update 16 8 (stateAfter 16 8 demoSong 0)
        = .ok (0, stateAfter 16 8 demoSong 1) ∧
      mmml_driver_update 16 8 (stateAfter 16 8 tempoSong 0)
        = .ok (0, stateAfter 16 8 tempoSong 1)) ∧
    (stateAfter 16 8 demoSong 1).sample_counter
      = (stateAfter 16 8 tempoSong 1).sample_counter ∧
    (stateAfter 16 8 demoSong 1).sample_counter = 5 :=
  ⟨⟨rfl, rfl, rfl⟩,
    (sample_cadence 16 8 (stateAfter 16 8 demoSong 0) (stateAfter 16 8 tempoSong 0)
      (stateAfter 16 8 demoSong 1) (stateAfter 16 8 tempoSong 1) 0 0 demoSong tempoSong
      rfl rfl rfl rfl rfl).1,
    (sample_cadence 16 8 (stateAfter 16 8 demoSong 0) (stateAfter 16 8 tempoSong 0)
      (stateAfter 16 8 demoSong 1) (stateAfter 16 8 tempoSong 1) 0 0 demoSong tempoSong
      rfl rfl rfl rfl rfl).2.1⟩

/-! ## Output of a pulse channel -/

/-- Claim C12, amended.  After every call of `mmml_driver_update` with a program
bound, pulse channel `i` (0..2) has its phase accumulator at the phase advanced
and wrapped in this call, and its output is 1 exactly when that phase is
strictly below the duty threshold the channel had on entry, and 0 exactly when
the phase is at or above it (so also when the two are equal).  A call that runs
no sequencer pass leaves the threshold as it was. -/
theorem pulse_output_threshold (w fuel : Nat) (d d' : MMMLDriver) (o : Nat)
    (prog : List Byte) (i : Fin 4) (hprog : d.music_data = some prog) (hi : i.val < 3)
    (h : mmml_driver_update w fuel d = .ok (o, d')) :
    d'.pitch_counter i = nextPhase w d i ∧
    (d'.out i = 1 ↔ d'.pitch_counter i < d.waveform i) ∧
    (d'.out i = 0 ↔ d.waveform i ≤ d'.pitch_counter i) ∧
    (d.tick_counter ≠ 0 → d'.waveform i = d.waveform i) := by
  obtain ⟨a1, a2⟩ := update_pulse hprog h i hi
  refine ⟨a1, ?_, ?_, ?_⟩
  · rw [a1, a2]
    split_ifs with hlt
    · simp [hlt]
    · simp [hlt]
  · rw [a1, a2]
    split_ifs with hlt
    · simp
      omega
    · simp
      omega
  · intro ht
    obtain ⟨d1, hs, hp, -⟩ := update_cases hprog h
    unfold dataProcessing at hp
    have htick : (pulseAll w d1).tick_counter = d.tick_counter :=
      (pulseAll_keeps w d1).1.trans (sampler_tick hs)
    rw [htick, if_neg ht] at hp
    cases hp
    have hw : d1.waveform = d.waveform := (sampler_keeps hs).2.1
    exact congrFun hw i

/-- Claim C12 on `sharpSong`: the second update call after play. -/
theorem pulse_output_threshold_witness :
    ((stateAfter 16 8 sharpSong 1).music_data = some sharpSong ∧ (0 : Fin 4).val < 3 ∧
      mmml_driver_update 16 8 (stateAfter 16 8 sharpSong 1)
        = .ok (0, stateAfter 16 8 sharpSong 2)) ∧
    ((stateAfter 16 8 sharpSong 2).out 0 = 0 ↔
      (stateAfter 16 8 sharpSong 1).waveform 0 ≤ (stateAfter 16 8 sharpSong 2).pitch_counter 0) :=
  ⟨⟨rfl, by decide, rfl⟩,
    (pulse_output_threshold 16 8 (stateAfter 16 8 sharpSong 1) (stateAfter 16 8 sharpSong 2) 0
      sharpSong 0 rfl (by decide) rfl).2.2.1⟩

/-- Claim C12 as stated fails when the phase equals the duty threshold.  In
`sharpSong` channel A sounds note 12 at volume 3 with octave multiplier 64: the
first update call leaves phase 3 and stores period 542 and threshold
`542 >> 3 = 67`; the second call advances the phase to 67, equal to the
threshold, and the output of the channel is 0. -/
theorem pulse_low_at_threshold :
    (stateAfter 16 8 sharpSong 1).music_data = some sharpSong ∧
    mmml_driver_update 16 8 (stateAfter 16 8 sharpSong 1)
      = .ok (0, stateAfter 16 8 sharpSong 2) ∧
    (stateAfter 16 8 sharpSong 1).waveform 0 = 67 ∧
    (stateAfter 16 8 sharpSong 2).waveform 0 = 67 ∧
    (stateAfter 16 8 sharpSong 2).pitch_counter 0 = 67 ∧
    (stateAfter 16 8 sharpSong 2).pitch_counter 0 ≤ (stateAfter 16 8 sharpSong 2).waveform 0 ∧
    (stateAfter 16 8 sharpSong 2).out 0 = 0 ∧
    ¬ ((stateAfter 16 8 sharpSong 2).out 0 = 1 ↔
      (stateAfter 16 8 sharpSong 2).pitch_counter 0 ≤ (stateAfter 16 8 sharpSong 2).waveform 0) :=
  ⟨rfl, rfl, rfl, rfl, rfl, by decide, rfl, by decide⟩

/-! ## Rests -/

/-- Claim C13.  A byte with first nibble 0 under the cursor of pulse channel `v`
is processed as a rest: the trip through the fetch loop has a result, ends the
loop, sets the duty threshold of `v` to 0 and leaves its note period as it
was.  In every update call entered with a program bound and the threshold of
`v` at 0, the output of `v` after the call is 0, whatever the phase accumulator
holds. -/
theorem rest_silences (w fuel : Nat) (d : MMMLDriver) (v : Fin 4) (prog : List Byte) (b : Nat)
    (hprog : d.music_data = some prog) (hv : v.val < 3)
    (hb : rd prog (d.data_pointer v) = .ok b) (hrest : hiNibble b = 0) :
    (∃ d', fetchStep w d v = .ok (.done, d') ∧ d'.waveform v = 0 ∧
      d'.frequency v = d.frequency v) ∧
    (∀ (e e' : MMMLDriver) (o : Nat) (song : List Byte), e.music_data = some song →
      e.waveform v = 0 → mmml_driver_update w fuel e = .ok (o, e') → e'.out v = 0) := by
  constructor
  · have hstep := @fetchStep_sounding w d v prog b hprog hb (by omega)
    have ht : toneEvent (decode d b) v
        = .ok { decode d b with waveform := setAt (decode d b).waveform v 0 } := by
      have hb1 : (decode d b).buffer1 = 0 := hrest
      simp [toneEvent, hb1]
    rw [hstep]
    simp only [soundingEvent, ht, Ctl.tag]
    exact ⟨_, rfl, setAt_same _ _ _, rfl⟩
  · intro e e' o song hsong hw hu
    obtain ⟨-, a2⟩ := update_pulse hsong hu v hv
    rw [a2, hw]
    simp

/-- Claim C13 on `demoSong`: channel B starts with the rest byte `0x00`. -/
theorem rest_silences_witness :
    ((stateAfter 16 8 demoSong 0).music_data = some demoSong ∧ (1 : Fin 4).val < 3 ∧
      rd demoSong ((stateAfter 16 8 demoSong 0).data_pointer 1) = .ok 0 ∧ hiNibble 0 = 0) ∧
    ∃ d', fetchStep 16 (stateAfter 16 8 demoSong 0) 1 = .ok (.done, d') ∧ d'.waveform 1 = 0 ∧
      d'.frequency 1 = (stateAfter 16 8 demoSong 0).frequency 1 :=
  ⟨⟨rfl, by decide, rfl, by decide⟩,
    (rest_silences 16 8 (stateAfter 16 8 demoSong 0) 1 demoSong 0 rfl (by decide) rfl
      (by decide)).1⟩

/-! ## Tempo countdown -/

/-- Claim C14.  Take an update call with a program bound that has a result.  If
it was entered with the tempo countdown at 0, the call is the sample player, the
pulse channels and then one sequencer pass over the four channels, run on the
record whose countdown has been reloaded with the reload value held on entry;
after the call the countdown still is that value, also when the pass has stored
a new reload value.  If it was entered with a nonzero countdown, the call runs
no pass and only takes 1 off the countdown.  `mmml_driver_play` leaves the
countdown at 0, so the first update call runs a pass.  After a call that leaves
the countdown at `T`, the next `k ≤ T` calls run no pass and leave the countdown
at `T - k`: the next pass is in call `T + 1`. -/
theorem tempo_countdown (w fuel : Nat) (d d' : MMMLDriver) (o : Nat) (prog : List Byte)
    (hprog : d.music_data = some prog) (h : mmml_driver_update w fuel d = .ok (o, d')) :
    (d.tick_counter = 0 → d'.tick_counter = d.tick_speed ∧
      ∃ d1, sampler d = .ok d1 ∧
        sequencerPass w fuel { pulseAll w d1 with tick_counter := d.tick_speed } = .ok d') ∧
    (d.tick_counter ≠ 0 → d'.tick_counter = d.tick_counter - 1 ∧
      ∃ d1, sampler d = .ok d1 ∧
        d' = { pulseAll w d1 with tick_counter := d.tick_counter - 1 }) ∧
    (∀ s song s', mmml_driver_play w s song = .ok s' → s'.tick_counter = 0) ∧
    (∀ k outs e, k ≤ d'.tick_counter → runUpdates w fuel k d' = .ok (outs, e) →
      passCount w fuel k d' = 0 ∧ e.tick_counter = d'.tick_counter - k) := by
  obtain ⟨d1, hs, hp, -⟩ := update_cases hprog h
  have htick : (pulseAll w d1).tick_counter = d.tick_counter :=
    (pulseAll_keeps w d1).1.trans (sampler_tick hs)
  have hspeed : (pulseAll w d1).tick_speed = d.tick_speed :=
    (pulseAll_keeps w d1).2.1.trans (sampler_keeps hs).2.2.2.2.1
  have hcount := update_tick_counter hprog h
  unfold dataProcessing at hp
  rw [htick] at hp
  refine ⟨?_, ?_, ?_, ?_⟩
  · intro ht
    rw [if_pos ht] at hp hcount
    refine ⟨hcount, d1, hs, ?_⟩
    rw [← hspeed]
    exact hp
  · intro ht
    rw [if_neg ht] at hp hcount
    cases hp
    exact ⟨hcount, d1, hs, rfl⟩
  · intro s song s' hplay
    obtain ⟨x0, x1, x2, x3, rfl⟩ := play_cases hplay
    rfl
  · intro k outs e hk hr
    exact runUpdates_countdown k (update_music_data hprog h) hk hr

/-- Claim C14 on `tempoSong`: the first update call after play runs a pass that
stores reload value 0, and leaves the countdown at the 1024 held on entry. -/
theorem tempo_countdown_witness :
    ((stateAfter 16 8 tempoSong 0).music_data = some tempoSong ∧
      mmml_driver_update 16 8 (stateAfter 16 8 tempoSong 0)
        = .ok (0, stateAfter 16 8 tempoSong 1) ∧
      (stateAfter 16 8 tempoSong 0).tick_counter = 0 ∧
      (stateAfter 16 8 tempoSong 0).tick_speed = 1024 ∧
      (stateAfter 16 8 tempoSong 1).tick_speed = 0) ∧
    (stateAfter 16 8 tempoSong 1).tick_counter = (stateAfter 16 8 tempoSong 0).tick_speed :=
  ⟨⟨rfl, rfl, rfl, rfl, rfl⟩,
    ((tempo_countdown 16 8 (stateAfter 16 8 tempoSong 0) (stateAfter 16 8 tempoSong 1) 0
      tempoSong rfl rfl).1 rfl).1⟩

/-! ## Phase accumulator -/

/-- Claim C19.  Take an update call with a program bound that has a result, and
a pulse channel `i` whose phase `p`, period `P` and octave multiplier `m` on
entry satisfy `p < P`, `m ≤ P` and `p + m < 2 ^ w`.  After the call the phase is
`p + m` when `p + m < P` and `p + m - P` otherwise (the period is taken off at
most once); this is `(p + m) mod P`, and it is below `P`. -/
theorem phase_wraps_once (w fuel : Nat) (d d' : MMMLDriver) (o : Nat) (prog : List Byte)
    (i : Fin 4) (hprog : d.music_data = some prog) (hi : i.val < 3)
    (h : mmml_driver_update w fuel d = .ok (o, d'))
    (hp : d.pitch_counter i < d.frequency i) (hm : d.octave i ≤ d.frequency i)
    (hw : d.pitch_counter i + d.octave i < 2 ^ w) :
    d'.pitch_counter i
      = (if d.pitch_counter i + d.octave i < d.frequency i then d.pitch_counter i + d.octave i
         else d.pitch_counter i + d.octave i - d.frequency i) ∧
    d'.pitch_counter i = (d.pitch_counter i + d.octave i) % d.frequency i ∧
    d'.pitch_counter i < d.frequency i := by
  obtain ⟨a1, -⟩ := update_pulse hprog h i hi
  have hn : nextPhase w d i
      = (if d.pitch_counter i + d.octave i < d.frequency i then d.pitch_counter i + d.octave i
         else d.pitch_counter i + d.octave i - d.frequency i) := by
    unfold nextPhase
    dsimp only
    rw [Nat.mod_eq_of_lt hw]
    split_ifs <;> first | rfl | omega
  rw [a1, hn]
  refine ⟨rfl, ?_, ?_⟩
  · split_ifs with hlt
    · exact (Nat.mod_eq_of_lt hlt).symm
    · rw [Nat.mod_eq_sub_mod (by omega)]
      exact (Nat.mod_eq_of_lt (by omega)).symm
  · split_ifs <;> omega

/-- Claim C19 on `demoSong`: the second update call after play, with phase 3,
period 1024 and octave multiplier 3 on entry. -/
theorem phase_wraps_once_witness :
    ((stateAfter 16 8 demoSong 1).music_data = some demoSong ∧
      mmml_driver_update 16 8 (stateAfter 16 8 demoSong 1)
        = .ok (1, stateAfter 16 8 demoSong 2) ∧
      (stateAfter 16 8 demoSong 1).pitch_counter 0 = 3 ∧
      (stateAfter 16 8 demoSong 1).frequency 0 = 1024 ∧
      (stateAfter 16 8 demoSong 1).octave 0 = 3) ∧
    (stateAfter 16 8 demoSong 2).pitch_counter 0 = (3 + 3) % 1024 :=
  ⟨⟨rfl, rfl, rfl, rfl, rfl⟩,
    (phase_wraps_once 16 8 (stateAfter 16 8 demoSong 1) (stateAfter 16 8 demoSong 2) 1
      demoSong 0 rfl (by decide) rfl (by decide) (by decide) (by decide)).2.1⟩


/-! ## Octave command -/

/-- A trip through the fetch loop at an octave command (first nibble 13). -/
theorem fetchStep_octave {w : Nat} {d : MMMLDriver} {v : Fin 4} {prog : List Byte} {b : Nat}
    (hprog : d.music_data = some prog) (hbyte : rd prog (d.data_pointer v) = .ok b)
    (hk : hiNibble b = 13) :
    fetchStep w d v = .ok (.again, advance w { decode d b with
      octave := setAt d.octave v ((1 <<< loNibble b) % 256) } v 1) := by
  simp only [fetchStep, hprog, hbyte]
  simp [decode, hk]

/-- Claim C16, amended.  For every low nibble `n` in 0..15, a trip through the
fetch loop of channel `v` at the byte `0xD0 + n` has a result and does not end
the loop (`goto LOOP`); it advances the cursor by 1, leaves every
remaining-length counter as it was, and stores `(1 << n) mod 256` in the
octave multiplier, an `unsigned char`: this is `2 ^ n` for `n ≤ 7` and 0 for
`n` in 8..15. -/
theorem octave_set (w : Nat) (d : MMMLDriver) (v : Fin 4) (prog : List Byte) (n : Nat)
    (hprog : d.music_data = some prog) (hfit : prog.length < 2 ^ w)
    (hb : rd prog (d.data_pointer v) = .ok (0xD0 + n)) (hn : n < 16) :
    ∃ d', fetchStep w d v = .ok (.again, d') ∧
      d'.octave v = (1 <<< n) % 256 ∧
      (n ≤ 7 → d'.octave v = 2 ^ n) ∧
      (8 ≤ n → d'.octave v = 0) ∧
      d'.data_pointer v = d.data_pointer v + 1 ∧
      d'.length = d.length := by
  have hhi : hiNibble (0xD0 + n) = 13 := by
    have := @hiNibble_pack 13 n (by decide) hn
    simpa using this
  have hlo : loNibble (0xD0 + n) = n := by
    have := @loNibble_pack 13 n hn
    simpa using this
  have hlt := rd_index_lt hb
  refine ⟨_, fetchStep_octave hprog hb hhi, ?_, ?_, ?_, ?_, rfl⟩
  · simp only [advance, setAt_same, hlo]
  · intro h7
    simp only [advance, setAt_same, hlo]
    interval_cases n <;> rfl
  · intro h8
    simp only [advance, setAt_same, hlo]
    interval_cases n <;> rfl
  · simp only [advance, setAt_same, decode]
    exact Nat.mod_eq_of_lt (by omega)

/-- Claim C16 on `octaveSong`, right after play: byte `0xD8` at cursor 8. -/
theorem octave_set_witness :
    ((stateAfter 16 8 octaveSong 0).music_data = some octaveSong ∧
      octaveSong.length < 2 ^ 16 ∧
      rd octaveSong ((stateAfter 16 8 octaveSong 0).data_pointer 0) = .ok (0xD0 + 8) ∧
      8 < 16) ∧
    ∃ d', fetchStep 16 (stateAfter 16 8 octaveSong 0) 0 = .ok (.again, d') ∧
      d'.octave 0 = 0 ∧ d'.data_pointer 0 = 9 :=
  ⟨⟨rfl, by decide, rfl, by decide⟩,
    (octave_set 16 (stateAfter 16 8 octaveSong 0) 0 octaveSong 8 rfl (by decide) rfl
      (by decide)).elim fun d' h => ⟨d', h.1, h.2.2.2.1 (by decide), h.2.2.2.2.1⟩⟩

/-- Claim C16 as stated fails for the low nibbles 8..15.  On `octaveSong`, right
after play, channel A processes the byte `0xD8`: the octave multiplier becomes
0, while `1 << 8 = 2 ^ 8 = 256`. -/
theorem octave_set_eight :
    (stateAfter 16 8 octaveSong 0).music_data = some octaveSong ∧
    rd octaveSong ((stateAfter 16 8 octaveSong 0).data_pointer 0) = .ok (0xD0 + 8) ∧
    ∃ d', fetchStep 16 (stateAfter 16 8 octaveSong 0) 0 = .ok (.again, d') ∧
      d'.octave 0 = 0 ∧ d'.octave 0 ≠ 1 <<< 8 ∧ (1 <<< 8 = 2 ^ 8) :=
  ⟨rfl, rfl, _, rfl, rfl, by decide, by decide⟩

/-! ## A fetch loop that never ends -/

/-- A trip through the fetch loop at an extended command whose second nibble is
in 7..14 (no `case` of the inner `switch`): only the scratch bytes change, and
the trip ends in `goto LOOP`. -/
theorem fetchStep_unknown {w : Nat} {d : MMMLDriver} {v : Fin 4} {prog : List Byte}
    {b operand : Nat}
    (hprog : d.music_data = some prog) (hbyte : rd prog (d.data_pointer v) = .ok b)
    (hk : hiNibble b = 15) (h7 : 7 ≤ loNibble b) (h14 : loNibble b ≤ 14)
    (hop : rd prog ((d.data_pointer v + 1) % 2 ^ w) = .ok operand) :
    fetchStep w d v = .ok (.again, withOperand (decode d b) operand) := by
  rw [fetchStep_extended hprog hbyte hk hop]
  have hb2 : (withOperand (decode d b) operand).buffer2 = loNibble b := rfl
  have e0 : loNibble b ≠ 0 := by omega
  have e1 : loNibble b ≠ 1 := by omega
  have e2 : loNibble b ≠ 2 := by omega
  have e3 : loNibble b ≠ 3 := by omega
  have e6 : loNibble b ≠ 6 := by omega
  have e4 : loNibble b ≠ 4 := by omega
  have e5 : loNibble b ≠ 5 := by omega
  have e15 : loNibble b ≠ 15 := by omega
  simp [extendedCommand, hb2, e0, e1, e2, e3, e6, e4, e5, e15, Ctl.tag]

/-- With such a command under the cursor the fetch loop uses up any number of
trips. -/
theorem fetchLoop_unknown {w : Nat} {v : Fin 4} {prog : List Byte} {b operand : Nat}
    (hk : hiNibble b = 15) (h7 : 7 ≤ loNibble b) (h14 : loNibble b ≤ 14) :
    ∀ (fuel : Nat) (d : MMMLDriver), d.music_data = some prog →
      rd prog (d.data_pointer v) = .ok b →
      rd prog ((d.data_pointer v + 1) % 2 ^ w) = .ok operand →
      fetchLoop w fuel d v = .error .outOfFuel := by
  intro fuel
  induction fuel with
  | zero => intro d _ _ _; rfl
  | succ fuel ih =>
    intro d hprog hbyte hop
    unfold fetchLoop
    rw [fetchStep_unknown hprog hbyte hk h7 h14 hop]
    exact ih (withOperand (decode d b) operand) hprog hbyte hop

/-- With such a command under the cursor any number of trips is made without a
fault and without a sounding event. -/
theorem chanSteps_unknown {w : Nat} {v : Fin 4} {prog : List Byte} {b operand : Nat}
    (hk : hiNibble b = 15) (h7 : 7 ≤ loNibble b) (h14 : loNibble b ≤ 14) :
    ∀ (k : Nat) (d : MMMLDriver), d.music_data = some prog →
      rd prog (d.data_pointer v) = .ok b →
      rd prog ((d.data_pointer v + 1) % 2 ^ w) = .ok operand →
      ∃ d', chanSteps w k d v = .ok ([], d') := by
  intro k
  induction k with
  | zero => intro d _ _ _; exact ⟨d, rfl⟩
  | succ k ih =>
    intro d hprog hbyte hop
    obtain ⟨d', hd'⟩ := ih (withOperand (decode d b) operand) hprog hbyte hop
    refine ⟨d', ?_⟩
    unfold chanSteps
    rw [fetchStep_unknown hprog hbyte hk h7 h14 hop]
    dsimp only
    rw [hd']
    rfl

/-- An update call entered with the tempo countdown at 0 and channel A due to
fetch has no result when the fetch loop of channel A has none. -/
theorem update_fetch_error {w fuel : Nat} {d : MMMLDriver} {prog : List Byte} {e : Fault}
    (hprog : d.music_data = some prog) (hs : ∃ d1, sampler d = .ok d1)
    (ht : d.tick_counter = 0) (hl : d.length 0 = 0)
    (hloop : ∀ d2, d2.music_data = some prog → d2.data_pointer 0 = d.data_pointer 0 →
      fetchLoop w fuel d2 0 = .error e) :
    mmml_driver_update w fuel d = .error e := by
  obtain ⟨d1, hs⟩ := hs
  have hsame := sampler_frame 0 hs
  have hk := sampler_keeps hs
  have hX : (pulseAll w d1).tick_counter = 0 := (sampler_tick hs).trans ht
  have hlen : ({ pulseAll w d1 with tick_counter := (pulseAll w d1).tick_speed } :
      MMMLDriver).length 0 = 0 := hsame.2.1.trans hl
  have hc : channelPass w fuel
      { pulseAll w d1 with tick_counter := (pulseAll w d1).tick_speed } 0 = .error e := by
    rw [channelPass_fetching hlen]
    exact hloop _ (hk.2.2.2.2.2.1.trans hprog) hsame.2.2.2.2.1
  have hd : dataProcessing w fuel (pulseAll w d1) = .error e := by
    unfold dataProcessing
    rw [if_pos hX]
    unfold sequencerPass
    rw [hc]
    rfl
  have hd' : dataProcessing w fuel (pulse w (pulse w (pulse w d1 0) 1) 2) = .error e := hd
  unfold mmml_driver_update
  rw [hprog]
  dsimp only
  rw [hs]
  dsimp only
  rw [hd']

/-- Claim C18.  The fetch loop has no iteration bound.  Whenever the byte under
the cursor of a channel is an extended command with second nibble 7..14 (and its
operand byte is readable), every number `k` of trips through the loop body is
made without a fault and without a sounding event, and the loop has no result
for any bound on the number of trips.  `stuckSong` is such a program: after
`mmml_driver_play` the first update call runs a sequencer pass, and it has no
result for any bound. -/
theorem fetch_loop_unbounded :
    (∀ (w : Nat) (d : MMMLDriver) (v : Fin 4) (prog : List Byte) (b operand : Nat),
      d.music_data = some prog → rd prog (d.data_pointer v) = .ok b →
      hiNibble b = 15 → 7 ≤ loNibble b → loNibble b ≤ 14 →
      rd prog ((d.data_pointer v + 1) % 2 ^ w) = .ok operand →
      (∀ k, ∃ d', chanSteps w k d v = .ok ([], d')) ∧
      (∀ fuel, fetchLoop w fuel d v = .error .outOfFuel)) ∧
    ∃ d, mmml_driver_play 16 freshDriver stuckSong = .ok d ∧ d.tick_counter = 0 ∧
      d.length 0 = 0 ∧
      (∀ k, ∃ d', chanSteps 16 k d 0 = .ok ([], d')) ∧
      (∀ fuel, fetchLoop 16 fuel d 0 = .error .outOfFuel) ∧
      (∀ fuel, mmml_driver_update 16 fuel d = .error .outOfFuel) := by
  constructor
  · intro w d v prog b operand hprog hbyte hk h7 h14 hop
    exact ⟨fun k => chanSteps_unknown hk h7 h14 k d hprog hbyte hop,
      fun fuel => fetchLoop_unknown hk h7 h14 fuel d hprog hbyte hop⟩
  · have hk : hiNibble 0xF7 = 15 := by decide
    have h7 : 7 ≤ loNibble 0xF7 := by decide
    have h14 : loNibble 0xF7 ≤ 14 := by decide
    refine ⟨stateAfter 16 0 stuckSong 0, rfl, rfl, rfl, ?_, ?_, ?_⟩
    · intro k
      exact @chanSteps_unknown 16 0 stuckSong 0xF7 0 hk h7 h14 k _ rfl rfl rfl
    · intro fuel
      exact @fetchLoop_unknown 16 0 stuckSong 0xF7 0 hk h7 h14 fuel _ rfl rfl rfl
    · intro fuel
      exact @update_fetch_error 16 fuel _ stuckSong _ rfl ⟨_, rfl⟩ rfl rfl
        (fun d2 h2 hp => @fetchLoop_unknown 16 0 stuckSong 0xF7 0 hk h7 h14 fuel d2 h2
          (by rw [hp]; rfl) (by rw [hp]; rfl))


/-! ## Duty threshold and note period -/

/-- A property of driver records that is kept by the reload and the decrement
of the tempo countdown, by the decrement of a remaining-length counter and by
every trip through the fetch loop is kept by the data processing section. -/
theorem dataProcessing_preserves {w fuel : Nat} {P : MMMLDriver → Prop}
    (htick : ∀ (d : MMMLDriver) x, P d → P { d with tick_counter := x })
    (hlen : ∀ (d : MMMLDriver) (u : Fin 4) x, P d → P { d with length := setAt d.length u x })
    (hstep : ∀ d u c d', fetchStep w d u = .ok (c, d') → P d → P d')
    {d d' : MMMLDriver} (h : dataProcessing w fuel d = .ok d') (hP : P d) : P d' := by
  unfold dataProcessing at h
  split_ifs at h
  · exact sequencerPass_lift (R := fun a b => P a → P b) (fun _ _ _ f g x => g (f x))
      hlen hstep h (htick d _ hP)
  · cases h
    exact htick d _ hP

theorem cmdKeeps_dutyBounded {d d' : MMMLDriver} (h : cmdKeeps d d') (hb : dutyBounded d) :
    dutyBounded d' := by
  intro i hi
  rw [h.2.1, h.2.2.1]
  exact hb i hi

/-- The `default:` branch keeps every threshold at most its period: a note
stores a period and that period shifted right, a rest stores threshold 0. -/
theorem toneEvent_dutyBounded {d d' : MMMLDriver} {v : Fin 4} (h : toneEvent d v = .ok d')
    (hb : dutyBounded d) : dutyBounded d' := by
  unfold toneEvent at h
  split_ifs at h
  · split at h
    · cases h
    · rename_i period _
      cases h
      intro i hi
      show setAt d.waveform v (period >>> d.volume v) i ≤ setAt d.frequency v period i
      by_cases hiv : i = v
      · subst hiv
        rw [setAt_same, setAt_same]
        rw [Nat.shiftRight_eq_div_pow]
        exact Nat.div_le_self _ _
      · rw [setAt_other _ _ _ _ hiv, setAt_other _ _ _ _ hiv]
        exact hb i hi
  · split at h
    · cases h
      exact fun i hi => hb i hi
    · cases h
  · cases h
    intro i hi
    show setAt d.waveform v 0 i ≤ d.frequency i
    by_cases hiv : i = v
    · subst hiv
      rw [setAt_same]
      exact Nat.zero_le _
    · rw [setAt_other _ _ _ _ hiv]
      exact hb i hi

theorem fetchStep_dutyBounded {w : Nat} {d d' : MMMLDriver} {u : Fin 4} {c : Ctl}
    (h : fetchStep w d u = .ok (c, d')) (hb : dutyBounded d) : dutyBounded d' := by
  obtain ⟨prog, b, -, -, hcase⟩ := fetchStep_cases h
  rcases hcase with ⟨-, -, operand, -, hx⟩ | ⟨-, -, rfl⟩ | ⟨-, -, rfl⟩ | ⟨-, -, -, -, hx⟩
  · exact cmdKeeps_dutyBounded (extendedCommand_cmdKeeps hx) (fun i hi => hb i hi)
  · exact fun i hi => hb i hi
  · exact fun i hi => hb i hi
  · unfold soundingEvent at hx
    cases ht : toneEvent (decode d b) u with
    | error e => rw [ht] at hx; cases hx
    | ok d1 =>
      rw [ht] at hx
      cases hx
      have h1 : dutyBounded d1 := toneEvent_dutyBounded ht (fun i hi => hb i hi)
      exact fun i hi => h1 i hi

/-- An update call with a program bound keeps every pulse threshold at most its
period. -/
theorem update_dutyBounded {w fuel : Nat} {d d' : MMMLDriver} {o : Nat} {prog : List Byte}
    (hprog : d.music_data = some prog) (hb : dutyBounded d)
    (h : mmml_driver_update w fuel d = .ok (o, d')) : dutyBounded d' := by
  obtain ⟨d1, hs, hp, -⟩ := update_cases hprog h
  obtain ⟨-, s2, s3, -⟩ := sampler_keeps hs
  have h1 : dutyBounded (pulseAll w d1) := by
    intro i hi
    show d1.waveform i ≤ d1.frequency i
    rw [s2, s3]
    exact hb i hi
  exact dataProcessing_preserves (P := dutyBounded) (fun _ _ hP i hi => hP i hi)
    (fun _ _ _ hP i hi => hP i hi) (fun _ _ _ _ hs hP => fetchStep_dutyBounded hs hP) hp h1

/-- After `mmml_driver_play` every note period is 255 and the duty thresholds are
the ones the record had. -/
theorem play_frequency {w : Nat} {d d' : MMMLDriver} {prog : List Byte}
    (h : mmml_driver_play w d prog = .ok d') :
    (∀ i, d'.frequency i = 255) ∧ d'.waveform = d.waveform ∧ d'.music_data = some prog := by
  obtain ⟨x0, x1, x2, x3, rfl⟩ := play_cases h
  refine ⟨?_, rfl, rfl⟩
  intro i
  fin_cases i <;> simp [resetChannel, setAt]

/-- Claim C17, amended.  Start from a record whose pulse channels have duty
thresholds at most 255 (a zero-filled record, for instance), call
`mmml_driver_init`, then `mmml_driver_play(program)`, then `mmml_driver_update`
any number of times: in the record reached every pulse channel has its duty
threshold at most its note period.  Every update call with a program bound keeps
this bound.  (Neither `mmml_driver_init` nor `mmml_driver_play` assigns the
thresholds, and both set the periods to 255.) -/
theorem duty_within_period (w fuel n pin : Nat) (s d0 d' : MMMLDriver) (prog : List Byte)
    (outs : List Nat) (hs : ∀ i : Fin 4, i.val < 3 → s.waveform i ≤ 255)
    (hplay : mmml_driver_play w (mmml_driver_init s pin) prog = .ok d0)
    (hrun : runUpdates w fuel n d0 = .ok (outs, d')) :
    (∀ i : Fin 4, i.val < 3 → d'.waveform i ≤ d'.frequency i) ∧
    (∀ (e e' : MMMLDriver) (o : Nat), e.music_data = some prog →
      (∀ i : Fin 4, i.val < 3 → e.waveform i ≤ e.frequency i) →
      mmml_driver_update w fuel e = .ok (o, e') →
      ∀ i : Fin 4, i.val < 3 → e'.waveform i ≤ e'.frequency i) := by
  obtain ⟨hf, hw, hm⟩ := play_frequency hplay
  have h0 : dutyBounded d0 := by
    intro i hi
    rw [hf i, hw]
    exact hs i hi
  have hstep : ∀ (e e' : MMMLDriver) (o : Nat), e.music_data = some prog → dutyBounded e →
      mmml_driver_update w fuel e = .ok (o, e') → dutyBounded e' :=
    fun e e' o he hb hu => update_dutyBounded he hb hu
  exact ⟨(runUpdates_invariant (P := dutyBounded) hstep n hm h0 hrun).1, hstep⟩

/-- Claim C17 on `demoSong`: a zero-filled record, `mmml_driver_init`,
`mmml_driver_play` and two update calls. -/
theorem duty_within_period_witness :
    ((∀ i : Fin 4, i.val < 3 → MMMLDriver.zero.waveform i ≤ 255) ∧
      mmml_driver_play 16 (mmml_driver_init MMMLDriver.zero 13) demoSong
        = .ok (stateAfter 16 8 demoSong 0) ∧
      runUpdates 16 8 2 (stateAfter 16 8 demoSong 0)
        = .ok ([0, 1], stateAfter 16 8 demoSong 2)) ∧
    ∀ i : Fin 4, i.val < 3 →
      (stateAfter 16 8 demoSong 2).waveform i ≤ (stateAfter 16 8 demoSong 2).frequency i :=
  ⟨⟨fun _ _ => Nat.zero_le _, rfl, rfl⟩,
    (duty_within_period 16 8 2 13 MMMLDriver.zero (stateAfter 16 8 demoSong 0)
      (stateAfter 16 8 demoSong 2) demoSong [0, 1] (fun _ _ => Nat.zero_le _) rfl rfl).1⟩

/-- Claim C17 as stated fails after a further play call.  After
`mmml_driver_init`, `mmml_driver_play(demoSong)` and one update call channel A
sounds note 1 with period 1024 and threshold 512; a second
`mmml_driver_play(demoSong)` sets the period to 255 and leaves the threshold at
512. -/
theorem replay_breaks_duty_bound :
    (stateAfter 16 8 demoSong 1).waveform 0 = 512 ∧
    (stateAfter 16 8 demoSong 1).frequency 0 = 1024 ∧
    ∃ d', mmml_driver_play 16 (stateAfter 16 8 demoSong 1) demoSong = .ok d' ∧
      d'.waveform 0 = 512 ∧ d'.frequency 0 = 255 ∧ ¬ d'.waveform 0 ≤ d'.frequency 0 :=
  ⟨rfl, rfl, _, rfl, rfl, rfl, by decide⟩


/-! ## The sample player -/

theorem SAMPLES_defined {i : Nat} (h : i < 127) : ∃ s, SAMPLES[i]? = some s :=
  ⟨SAMPLES[i], List.getElem?_eq_getElem (by simpa [SAMPLES] using h)⟩

/-- A bit slot that reads: the byte cursor is more than one below the end
index. -/
theorem sampler_read {d : MMMLDriver} {s : Nat} (hc : d.sample_counter = 0)
    (hr : d.current_byte + 1 < d.current_sample) (hs : SAMPLES[d.current_byte]? = some s)
    (hbit : d.current_bit ≤ 7) (hbyte : d.current_byte < 255) :
    ∃ d', sampler d = .ok d' ∧ d'.out 3 = (s >>> d.current_bit) &&& 1 ∧
      d'.current_sample = d.current_sample ∧ d'.sample_counter = SAMPLE_SPEED ∧
      (d.current_bit = 7 → d'.current_byte = d.current_byte + 1 ∧ d'.current_bit = 0) ∧
      (d.current_bit < 7 →
        d'.current_byte = d.current_byte ∧ d'.current_bit = d.current_bit + 1) := by
  have hr' : (d.current_byte : Int) < (d.current_sample : Int) - 1 := by omega
  have hb : sampleBit d = .ok { d with
      out := setAt d.out 3 ((s >>> d.current_bit) &&& 1)
      current_bit := (d.current_bit + 1) % 256 } := by
    unfold sampleBit
    rw [if_pos hr', hs]
  rw [sampler_slot hc, hb]
  refine ⟨_, rfl, ?_, ?_, rfl, ?_, ?_⟩
  · show (nextSampleByte _).out 3 = _
    rw [(nextSampleByte_keeps _).2.2.2.2.2.2]
    show setAt d.out 3 ((s >>> d.current_bit) &&& 1) 3 = _
    exact setAt_same _ _ _
  · show (nextSampleByte _).current_sample = _
    unfold nextSampleByte
    split_ifs <;> rfl
  · intro h7
    have hgt : (d.current_bit + 1) % 256 > 7 := by omega
    constructor
    · show (nextSampleByte _).current_byte = _
      unfold nextSampleByte
      rw [if_pos hgt]
      show (d.current_byte + 1) % 256 = d.current_byte + 1
      omega
    · show (nextSampleByte _).current_bit = _
      unfold nextSampleByte
      rw [if_pos hgt]
  · intro h7
    have hle : ¬ (d.current_bit + 1) % 256 > 7 := by omega
    constructor
    · show (nextSampleByte _).current_byte = _
      unfold nextSampleByte
      rw [if_neg hle]
    · show (nextSampleByte _).current_bit = _
      unfold nextSampleByte
      rw [if_neg hle]
      show (d.current_bit + 1) % 256 = d.current_bit + 1
      omega

/-- A bit slot that does not read: the byte cursor is not more than one below
the end index.  The channel is silenced and the cursor stays. -/
theorem sampler_silent {d : MMMLDriver} (hc : d.sample_counter = 0)
    (hr : d.current_sample ≤ d.current_byte + 1) (hbit : d.current_bit ≤ 7) :
    ∃ d', sampler d = .ok d' ∧ d'.out 3 = 0 ∧
      d'.current_sample = d.current_sample ∧ d'.sample_counter = SAMPLE_SPEED ∧
      d'.current_byte = d.current_byte ∧ d'.current_bit = d.current_bit ∧
      sampleBit d = .ok { d with out := setAt d.out 3 0 } := by
  have hr' : ¬ (d.current_byte : Int) < (d.current_sample : Int) - 1 := by omega
  have hb : sampleBit d = .ok { d with out := setAt d.out 3 0 } := by
    unfold sampleBit
    rw [if_neg hr']
  have hle : ¬ d.current_bit > 7 := by omega
  rw [sampler_slot hc, hb]
  refine ⟨_, rfl, ?_, ?_, rfl, ?_, ?_, rfl⟩
  · show (nextSampleByte _).out 3 = _
    rw [(nextSampleByte_keeps _).2.2.2.2.2.2]
    show setAt d.out 3 0 3 = _
    exact setAt_same _ _ _
  · show (nextSampleByte _).current_sample = _
    unfold nextSampleByte
    rw [if_neg hle]
  · show (nextSampleByte _).current_byte = _
    unfold nextSampleByte
    rw [if_neg hle]
  · show (nextSampleByte _).current_bit = _
    unfold nextSampleByte
    rw [if_neg hle]

/-- From a record whose cursor is inside the sample bank the sample player has a
result, and the cursor is inside the bank again. -/
theorem sampler_sampleInv {d : MMMLDriver} (hI : sampleInv d) :
    ∃ d', sampler d = .ok d' ∧ sampleInv d' := by
  obtain ⟨hbit, hlast, hpos⟩ := hI
  by_cases hc : d.sample_counter = 0
  · by_cases hr : d.current_byte + 1 < d.current_sample
    · obtain ⟨s, hs⟩ := @SAMPLES_defined d.current_byte (by omega)
      obtain ⟨d', hd', -, a2, -, a4, a5⟩ := sampler_read hc hr hs hbit (by omega)
      refine ⟨d', hd', ?_⟩
      unfold sampleInv
      rw [a2]
      by_cases h7 : d.current_bit = 7
      · obtain ⟨b1, b2⟩ := a4 h7
        rw [b1, b2]
        omega
      · obtain ⟨b1, b2⟩ := a5 (by omega)
        rw [b1, b2]
        omega
    · obtain ⟨d', hd', -, a2, -, a4, a5, -⟩ := sampler_silent hc (by omega) hbit
      refine ⟨d', hd', ?_⟩
      unfold sampleInv
      rw [a2, a4, a5]
      exact ⟨hbit, hlast, hpos⟩
  · exact ⟨_, sampler_waiting hc, hbit, hlast, hpos⟩

theorem cmdKeeps_sampleInv {d d' : MMMLDriver} (h : cmdKeeps d d') (hI : sampleInv d) :
    sampleInv d' := by
  unfold sampleInv
  rw [h.2.2.2.1, h.2.2.2.2.1, h.2.2.2.2.2]
  exact hI

/-- The `default:` branch keeps the cursor inside the sample bank: a waveform of
channel D sets it to two neighbouring entries of `SAMPLE_INDICIES`. -/
theorem toneEvent_sampleInv {d d' : MMMLDriver} {v : Fin 4} (h : toneEvent d v = .ok d')
    (hI : sampleInv d) : sampleInv d' := by
  unfold toneEvent at h
  split_ifs at h with hk hv
  · split at h
    · cases h
    · cases h
      exact hI
  · split at h
    · rename_i first last hf hl
      cases h
      have hk5 : d.buffer1 ≤ 5 := by
        by_contra hgt
        have : SAMPLE_INDICIES[d.buffer1]? = none := by
          apply List.getElem?_eq_none
          simp [SAMPLE_INDICIES]
          omega
        rw [this] at hl
        cases hl
      obtain ⟨hk0, -⟩ := hk
      have hcases : d.buffer1 = 1 ∨ d.buffer1 = 2 ∨ d.buffer1 = 3 ∨ d.buffer1 = 4 ∨
          d.buffer1 = 5 := by omega
      show (0 : Nat) ≤ 7 ∧ last ≤ 126 ∧ (first + 1 ≤ last ∨ (last = 0 ∧ first = 0))
      rcases hcases with e | e | e | e | e <;> rw [e] at hf hl <;>
        simp [SAMPLE_INDICIES] at hf hl <;> subst hf <;> subst hl <;> decide
    · cases h
  · cases h
    exact hI

theorem fetchStep_sampleInv {w : Nat} {d d' : MMMLDriver} {u : Fin 4} {c : Ctl}
    (h : fetchStep w d u = .ok (c, d')) (hI : sampleInv d) : sampleInv d' := by
  obtain ⟨prog, b, -, -, hcase⟩ := fetchStep_cases h
  rcases hcase with ⟨-, -, operand, -, hx⟩ | ⟨-, -, rfl⟩ | ⟨-, -, rfl⟩ | ⟨-, -, -, -, hx⟩
  · exact cmdKeeps_sampleInv (extendedCommand_cmdKeeps hx) hI
  · exact hI
  · exact hI
  · unfold soundingEvent at hx
    cases ht : toneEvent (decode d b) u with
    | error e => rw [ht] at hx; cases hx
    | ok d1 =>
      rw [ht] at hx
      cases hx
      have h1 : sampleInv d1 := toneEvent_sampleInv ht hI
      exact h1

/-- An update call with a program bound keeps the cursor of the sample player
inside the sample bank. -/
theorem update_sampleInv {w fuel : Nat} {d d' : MMMLDriver} {o : Nat} {prog : List Byte}
    (hprog : d.music_data = some prog) (hI : sampleInv d)
    (h : mmml_driver_update w fuel d = .ok (o, d')) : sampleInv d' := by
  obtain ⟨d1, hs, hp, -⟩ := update_cases hprog h
  obtain ⟨d2, hs2, hI2⟩ := sampler_sampleInv hI
  rw [hs] at hs2
  cases hs2
  have h1 : sampleInv (pulseAll w d1) := hI2
  exact dataProcessing_preserves (P := sampleInv) (fun _ _ hP => hP)
    (fun _ _ _ hP => hP) (fun _ _ _ _ hs hP => fetchStep_sampleInv hs hP) hp h1


/-! ## Bounds of the sample-bank reads -/

/-- Claim C20.  In every record reached from a successful `mmml_driver_play` by
update calls that have results (a sounding event of channel D with a first
nibble above 5 has none), the bit cursor of the sample player is at most 7 and
the byte cursor is below the end index, or both are 0 while no waveform has
been selected.  So when the next bit slot reads `SAMPLES[current_byte]` the index
is below `SAMPLE_LENGTH` and the read is defined; the sample player always has a
result; and with end index 0 the bit slot reads nothing and silences the
channel. -/
theorem sample_reads_in_bounds (w fuel n : Nat) (s d0 d' : MMMLDriver) (prog : List Byte)
    (outs : List Nat) (hplay : mmml_driver_play w s prog = .ok d0)
    (hrun : runUpdates w fuel n d0 = .ok (outs, d')) :
    d'.current_bit ≤ 7 ∧
    (d'.current_byte + 1 ≤ d'.current_sample ∨
      (d'.current_sample = 0 ∧ d'.current_byte = 0)) ∧
    ((d'.current_byte : Int) < (d'.current_sample : Int) - 1 →
      d'.current_byte < SAMPLE_LENGTH ∧ ∃ x, SAMPLES[d'.current_byte]? = some x) ∧
    (∃ d1, sampler d' = .ok d1) ∧
    (d'.current_sample = 0 → sampleBit d' = .ok { d' with out := setAt d'.out 3 0 }) ∧
    (∀ e : MMMLDriver, 6 ≤ e.buffer1 → e.buffer1 < 14 →
      toneEvent e 3 = .error .undefinedBehaviour) := by
  obtain ⟨-, -, hm⟩ := play_frequency hplay
  have h0 : sampleInv d0 := by
    obtain ⟨x0, x1, x2, x3, rfl⟩ := play_cases hplay
    exact ⟨Nat.zero_le _, Nat.zero_le _, Or.inr ⟨rfl, rfl⟩⟩
  have hstep : ∀ (e e' : MMMLDriver) (o : Nat), e.music_data = some prog → sampleInv e →
      mmml_driver_update w fuel e = .ok (o, e') → sampleInv e' :=
    fun e e' o he hb hu => update_sampleInv he hb hu
  have hI : sampleInv d' := (runUpdates_invariant (P := sampleInv) hstep n hm h0 hrun).1
  obtain ⟨hbit, hlast, hpos⟩ := hI
  refine ⟨hbit, hpos, ?_, ?_, ?_, fun e h6 h14 => toneEvent_sample_undefined h6 h14⟩
  · intro hr
    have hlt : d'.current_byte < 127 := by omega
    exact ⟨hlt, SAMPLES_defined hlt⟩
  · obtain ⟨d1, hd1, -⟩ := sampler_sampleInv ⟨hbit, hlast, hpos⟩
    exact ⟨d1, hd1⟩
  · intro hz
    have hr' : ¬ (d'.current_byte : Int) < (d'.current_sample : Int) - 1 := by omega
    unfold sampleBit
    rw [if_neg hr']

/-- Claim C20 on `drumSong`: two update calls after play; channel D has started
waveform 5. -/
theorem sample_reads_in_bounds_witness :
    (mmml_driver_play 16 freshDriver drumSong = .ok (stateAfter 16 8 drumSong 0) ∧
      runUpdates 16 8 2 (stateAfter 16 8 drumSong 0)
        = .ok ([0, 0], stateAfter 16 8 drumSong 2)) ∧
    (stateAfter 16 8 drumSong 2).current_sample = 126 ∧
    (stateAfter 16 8 drumSong 2).current_byte = 118 ∧
    (stateAfter 16 8 drumSong 2).current_bit ≤ 7 :=
  ⟨⟨rfl, rfl⟩, rfl, rfl,
    (sample_reads_in_bounds 16 8 2 freshDriver (stateAfter 16 8 drumSong 0)
      (stateAfter 16 8 drumSong 2) drumSong [0, 0] rfl rfl).1⟩

/-! ## Playback of a waveform -/

/-- One bit slot of a waveform: the output is the expected bit and the cursor
moves to the next slot. -/
theorem slot_step {first last j : Nat} {d : MMMLDriver} (hfl : first + 1 ≤ last)
    (hl : last ≤ 127) (hc : d.sample_counter = 0) (hcur : cursorAt first last j d) :
    ∃ d', sampler d = .ok d' ∧ d'.out 3 = slotBit first last j ∧
      cursorAt first last (j + 1) d' ∧ d'.sample_counter = SAMPLE_SPEED := by
  obtain ⟨h1, h2, h3⟩ := hcur
  by_cases hj : j < 8 * (last - 1 - first)
  · have hbyte : d.current_byte = first + j / 8 := by omega
    have hbit : d.current_bit = j % 8 := by omega
    obtain ⟨s, hs⟩ := @SAMPLES_defined d.current_byte (by omega)
    obtain ⟨d', hd', a1, a2, a3, a4, a5⟩ :=
      sampler_read hc (by omega) hs (by omega) (by omega)
    refine ⟨d', hd', ?_, ?_, a3⟩
    · rw [a1]
      unfold slotBit bankBit
      rw [if_pos hj, List.getD_eq_getElem?_getD, ← hbyte, hs, hbit]
      rfl
    · unfold cursorAt
      rw [a2]
      by_cases h7 : d.current_bit = 7
      · obtain ⟨b1, b2⟩ := a4 h7
        rw [b1, b2]
        omega
      · obtain ⟨b1, b2⟩ := a5 (by omega)
        rw [b1, b2]
        omega
  · obtain ⟨d', hd', a1, a2, a3, a4, a5, -⟩ := sampler_silent hc (by omega) (by omega)
    refine ⟨d', hd', ?_, ?_, a3⟩
    · rw [a1]
      unfold slotBit
      rw [if_neg hj]
    · unfold cursorAt
      rw [a2, a4, a5]
      omega

theorem samplerRun_add : ∀ (a b : Nat) {d d1 d2 : MMMLDriver} {l1 l2 : List Nat},
    samplerRun a d = .ok (l1, d1) → samplerRun b d1 = .ok (l2, d2) →
    samplerRun (a + b) d = .ok (l1 ++ l2, d2) := by
  intro a
  induction a with
  | zero =>
    intro b d d1 d2 l1 l2 h1 h2
    cases h1
    simpa using h2
  | succ a ih =>
    intro b d d1 d2 l1 l2 h1 h2
    unfold samplerRun at h1
    cases hs : sampler d with
    | error e => rw [hs] at h1; cases h1
    | ok e1 =>
      rw [hs] at h1
      dsimp only at h1
      cases hr : samplerRun a e1 with
      | error e => rw [hr] at h1; cases h1
      | ok r =>
        obtain ⟨bits, e2⟩ := r
        rw [hr] at h1
        cases h1
        have hsum : a + 1 + b = (a + b) + 1 := by omega
        rw [hsum]
        unfold samplerRun
        rw [hs]
        dsimp only
        rw [ih b hr h2]
        simp

/-- The calls between two bit slots only count the prescaler down. -/
theorem samplerRun_wait : ∀ (c : Nat) (d : MMMLDriver), d.sample_counter = c →
    ∃ d', samplerRun c d = .ok ([], d') ∧ d'.sample_counter = 0 ∧
      d'.current_byte = d.current_byte ∧ d'.current_bit = d.current_bit ∧
      d'.current_sample = d.current_sample := by
  intro c
  induction c with
  | zero => intro d hc; exact ⟨d, rfl, hc, rfl, rfl, rfl⟩
  | succ c ih =>
    intro d hc
    have hne : d.sample_counter ≠ 0 := by omega
    obtain ⟨d', hd', a1, a2, a3, a4⟩ :=
      ih { d with sample_counter := d.sample_counter - 1 } (by show d.sample_counter - 1 = c; omega)
    refine ⟨d', ?_, a1, a2, a3, a4⟩
    unfold samplerRun
    rw [sampler_waiting hne]
    dsimp only
    rw [hd']
    simp [hne]

/-- The run of `k` bit slots, six calls each, from slot `j` of a waveform. -/
theorem samplerRun_slots {first last : Nat} (hfl : first + 1 ≤ last) (hl : last ≤ 127) :
    ∀ (k j : Nat) (d : MMMLDriver), d.sample_counter = 0 → cursorAt first last j d →
      ∃ d', samplerRun (6 * k) d = .ok ((List.range' j k).map (slotBit first last), d') ∧
        d'.sample_counter = 0 ∧ cursorAt first last (j + k) d' := by
  intro k
  induction k with
  | zero => intro j d hc hcur; exact ⟨d, rfl, hc, hcur⟩
  | succ k ih =>
    intro j d hc hcur
    obtain ⟨d1, hd1, hout, hcur1, hc1⟩ := slot_step hfl hl hc hcur
    obtain ⟨d2, hd2, hc2, b1, b2, b3⟩ := samplerRun_wait SAMPLE_SPEED d1 hc1
    have hcur2 : cursorAt first last (j + 1) d2 := by
      unfold cursorAt at hcur1 ⊢
      rw [b1, b2, b3]
      exact hcur1
    obtain ⟨d3, hd3, hc3, hcur3⟩ := ih (j + 1) d2 hc2 hcur2
    have hone : samplerRun 1 d = .ok ([slotBit first last j], d1) := by
      unfold samplerRun
      rw [hd1]
      simp [samplerRun, hc, hout]
    have hsix := samplerRun_add 1 (SAMPLE_SPEED + 6 * k) hone
      (samplerRun_add SAMPLE_SPEED (6 * k) hd2 hd3)
    have hnum : 6 * (k + 1) = 1 + (SAMPLE_SPEED + 6 * k) := by
      unfold SAMPLE_SPEED
      omega
    have hcur' : cursorAt first last (j + (k + 1)) d3 := by
      have : j + (k + 1) = j + 1 + k := by omega
      rw [this]
      exact hcur3
    refine ⟨d3, ?_, hc3, hcur'⟩
    rw [hnum, hsix]
    rfl

/-- From a record whose cursor is at the start of a waveform, whatever its
prescaler holds: the calls up to the first bit slot and then `m` bit slots give
the first `m` expected bits. -/
theorem sampler_run_bits {first last : Nat} (hfl : first + 1 ≤ last) (hl : last ≤ 127)
    (d : MMMLDriver) (m : Nat) (h1 : d.current_byte = first) (h2 : d.current_bit = 0)
    (h3 : d.current_sample = last) :
    ∃ d', samplerRun (d.sample_counter + 6 * m) d = .ok (sampleBits first last m, d') := by
  obtain ⟨d1, hd1, hc1, b1, b2, b3⟩ := samplerRun_wait d.sample_counter d rfl
  have hcur : cursorAt first last 0 d1 := by
    unfold cursorAt
    rw [b1, b2, b3, h1, h2, h3]
    omega
  obtain ⟨d2, hd2, -, -⟩ := samplerRun_slots hfl hl m 0 d1 hc1 hcur
  refine ⟨d2, ?_⟩
  rw [samplerRun_add _ _ hd1 hd2]
  simp [sampleBits, List.range_eq_range']


/-! ## The sample player inside a run of update calls -/

theorem sameSampler_refl (a : MMMLDriver) : sameSampler a a := ⟨rfl, rfl, rfl, rfl, rfl⟩

theorem sameSampler_symm {a b : MMMLDriver} (h : sameSampler a b) : sameSampler b a :=
  ⟨h.1.symm, h.2.1.symm, h.2.2.1.symm, h.2.2.2.1.symm, h.2.2.2.2.symm⟩

theorem sameSampler_trans {a b c : MMMLDriver} (h1 : sameSampler a b) (h2 : sameSampler b c) :
    sameSampler a c :=
  ⟨h2.1.trans h1.1, h2.2.1.trans h1.2.1, h2.2.2.1.trans h1.2.2.1, h2.2.2.2.1.trans h1.2.2.2.1,
    h2.2.2.2.2.trans h1.2.2.2.2⟩

/-- The bit slot reads and writes the members of `sameSampler` only. -/
theorem sampleBit_congr {a b a1 : MMMLDriver} (h : sameSampler a b)
    (ha : sampleBit a = .ok a1) : ∃ b1, sampleBit b = .ok b1 ∧ sameSampler a1 b1 := by
  obtain ⟨h1, h2, h3, h4, h5⟩ := h
  unfold sampleBit at ha ⊢
  rw [h1, h3]
  by_cases hr : (a.current_byte : Int) < (a.current_sample : Int) - 1
  · rw [if_pos hr] at ha ⊢
    cases hs : SAMPLES[a.current_byte]? with
    | none => rw [hs] at ha; cases ha
    | some s =>
      rw [hs] at ha
      cases ha
      refine ⟨_, rfl, rfl, ?_, rfl, h4, ?_⟩
      · show (b.current_bit + 1) % 256 = (a.current_bit + 1) % 256
        rw [h2]
      · show setAt b.out 3 ((s >>> b.current_bit) &&& 1) 3
          = setAt a.out 3 ((s >>> a.current_bit) &&& 1) 3
        rw [setAt_same, setAt_same, h2]
  · rw [if_neg hr] at ha ⊢
    cases ha
    refine ⟨_, rfl, rfl, h2, rfl, h4, ?_⟩
    show setAt b.out 3 0 3 = setAt a.out 3 0 3
    rw [setAt_same, setAt_same]

theorem nextSampleByte_congr {a b : MMMLDriver} (h : sameSampler a b) :
    sameSampler (nextSampleByte a) (nextSampleByte b) := by
  obtain ⟨h1, h2, h3, h4, h5⟩ := h
  unfold nextSampleByte
  rw [h2]
  split_ifs
  · refine ⟨?_, rfl, h3, h4, h5⟩
    show (b.current_byte + 1) % 256 = (a.current_byte + 1) % 256
    rw [h1]
  · exact ⟨h1, h2, h3, h4, h5⟩

/-- The sample player reads and writes the members of `sameSampler` only. -/
theorem sampler_congr {a b a1 : MMMLDriver} (h : sameSampler a b) (ha : sampler a = .ok a1) :
    ∃ b1, sampler b = .ok b1 ∧ sameSampler a1 b1 := by
  have h4 := h.2.2.2.1
  by_cases hc : a.sample_counter = 0
  · rw [sampler_slot hc] at ha
    rw [sampler_slot (h4.trans hc)]
    cases hs : sampleBit a with
    | error e => rw [hs] at ha; cases ha
    | ok a2 =>
      rw [hs] at ha
      cases ha
      obtain ⟨b2, hb2, hsame⟩ := sampleBit_congr h hs
      rw [hb2]
      obtain ⟨c1, c2, c3, -, c5⟩ := nextSampleByte_congr hsame
      exact ⟨_, rfl, c1, c2, c3, rfl, c5⟩
  · rw [sampler_waiting hc] at ha
    cases ha
    have hc' : b.sample_counter ≠ 0 := by rw [h4]; exact hc
    rw [sampler_waiting hc']
    refine ⟨_, rfl, h.1, h.2.1, h.2.2.1, ?_, h.2.2.2.2⟩
    show b.sample_counter - 1 = a.sample_counter - 1
    rw [h4]

theorem cmdKeeps_sameSampler {d d' : MMMLDriver} (h : cmdKeeps d d') : sameSampler d d' := by
  obtain ⟨⟨a1, -, a3, -, -⟩, -, -, b1, b2, b3⟩ := h
  exact ⟨b1, b2, b3, a3, congrFun a1 3⟩

/-- A note or a rest of a pulse channel leaves the sample player as it is. -/
theorem toneEvent_sameSampler {d d' : MMMLDriver} {v : Fin 4} (h : toneEvent d v = .ok d')
    (hv : v.val < 3) : sameSampler d d' := by
  unfold toneEvent at h
  split_ifs at h
  · split at h
    · cases h
    · cases h
      exact sameSampler_refl d
  · cases h
    exact sameSampler_refl d

theorem fetchStep_sameSampler {w : Nat} {d d' : MMMLDriver} {u : Fin 4} {c : Ctl}
    (h : fetchStep w d u = .ok (c, d')) (hu : u.val < 3) : sameSampler d d' := by
  obtain ⟨prog, b, -, -, hcase⟩ := fetchStep_cases h
  rcases hcase with ⟨-, -, operand, -, hx⟩ | ⟨-, -, rfl⟩ | ⟨-, -, rfl⟩ | ⟨-, -, -, -, hx⟩
  · exact sameSampler_trans (b := withOperand (decode d b) operand) (sameSampler_refl d)
      (cmdKeeps_sameSampler (extendedCommand_cmdKeeps hx))
  · exact sameSampler_refl d
  · exact sameSampler_refl d
  · unfold soundingEvent at hx
    cases ht : toneEvent (decode d b) u with
    | error e => rw [ht] at hx; cases hx
    | ok d1 =>
      rw [ht] at hx
      cases hx
      have h1 : sameSampler (decode d b) d1 := toneEvent_sameSampler ht hu
      exact h1

theorem fetchLoop_sameSampler {w : Nat} {u : Fin 4} (hu : u.val < 3) :
    ∀ (fuel : Nat) {d d' : MMMLDriver}, fetchLoop w fuel d u = .ok d' → sameSampler d d' := by
  intro fuel
  induction fuel with
  | zero => intro d d' h; cases h
  | succ fuel ih =>
    intro d d' h
    unfold fetchLoop at h
    cases hs : fetchStep w d u with
    | error e => rw [hs] at h; cases h
    | ok r =>
      obtain ⟨c, d1⟩ := r
      rw [hs] at h
      cases c with
      | again => exact sameSampler_trans (fetchStep_sameSampler hs hu) (ih h)
      | done =>
        cases h
        exact fetchStep_sameSampler hs hu

theorem channelPass_sameSampler {w fuel : Nat} {d d' : MMMLDriver} {u : Fin 4}
    (h : channelPass w fuel d u = .ok d') (hu : u.val < 3 ∨ d.length u ≠ 0) :
    sameSampler d d' := by
  unfold channelPass at h
  split_ifs at h with hz
  · rcases hu with hu | hu
    · exact fetchLoop_sameSampler hu fuel h
    · exact absurd hz hu
  · cases h
    exact sameSampler_refl d

/-- A sequencer pass in which channel D is not due to fetch leaves the sample
player as it is. -/
theorem sequencerPass_sameSampler {w fuel : Nat} {d d' : MMMLDriver}
    (h : sequencerPass w fuel d = .ok d') (hlen : d.length 3 ≠ 0) : sameSampler d d' := by
  unfold sequencerPass at h
  obtain ⟨d3, h3, h4⟩ := bind_eq_ok h
  obtain ⟨d2, h2, h3⟩ := bind_eq_ok h3
  obtain ⟨d1, h1, h2⟩ := bind_eq_ok h2
  have l1 := (channelPass_frame (v := 3) h1 (by decide)).2.1
  have l2 := (channelPass_frame (v := 3) h2 (by decide)).2.1
  have l3 := (channelPass_frame (v := 3) h3 (by decide)).2.1
  have hlen3 : d3.length 3 ≠ 0 := by rw [l3, l2, l1]; exact hlen
  exact sameSampler_trans (sameSampler_trans (sameSampler_trans
    (channelPass_sameSampler h1 (Or.inl (by decide)))
    (channelPass_sameSampler h2 (Or.inl (by decide))))
    (channelPass_sameSampler h3 (Or.inl (by decide))))
    (channelPass_sameSampler h4 (Or.inr hlen3))

/-- In an update call that holds channel D, what the sample player has done at
the start of the call is what the call leaves in the members of the sample
player. -/
theorem update_sameSampler {w fuel : Nat} {d d' : MMMLDriver} {o : Nat} {prog : List Byte}
    (hprog : d.music_data = some prog) (h : mmml_driver_update w fuel d = .ok (o, d'))
    (hlen : d.tick_counter = 0 → d.length 3 ≠ 0) :
    ∃ d1, sampler d = .ok d1 ∧ sameSampler d1 d' := by
  obtain ⟨d1, hs, hp, -⟩ := update_cases hprog h
  refine ⟨d1, hs, ?_⟩
  have h30 : (3 : Fin 4) ≠ 0 := by decide
  have h31 : (3 : Fin 4) ≠ 1 := by decide
  have h32 : (3 : Fin 4) ≠ 2 := by decide
  have hpulse : sameSampler d1 (pulseAll w d1) := by
    refine ⟨rfl, rfl, rfl, rfl, ?_⟩
    unfold pulseAll
    rw [(pulse_other w _ h32).2.1, (pulse_other w _ h31).2.1, (pulse_other w _ h30).2.1]
  have htick : (pulseAll w d1).tick_counter = d.tick_counter := @sampler_tick d d1 hs
  have hl : (pulseAll w d1).length 3 = d.length 3 := (@sampler_frame d d1 3 hs).2.1
  unfold dataProcessing at hp
  rw [htick] at hp
  by_cases ht : d.tick_counter = 0
  · rw [if_pos ht] at hp
    have hl' : ({ pulseAll w d1 with tick_counter := (pulseAll w d1).tick_speed } :
        MMMLDriver).length 3 ≠ 0 := by
      show (pulseAll w d1).length 3 ≠ 0
      rw [hl]
      exact hlen ht
    exact sameSampler_trans hpulse (sameSampler_trans (b := { pulseAll w d1 with
      tick_counter := (pulseAll w d1).tick_speed }) (sameSampler_refl _)
      (sequencerPass_sameSampler hp hl'))
  · rw [if_neg ht] at hp
    cases hp
    exact hpulse

/-- Over a run of update calls in which channel D is held, the members of the
sample player are what the sample player alone makes of them. -/
theorem runUpdates_sampler {w fuel : Nat} {prog : List Byte} :
    ∀ (n : Nat) {d d' : MMMLDriver} {outs : List Nat} (e : MMMLDriver),
      d.music_data = some prog → runUpdates w fuel n d = .ok (outs, d') →
      passCount w fuel n d ≤ d.length 3 → sameSampler e d →
      ∃ bits e', samplerRun n e = .ok (bits, e') ∧ sameSampler e' d' := by
  intro n
  induction n with
  | zero =>
    intro d d' outs e _ h _ hsame
    cases h
    exact ⟨[], e, rfl, hsame⟩
  | succ n ih =>
    intro d d' outs e hprog h hp hsame
    obtain ⟨o, d1, os, hu, hr, -⟩ := runUpdates_succ h
    unfold passCount at hp
    rw [hu] at hp
    dsimp only at hp
    have hheld : heldBy (if d.music_data.isSome ∧ d.tick_counter = 0 then 1 else 0) 3 d d1 := by
      apply update_held hu
      intro hc
      rw [if_pos hc] at hp
      omega
    have hlen : d.tick_counter = 0 → d.length 3 ≠ 0 := by
      intro ht
      have hc : d.music_data.isSome ∧ d.tick_counter = 0 := ⟨by rw [hprog]; rfl, ht⟩
      rw [if_pos hc] at hp
      omega
    obtain ⟨s1, hs1, hsame1⟩ := update_sameSampler hprog hu hlen
    obtain ⟨e1, he1, hsame2⟩ := sampler_congr (sameSampler_symm hsame) hs1
    have hl := hheld.1
    obtain ⟨bits, e', hrun, hfin⟩ := ih e1 (update_music_data hprog hu) hr (by omega)
      (sameSampler_trans (sameSampler_symm hsame2) hsame1)
    refine ⟨(if e.sample_counter = 0 then [e1.out 3] else []) ++ bits, e', ?_, hfin⟩
    unfold samplerRun
    rw [he1]
    dsimp only
    rw [hrun]

/-- While the tempo countdown is above 0 and the cursor of the sample player is
inside the sample bank, update calls have results. -/
theorem runUpdates_defined {w fuel : Nat} {prog : List Byte} :
    ∀ (k : Nat) (d : MMMLDriver), d.music_data = some prog → sampleInv d →
      k ≤ d.tick_counter → ∃ outs d', runUpdates w fuel k d = .ok (outs, d') := by
  intro k
  induction k with
  | zero => intro d _ _ _; exact ⟨[], d, rfl⟩
  | succ k ih =>
    intro d hprog hI hk
    obtain ⟨d1, hs, -⟩ := sampler_sampleInv hI
    have ht : d.tick_counter ≠ 0 := by omega
    have htick : (pulseAll w d1).tick_counter = d.tick_counter := @sampler_tick d d1 hs
    have hu : mmml_driver_update w fuel d
        = .ok (mixOutput { pulseAll w d1 with tick_counter := d.tick_counter - 1 },
            { pulseAll w d1 with tick_counter := d.tick_counter - 1 }) := by
      have hd : dataProcessing w fuel (pulse w (pulse w (pulse w d1 0) 1) 2)
          = .ok { pulseAll w d1 with tick_counter := d.tick_counter - 1 } := by
        show dataProcessing w fuel (pulseAll w d1) = _
        unfold dataProcessing
        rw [htick, if_neg ht]
      unfold mmml_driver_update
      rw [hprog]
      dsimp only
      rw [hs]
      dsimp only
      rw [hd]
    obtain ⟨outs, d', hr⟩ := ih { pulseAll w d1 with tick_counter := d.tick_counter - 1 }
      (update_music_data hprog hu) (update_sampleInv hprog hI hu)
      (by show k ≤ d.tick_counter - 1; omega)
    refine ⟨mixOutput { pulseAll w d1 with tick_counter := d.tick_counter - 1 } :: outs, d', ?_⟩
    unfold runUpdates
    rw [hu]
    dsimp only
    rw [hr]

/-- The output of channel D right after bit slot `j` of a waveform, for the
sample player alone. -/
theorem samplerRun_out {first last : Nat} (hfl : first + 1 ≤ last) (hl : last ≤ 127)
    (d : MMMLDriver) (j : Nat) (h1 : d.current_byte = first) (h2 : d.current_bit = 0)
    (h3 : d.current_sample = last) :
    ∃ bits d', samplerRun (d.sample_counter + 6 * j + 1) d = .ok (bits, d') ∧
      d'.out 3 = slotBit first last j := by
  obtain ⟨d1, hd1, hc1, b1, b2, b3⟩ := samplerRun_wait d.sample_counter d rfl
  have hcur : cursorAt first last 0 d1 := by
    unfold cursorAt
    rw [b1, b2, b3, h1, h2, h3]
    omega
  obtain ⟨d2, hd2, hc2, hcur2⟩ := samplerRun_slots hfl hl j 0 d1 hc1 hcur
  rw [Nat.zero_add] at hcur2
  obtain ⟨d3, hd3, hout, -, -⟩ := slot_step hfl hl hc2 hcur2
  have hone : samplerRun 1 d2 = .ok ([d3.out 3], d3) := by
    unfold samplerRun
    rw [hd3]
    simp [samplerRun, hc2]
  exact ⟨_, d3, samplerRun_add _ 1 (samplerRun_add _ _ hd1 hd2) hone, hout⟩


/-! ## Playback of a waveform inside a run of update calls -/

/-- From a record whose cursor is at the start of a waveform and whose prescaler
holds `c`, the update call number `c + 6 j + 1` is bit slot `j`; while channel D
is held, `out[3]` after that call is the bit expected in slot `j`. -/
theorem runUpdates_slot_out {w fuel : Nat} {first last : Nat} (hfl : first + 1 ≤ last)
    (hl : last ≤ 127) {e e' : MMMLDriver} {song : List Byte} {outs : List Nat} (j : Nat)
    (hsong : e.music_data = some song) (h1 : e.current_byte = first) (h2 : e.current_bit = 0)
    (h3 : e.current_sample = last)
    (hrun : runUpdates w fuel (e.sample_counter + 6 * j + 1) e = .ok (outs, e'))
    (hheld : passCount w fuel (e.sample_counter + 6 * j + 1) e ≤ e.length 3) :
    e'.out 3 = slotBit first last j := by
  obtain ⟨bits, s, hs, hout⟩ := samplerRun_out hfl hl e j h1 h2 h3
  obtain ⟨bits2, s2, hs2, hsame⟩ :=
    runUpdates_sampler (e.sample_counter + 6 * j + 1) e hsong hrun hheld (sameSampler_refl e)
  rw [hs] at hs2
  cases hs2
  rw [hsame.2.2.2.2, hout]

/-- Claim C15, amended.  When channel D processes a byte with first nibble `k`
in 1..5, the trip through the fetch loop has a result and ends the loop; the
cursor of the sample player is then at byte `first = SAMPLE_INDICIES[k-1]`, bit
0, and the end index is `last = SAMPLE_INDICIES[k]`.  From every record with this
cursor, the calls up to the first bit slot followed by `m` bit slots (one every
six calls) put out, in order and bit 0 of each byte first, the bits of the bytes
`first .. last - 2` of `SAMPLES`, which are `8 * (last - 1 - first)` bits, and 0
in every later slot: the test `current_byte < current_sample - 1` stops the
reads one byte before the end index, so the byte `last - 1` is not played.  In a
run of update calls from such a record that holds channel D, `out[3]` after the
call of bit slot `j` is that bit. -/
theorem sample_playback (w : Nat) (d : MMMLDriver) (prog : List Byte) (k n : Nat)
    (hprog : d.music_data = some prog)
    (hb : rd prog (d.data_pointer 3) = .ok (16 * k + n))
    (hk1 : 1 ≤ k) (hk5 : k ≤ 5) (hn : n < 16) :
    ∃ d' first last, fetchStep w d 3 = .ok (.done, d') ∧
      SAMPLE_INDICIES[k - 1]? = some first ∧ SAMPLE_INDICIES[k]? = some last ∧
      d'.current_byte = first ∧ d'.current_bit = 0 ∧ d'.current_sample = last ∧
      first + 1 ≤ last ∧
      (∀ (e : MMMLDriver) (m : Nat), e.current_byte = first → e.current_bit = 0 →
        e.current_sample = last →
        ∃ e', samplerRun (e.sample_counter + 6 * m) e = .ok (sampleBits first last m, e')) ∧
      (∀ (fuel j : Nat) (e e' : MMMLDriver) (song : List Byte) (outs : List Nat),
        e.music_data = some song → e.current_byte = first → e.current_bit = 0 →
        e.current_sample = last →
        runUpdates w fuel (e.sample_counter + 6 * j + 1) e = .ok (outs, e') →
        passCount w fuel (e.sample_counter + 6 * j + 1) e ≤ e.length 3 →
        e'.out 3 = slotBit first last j) ∧
      (∀ j, j < 8 * (last - 1 - first) → slotBit first last j = bankBit first j) ∧
      (∀ j, 8 * (last - 1 - first) ≤ j → slotBit first last j = 0) := by
  have hhi : hiNibble (16 * k + n) = k := hiNibble_pack (by omega) hn
  obtain ⟨first, last, hf, hl⟩ := SAMPLE_INDICIES_defined hk1 hk5
  have hbounds : first + 1 ≤ last ∧ last ≤ 127 := by
    have hcases : k = 1 ∨ k = 2 ∨ k = 3 ∨ k = 4 ∨ k = 5 := by omega
    rcases hcases with e | e | e | e | e <;> rw [e] at hf hl <;>
      simp [SAMPLE_INDICIES] at hf hl <;> subst hf <;> subst hl <;> decide
  have hstep := @fetchStep_sounding w d 3 prog (16 * k + n) hprog hb (by omega)
  have hb1 : (decode d (16 * k + n)).buffer1 = k := hhi
  have hcond : (decode d (16 * k + n)).buffer1 ≠ 0 ∧ (decode d (16 * k + n)).buffer1 < 14 := by
    rw [hb1]
    omega
  have hv : ¬ ((3 : Fin 4).val < 3) := by decide
  have ht : toneEvent (decode d (16 * k + n)) 3
      = .ok { decode d (16 * k + n) with
          current_bit := 0, current_byte := first, current_sample := last } := by
    have hf' : SAMPLE_INDICIES[(decode d (16 * k + n)).buffer1 - 1]? = some first := by
      rw [hb1]
      exact hf
    have hl' : SAMPLE_INDICIES[(decode d (16 * k + n)).buffer1]? = some last := by
      rw [hb1]
      exact hl
    unfold toneEvent
    rw [if_pos hcond, if_neg hv, hf', hl']
  rw [hstep]
  simp only [soundingEvent, ht, Ctl.tag]
  refine ⟨_, first, last, rfl, hf, hl, rfl, rfl, rfl, hbounds.1, ?_, ?_, ?_, ?_⟩
  · intro e m h1 h2 h3
    exact sampler_run_bits hbounds.1 hbounds.2 e m h1 h2 h3
  · intro fuel j e e' song outs hsong h1 h2 h3 hrun hheld
    exact runUpdates_slot_out hbounds.1 hbounds.2 j hsong h1 h2 h3 hrun hheld
  · intro j hj
    unfold slotBit
    rw [if_pos hj]
  · intro j hj
    unfold slotBit
    rw [if_neg (by omega)]

/-- Claim C15 on `drumSong`, right after play: byte `0x50` under the cursor of
channel D selects the waveform of bytes 118 .. 126. -/
theorem sample_playback_witness :
    ((stateAfter 16 8 drumSong 0).music_data = some drumSong ∧
      rd drumSong ((stateAfter 16 8 drumSong 0).data_pointer 3) = .ok (16 * 5 + 0)) ∧
    ∃ d' first last, fetchStep 16 (stateAfter 16 8 drumSong 0) 3 = .ok (.done, d') ∧
      SAMPLE_INDICIES[5 - 1]? = some first ∧ SAMPLE_INDICIES[5]? = some last ∧
      d'.current_byte = first ∧ d'.current_bit = 0 ∧ d'.current_sample = last :=
  ⟨⟨rfl, rfl⟩,
    (sample_playback 16 (stateAfter 16 8 drumSong 0) drumSong 5 0 rfl rfl (by decide)
      (by decide) (by decide)).elim fun d' h => h.elim fun first h => h.elim fun last h =>
        ⟨d', first, last, h.1, h.2.1, h.2.2.1, h.2.2.2.1, h.2.2.2.2.1, h.2.2.2.2.2.1⟩⟩

/-- Claim C15 as stated fails on the last byte of a waveform.  On `drumSong`
the first update call after play processes the byte `0x50` of channel D: the
cursor is at byte 118 = `SAMPLE_INDICIES[4]`, bit 0, the end index is
126 = `SAMPLE_INDICIES[5]`, and the prescaler holds 5.  Bit slot 56 is bit 0 of
byte 125, a byte of the range 118 .. 125 and one of the `8 * (126 - 118)` bits;
that bit of `SAMPLES` is 1.  The slot is processed in update call
`5 + 6 * 56 + 1` from there, and `out[3]` after that call is 0. -/
theorem sample_last_byte_skipped :
    SAMPLE_INDICIES[4]? = some 118 ∧ SAMPLE_INDICIES[5]? = some 126 ∧
    56 < 8 * (126 - 118) ∧ bankBit 118 56 = 1 ∧ SAMPLES[125]? = some 85 ∧
    (stateAfter 16 8 drumSong 1).current_byte = 118 ∧
    (stateAfter 16 8 drumSong 1).current_bit = 0 ∧
    (stateAfter 16 8 drumSong 1).current_sample = 126 ∧
    (stateAfter 16 8 drumSong 1).sample_counter = 5 ∧
    ∃ outs e', runUpdates 16 8 (5 + 6 * 56 + 1) (stateAfter 16 8 drumSong 1) = .ok (outs, e') ∧
      e'.out 3 = 0 := by
  refine ⟨rfl, rfl, by decide, by decide, by simp [SAMPLES], rfl, rfl, rfl, rfl, ?_⟩
  have hsong : (stateAfter 16 8 drumSong 1).music_data = some drumSong := rfl
  have hI : sampleInv (stateAfter 16 8 drumSong 1) :=
    ⟨by decide, by decide, Or.inl (by decide)⟩
  have htick : 5 + 6 * 56 + 1 ≤ (stateAfter 16 8 drumSong 1).tick_counter := by decide
  obtain ⟨outs, e', hrun⟩ := @runUpdates_defined 16 8 drumSong (5 + 6 * 56 + 1)
    (stateAfter 16 8 drumSong 1) hsong hI htick
  refine ⟨outs, e', hrun, ?_⟩
  have hpass := (runUpdates_countdown (5 + 6 * 56 + 1) hsong htick hrun).1
  have hout := @runUpdates_slot_out 16 8 118 126 (by decide) (by decide)
    (stateAfter 16 8 drumSong 1) e' drumSong outs 56 hsong rfl rfl rfl hrun
    (by
      show passCount 16 8 (5 + 6 * 56 + 1) (stateAfter 16 8 drumSong 1) ≤ _
      rw [hpass]
      exact Nat.zero_le _)
  rw [hout]
  decide

/-! ## The stored pin -/

theorem loopStart_pin {w : Nat} {d d' : MMMLDriver} {v : Fin 4}
    (h : loopStart w d v = .ok d') : d'.output_pin = d.output_pin := by
  unfold loopStart at h
  dsimp only at h
  split at h
  · cases h
  · cases h
    rfl

theorem loopEnd_pin {w : Nat} {d d' : MMMLDriver} {v : Fin 4}
    (h : loopEnd w d v = .ok d') : d'.output_pin = d.output_pin := by
  unfold loopEnd at h
  split at h
  · cases h
  · split at h
    · cases h
      rfl
    · cases h
      rfl

theorem subroutineCall_pin {w : Nat} {prog : List Byte} {d d' : MMMLDriver} {v : Fin 4}
    (h : subroutineCall w prog d v = .ok d') : d'.output_pin = d.output_pin := by
  unfold subroutineCall at h
  split at h
  · cases h
  · cases h
    rfl

theorem trackReturn_pin {w : Nat} {prog : List Byte} {d d' : MMMLDriver} {v : Fin 4}
    (h : trackReturn w prog d v = .ok d') : d'.output_pin = d.output_pin := by
  unfold trackReturn at h
  split at h
  · cases h
    rfl
  · split at h
    · cases h
    · cases h
      rfl

theorem extendedCommand_pin {w : Nat} {prog : List Byte} {d d' : MMMLDriver} {v : Fin 4}
    (h : extendedCommand w prog d v = .ok d') : d'.output_pin = d.output_pin := by
  unfold extendedCommand at h
  split_ifs at h
  · exact loopStart_pin h
  · exact loopEnd_pin h
  · exact subroutineCall_pin h
  · cases h
    rfl
  · cases h
    rfl
  · cases h
    rfl
  · exact trackReturn_pin h
  · cases h
    rfl

theorem toneEvent_pin {d d' : MMMLDriver} {v : Fin 4}
    (h : toneEvent d v = .ok d') : d'.output_pin = d.output_pin := by
  unfold toneEvent at h
  split_ifs at h
  · split at h
    · cases h
    · cases h
      rfl
  · split at h
    · cases h
      rfl
    · cases h
  · cases h
    rfl

/-- No trip through the fetch loop writes the stored pin. -/
theorem fetchStep_pin {w : Nat} {d d' : MMMLDriver} {u : Fin 4} {c : Ctl}
    (h : fetchStep w d u = .ok (c, d')) : d'.output_pin = d.output_pin := by
  obtain ⟨prog, b, -, -, hcase⟩ := fetchStep_cases h
  rcases hcase with ⟨-, -, operand, -, hx⟩ | ⟨-, -, rfl⟩ | ⟨-, -, rfl⟩ | ⟨-, -, -, -, hx⟩
  · have h1 := extendedCommand_pin hx
    exact h1
  · rfl
  · rfl
  · unfold soundingEvent at hx
    cases ht : toneEvent (decode d b) u with
    | error e => rw [ht] at hx; cases hx
    | ok d1 =>
      rw [ht] at hx
      cases hx
      have h1 : d1.output_pin = (decode d b).output_pin := toneEvent_pin ht
      exact h1

theorem sampler_pin {d d' : MMMLDriver} (h : sampler d = .ok d') :
    d'.output_pin = d.output_pin := by
  unfold sampler at h
  split_ifs at h
  · cases hb : sampleBit d with
    | error e => rw [hb] at h; cases h
    | ok d1 =>
      rw [hb] at h
      cases h
      have h1 : d1.output_pin = d.output_pin := by
        unfold sampleBit at hb
        split_ifs at hb
        · split at hb
          · cases hb
          · cases hb
            rfl
        · cases hb
          rfl
      have h2 : (nextSampleByte d1).output_pin = d1.output_pin := by
        unfold nextSampleByte
        split_ifs <;> rfl
      exact h2.trans h1
  · cases h
    rfl

/-- No call of `mmml_driver_update` writes the stored pin. -/
theorem update_pin {w fuel : Nat} {d d' : MMMLDriver} {o : Nat}
    (h : mmml_driver_update w fuel d = .ok (o, d')) : d'.output_pin = d.output_pin := by
  cases hm : d.music_data with
  | none =>
    rw [update_idle hm] at h
    cases h
    rfl
  | some prog =>
    obtain ⟨d1, hs, hp, -⟩ := update_cases hm h
    have h1 : (pulseAll w d1).output_pin = d.output_pin := @sampler_pin d d1 hs
    exact dataProcessing_preserves (P := fun x => x.output_pin = d.output_pin)
      (fun _ _ hP => hP) (fun _ _ _ hP => hP)
      (fun _ _ _ _ hstep hP => (fetchStep_pin hstep).trans hP) hp h1

/-- The pin stored in a record the driver can produce is below 256: only
`mmml_driver_init` writes it, from its `unsigned char` parameter. -/
theorem reached_pin {w fuel : Nat} {d : MMMLDriver} (h : Reached w fuel d) :
    d.output_pin < 256 := by
  induction h with
  | init s pin => exact Nat.mod_lt _ (by decide)
  | play prog _ hplay ih =>
    obtain ⟨x0, x1, x2, x3, rfl⟩ := play_cases hplay
    exact ih
  | update o _ hu ih =>
    rw [update_pin hu]
    exact ih
  | stop _ ih => exact Nat.mod_lt _ (by decide)

/-- The record after `mmml_driver_init`, `mmml_driver_play(demoSong)` and two
update calls is one the driver can produce. -/
theorem reached_demo : Reached 16 8 (stateAfter 16 8 demoSong 2) :=
  Reached.update 1 (Reached.update 0 (Reached.play demoSong (Reached.init MMMLDriver.zero 13)
      (show mmml_driver_play 16 freshDriver demoSong = .ok (stateAfter 16 8 demoSong 0) from rfl))
      (show mmml_driver_update 16 8 (stateAfter 16 8 demoSong 0)
        = .ok (0, stateAfter 16 8 demoSong 1) from rfl))
      (show mmml_driver_update 16 8 (stateAfter 16 8 demoSong 1)
        = .ok (1, stateAfter 16 8 demoSong 2) from rfl)

/-- Claim C4.  `mmml_driver_stop` leaves exactly the record `mmml_driver_init`
leaves when called with the stored pin; the program binding is cleared, so any
number of following `mmml_driver_update` calls return 0 and change nothing.  The
stored pin, an `unsigned int`, passes through the `unsigned char` parameter of
`mmml_driver_init` and comes back reduced modulo 256, so it is kept whenever it
is below 256.  It is below 256 in every record the driver can produce
(`mmml_driver_init`, then any calls of `mmml_driver_play`, `mmml_driver_update`
and `mmml_driver_stop`), since only `mmml_driver_init` writes it: in all these
records `mmml_driver_stop` keeps the pin. -/
theorem stop_is_init (w fuel : Nat) (d : MMMLDriver) :
    mmml_driver_stop d = mmml_driver_init d d.output_pin ∧
    (mmml_driver_stop d).output_pin = d.output_pin % 256 ∧
    (d.output_pin < 256 → (mmml_driver_stop d).output_pin = d.output_pin) ∧
    (mmml_driver_stop d).music_data = none ∧
    (∀ n, runUpdates w fuel n (mmml_driver_stop d)
      = .ok (List.replicate n 0, mmml_driver_stop d)) ∧
    (Reached w fuel d →
      d.output_pin < 256 ∧ (mmml_driver_stop d).output_pin = d.output_pin) :=
  ⟨rfl, rfl, fun h => Nat.mod_eq_of_lt h, rfl, runUpdates_idle rfl,
    fun h => ⟨reached_pin h, Nat.mod_eq_of_lt (reached_pin h)⟩⟩

/-- Claim C4 on the record after `mmml_driver_init` with pin 13,
`mmml_driver_play(demoSong)` and two update calls. -/
theorem stop_is_init_witness :
    Reached 16 8 (stateAfter 16 8 demoSong 2) ∧
    (stateAfter 16 8 demoSong 2).output_pin = 13 ∧
    (mmml_driver_stop (stateAfter 16 8 demoSong 2)).output_pin
      = (stateAfter 16 8 demoSong 2).output_pin ∧
    (mmml_driver_stop (stateAfter 16 8 demoSong 2)).music_data = none :=
  ⟨reached_demo, rfl,
    ((stop_is_init 16 8 (stateAfter 16 8 demoSong 2)).2.2.2.2.2 reached_demo).2,
    (stop_is_init 16 8 (stateAfter 16 8 demoSong 2)).2.2.2.1⟩

end MMML
